import Mathlib

/-!
# prismarine-chunk, `src/pc/1.13/ChunkSection.js`

A shallow embedding of the 1.13 chunk section (a 16×16×16 paletted, bit-packed
block container with two 4-bit light channels) and proofs about it.

`ChunkSection.js` is embedded from the source.  The modules it requires
(`BitArray`, `getBlockIndex`, `neededBits`, `constants`, `varInt`) are not part
of the available sources; they are modelled from the specification and each such
definition says so in its doc comment.
-/

namespace PrismarineChunk

/-! ## Collaborators of `ChunkSection.js` -/

/-- Modelled from the spec: the error kinds of §7 (`IndexOutOfRange`,
`ValueOutOfRange`, `DeserializationError`). -/
inductive Error where
  | IndexOutOfRange
  | ValueOutOfRange
  | DeserializationError
  deriving DecidableEq, Repr

/-- Modelled from the spec: `constants.SECTION_WIDTH = 16` (§6). -/
def SECTION_WIDTH : Nat := 16

/-- Modelled from the spec: `constants.SECTION_HEIGHT = 16` (§6). -/
def SECTION_HEIGHT : Nat := 16

/-- Modelled from the spec: `constants.SECTION_VOLUME = 4096` (§6). -/
def SECTION_VOLUME : Nat := 4096

/-- Modelled from the spec: the two configurable widths of the constants module (§6), whose
values the spec only gives by example (`8` and `15`); they are parameters here. -/
structure Constants where
  MAX_BITS_PER_BLOCK : Nat
  GLOBAL_BITS_PER_BLOCK : Nat
  deriving DecidableEq, Repr

/-- The example values of §6. -/
def exampleConstants : Constants := ⟨8, 15⟩

/-- The values of the constants under which the section works as the spec describes: the
local maximum is at least the default width 4, and both widths fit a Packed Array (1–32). -/
def Constants.Valid (c : Constants) : Prop :=
  4 ≤ c.MAX_BITS_PER_BLOCK ∧ c.MAX_BITS_PER_BLOCK ≤ 32 ∧
    1 ≤ c.GLOBAL_BITS_PER_BLOCK ∧ c.GLOBAL_BITS_PER_BLOCK ≤ 32

instance (c : Constants) : Decidable c.Valid := by
  unfold Constants.Valid; exact inferInstance

/-- A cell position `{ x, y, z }`. -/
structure Pos where
  x : Nat
  y : Nat
  z : Nat
  deriving DecidableEq, Repr

/-- The positions of the section: every coordinate in `[0, 15]`. -/
def Pos.InRange (p : Pos) : Prop :=
  p.x < SECTION_WIDTH ∧ p.y < SECTION_HEIGHT ∧ p.z < SECTION_WIDTH

instance (p : Pos) : Decidable p.InRange := by
  unfold Pos.InRange; exact inferInstance

/-- Modelled from the spec: `getBlockIndex` (§4.1), `index(x, y, z) = y * 256 + z * 16 + x`. -/
def getBlockIndex (pos : Pos) : Nat :=
  pos.y * 256 + pos.z * 16 + pos.x

/-- Modelled from the spec: `neededBits` (§4.2), the minimum `b ≥ 0` with `maxIndex < 2^b`,
so `neededBits 0 = 0`. -/
def neededBits (maxIndex : Nat) : Nat :=
  if maxIndex = 0 then 0 else Nat.log2 maxIndex + 1

/-- Modelled from the spec: the Packed Array (§3, §4.3), `bitsPerValue`-wide unsigned values
packed without padding into a sequence of 32-bit words. -/
structure BitArray where
  data : List Nat
  capacity : Nat
  bitsPerValue : Nat
  deriving DecidableEq, Repr

namespace BitArray

/-- Modelled from the spec: the number of words backing `capacity` values of `bitsPerValue`
bits, `ceil(capacity * bitsPerValue / 32)` (§3). -/
def wordCount (capacity bitsPerValue : Nat) : Nat :=
  (capacity * bitsPerValue + 31) / 32

/-- Modelled from the spec: `new BitArray({ bitsPerValue, capacity })`, zero-initialised
(§3, lifecycle). -/
def new (bitsPerValue capacity : Nat) : BitArray :=
  { data := List.replicate (wordCount capacity bitsPerValue) 0
    capacity := capacity
    bitsPerValue := bitsPerValue }

/-- Modelled from the spec: accessor for the width. -/
def getBitsPerValue (a : BitArray) : Nat := a.bitsPerValue

/-- Modelled from the spec: accessor for the raw word count (§4.3). -/
def length (a : BitArray) : Nat := a.data.length

/-- Modelled from the spec: accessor for the word sequence (§4.3). -/
def getBuffer (a : BitArray) : List Nat := a.data

/-- Modelled from the spec: the word-level read of `get` (§4.3).  For the bit offset
`bitIndex` the start word is `bitIndex / 32` and the start bit `bitIndex mod 32`;
`bitsPerValue` bits are read from there, taking the following word too when the span crosses
a 32-bit boundary. -/
def readBits (data : List Nat) (bitIndex bitsPerValue : Nat) : Nat :=
  let startWord := bitIndex / 32
  let startBit := bitIndex % 32
  let low := data.getD startWord 0 >>> startBit
  let result :=
    if startBit + bitsPerValue > 32 then
      low ||| (data.getD (startWord + 1) 0 <<< (32 - startBit))
    else low
  result % 2 ^ bitsPerValue

/-- Modelled from the spec: `get(i)` (§4.3): the `bitsPerValue`-wide unsigned value at the
bit offset `i * bitsPerValue`.  Fails with `IndexOutOfRange` outside `[0, capacity)`. -/
def get (a : BitArray) (index : Nat) : Except Error Nat :=
  if index < a.capacity then
    .ok (readBits a.data (index * a.bitsPerValue) a.bitsPerValue)
  else .error .IndexOutOfRange

/-- Modelled from the spec: helper of `set` (§4.3), the word `w` with the bits selected by
`mask` cleared. -/
def clearBits (w mask : Nat) : Nat := w ^^^ (w &&& mask)

/-- Modelled from the spec: the word-level write of `set` (§4.3), the inverse of the read:
the `bitsPerValue` bits from the bit offset `bitIndex` on are replaced by those of `v`, in
the start word and, when the span crosses a 32-bit boundary, in the following word. -/
def writeBits (data : List Nat) (bitIndex bitsPerValue v : Nat) : List Nat :=
  let startWord := bitIndex / 32
  let startBit := bitIndex % 32
  let mask := 2 ^ bitsPerValue - 1
  let w0 := data.getD startWord 0
  let w0' := (clearBits w0 (mask <<< startBit) ||| (v <<< startBit)) % 2 ^ 32
  let data0 := data.set startWord w0'
  if startBit + bitsPerValue > 32 then
    let w1 := data0.getD (startWord + 1) 0
    let w1' := clearBits w1 (mask >>> (32 - startBit)) ||| (v >>> (32 - startBit))
    data0.set (startWord + 1) w1'
  else data0

/-- Modelled from the spec: `set(i, v)` (§4.3), the inverse of `get`.  Fails with
`IndexOutOfRange` when `i` is outside `[0, capacity)` and with `ValueOutOfRange` when `v` is
not a value of the width (`v ≥ 2^bitsPerValue`; §4.5 counts every value outside
`[0, 2^bitsPerValue)`, so a negative one too). -/
def set (a : BitArray) (index : Nat) (value : Int) : Except Error BitArray :=
  if index < a.capacity then
    if 0 ≤ value ∧ value < 2 ^ a.bitsPerValue then
      .ok { a with data := writeBits a.data (index * a.bitsPerValue) a.bitsPerValue value.toNat }
    else .error .ValueOutOfRange
  else .error .IndexOutOfRange

/-- Modelled from the spec: the copy loop of `resizeTo` (§3 lifecycle, "all logical values
copied over"): slot `i` of the receiver is read and written to the new array, for the indices
of the list in order. -/
def copyInto (a : BitArray) : List Nat → BitArray → Except Error BitArray
  | [], newArr => .ok newArr
  | i :: rest, newArr =>
    match a.get i with
    | .error e => .error e
    | .ok value =>
      match newArr.set i value with
      | .error e => .error e
      | .ok newArr' => copyInto a rest newArr'

/-- Modelled from the spec: `resizeTo(newBits)` (§4.3, §3 lifecycle): a new Packed Array of
width `newBits` and the same capacity, with every logical value copied over; the receiver is
not mutated. -/
def resizeTo (a : BitArray) (newBitsPerValue : Nat) : Except Error BitArray :=
  copyInto a (List.range a.capacity) (BitArray.new newBitsPerValue a.capacity)

/-- Modelled from the spec: the invariants of a Packed Array (§3): a width in `1–32`, a word
sequence of `ceil(capacity * bitsPerValue / 32)` words, every word a 32-bit value. -/
def WellFormed (a : BitArray) : Prop :=
  1 ≤ a.bitsPerValue ∧ a.bitsPerValue ≤ 32 ∧
    a.data.length = wordCount a.capacity a.bitsPerValue ∧ ∀ w ∈ a.data, w < 2 ^ 32

instance (a : BitArray) : Decidable a.WellFormed := by
  unfold WellFormed; exact inferInstance

/-- Modelled from the spec: the serialized Packed Array of the persistence snapshot (§4.7):
words, bits-per-value and capacity. -/
structure Json where
  data : List Nat
  capacity : Nat
  bitsPerValue : Nat
  deriving DecidableEq, Repr

/-- Modelled from the spec: `BitArray.toJson` (§4.7). -/
def toJson (a : BitArray) : Json :=
  { data := a.data, capacity := a.capacity, bitsPerValue := a.bitsPerValue }

/-- Modelled from the spec: `BitArray.fromJson` (§4.7, §7).  The argument is the field of the
parsed snapshot, `none` when the field is missing; a missing or malformed field fails with
`DeserializationError`. -/
def fromJson (j : Option Json) : Except Error BitArray :=
  match j with
  | none => .error .DeserializationError
  | some j =>
    let a : BitArray := { data := j.data, capacity := j.capacity, bitsPerValue := j.bitsPerValue }
    if a.WellFormed then .ok a else .error .DeserializationError

/-- Bit `p` of a word sequence: bit `p mod 32` of word `p / 32`. -/
def bitAt (data : List Nat) (p : Nat) : Bool :=
  (data.getD (p / 32) 0).testBit (p % 32)

/-- The value held by slot `i`, which `get` returns for an index within the capacity. -/
def valueAt (a : BitArray) (i : Nat) : Nat :=
  readBits a.data (i * a.bitsPerValue) a.bitsPerValue

end BitArray

/-! ## `ChunkSection.js` -/

/-- The positions visited by the source's triple loop
`for x < SECTION_WIDTH, for y < SECTION_HEIGHT, for z < SECTION_WIDTH`, in the order of the
loop (constructor lines 17–19, `setBlock` lines 129–131). -/
def allPositions : List Pos :=
  (List.range SECTION_WIDTH).flatMap fun x =>
    (List.range SECTION_HEIGHT).flatMap fun y =>
      (List.range SECTION_WIDTH).map fun z => ({ x := x, y := y, z := z } : Pos)

/-- The fields of a `ChunkSection` object (constructor lines 54–59).  `palette = none` is the
source's `palette === null`, the Global mode. -/
structure ChunkSection where
  data : BitArray
  palette : Option (List Int)
  isDirty : Bool
  blockLight : BitArray
  skyLight : BitArray
  solidBlockCount : Int
  deriving DecidableEq, Repr

/-- The `options` object given to the constructor.  A field is `none` when the property is
`undefined`; for `palette`, `none` also stands for `null`, which `!options.palette` treats the
same way. -/
structure Options where
  data : Option BitArray := none
  palette : Option (List Int) := none
  blockLight : Option BitArray := none
  skyLight : Option BitArray := none
  solidBlockCount : Option Int := none
  deriving DecidableEq, Repr

namespace ChunkSection

/-- The counting loop of the constructor (lines 16–25): one more for every visited position
whose stored value `options.data.get(getBlockIndex(p))` is not `0`. -/
def countSolid (data : BitArray) : List Pos → Int → Except Error Int
  | [], count => .ok count
  | p :: rest, count =>
    match data.get (getBlockIndex p) with
    | .error e => .error e
    | .ok value => countSolid data rest (if value ≠ 0 then count + 1 else count)

/-- The constructor `new ChunkSection(options)` (lines 8–60), for `options !== null`. -/
def new (options : Options) : Except Error ChunkSection :=
  let counted : Except Error Int :=
    match options.solidBlockCount with
    | some count => .ok count
    | none =>
      match options.data with
      | some data => countSolid data allPositions 0
      | none => .ok 0
  match counted with
  | .error e => .error e
  | .ok solidBlockCount =>
    .ok
      { data := options.data.getD (BitArray.new 4 SECTION_VOLUME)
        palette := some (options.palette.getD [0])
        isDirty := false
        blockLight := options.blockLight.getD (BitArray.new 4 SECTION_VOLUME)
        skyLight := options.skyLight.getD (BitArray.new 4 SECTION_VOLUME)
        solidBlockCount := solidBlockCount }

/-- The section that `new ChunkSection()` builds. -/
def fresh : ChunkSection :=
  { data := BitArray.new 4 SECTION_VOLUME
    palette := some [0]
    isDirty := false
    blockLight := BitArray.new 4 SECTION_VOLUME
    skyLight := BitArray.new 4 SECTION_VOLUME
    solidBlockCount := 0 }

/-- The palette field of a parsed snapshot: absent from the record, `null`, or an array. -/
inductive PaletteField where
  | missing
  | null
  | entries (palette : List Int)
  deriving DecidableEq, Repr

/-- What the constructor sees of a parsed palette field: `undefined` and `null` are both
falsy. -/
def PaletteField.toOption : PaletteField → Option (List Int)
  | .missing => none
  | .null => none
  | .entries palette => some palette

/-- The record behind the snapshot string (`toJson` lines 63–70); a field is `none` when the
record does not have it. -/
structure Snapshot where
  data : Option BitArray.Json
  palette : PaletteField
  isDirty : Option Bool
  blockLight : Option BitArray.Json
  skyLight : Option BitArray.Json
  solidBlockCount : Option Int
  deriving DecidableEq, Repr

/-- The method `toJson` (lines 62–71), up to `JSON.stringify`. -/
def toJson (s : ChunkSection) : Snapshot :=
  { data := some s.data.toJson
    palette :=
      match s.palette with
      | some palette => .entries palette
      | none => .null
    isDirty := some s.isDirty
    blockLight := some s.blockLight.toJson
    skyLight := some s.skyLight.toJson
    solidBlockCount := some s.solidBlockCount }

/-- The static method `fromJson` (lines 73–82), from the parsed record on. -/
def fromJson (parsed : Snapshot) : Except Error ChunkSection :=
  match BitArray.fromJson parsed.data with
  | .error e => .error e
  | .ok data =>
    match BitArray.fromJson parsed.blockLight with
    | .error e => .error e
    | .ok blockLight =>
      match BitArray.fromJson parsed.skyLight with
      | .error e => .error e
      | .ok skyLight =>
        ChunkSection.new
          { data := some data
            palette := parsed.palette.toOption
            blockLight := some blockLight
            skyLight := some skyLight
            solidBlockCount := parsed.solidBlockCount }

/-- The method `getBlock` (lines 84–98).  The stored value is a `Nat`, so the source's test
`stateId >= 0` always passes. -/
def getBlock (s : ChunkSection) (pos : Pos) : Except Error Int :=
  match s.data.get (getBlockIndex pos) with
  | .error e => .error e
  | .ok stateId =>
    match s.palette with
    | some palette =>
      if h : 0 ≤ (stateId : Int) ∧ stateId < palette.length then
        .ok (palette.get ⟨stateId, h.2⟩)
      else .ok stateId
    | none => .ok stateId

/-- JavaScript's `Array.prototype.indexOf` on a palette: the first position of `stateId`, or
`-1` when it does not occur. -/
def indexOf (palette : List Int) (stateId : Int) : Int :=
  if stateId ∈ palette then (palette.indexOf stateId : Nat) else -1

/-- The copy loop of the switch to the global palette (lines 129–136): for each visited
position, `newData.set(getBlockIndex(p), this.getBlock(p))`. -/
def migrate (s : ChunkSection) : List Pos → BitArray → Except Error BitArray
  | [], newData => .ok newData
  | p :: rest, newData =>
    match s.getBlock p with
    | .error e => .error e
    | .ok stateId =>
      match newData.set (getBlockIndex p) stateId with
      | .error e => .error e
      | .ok newData' => migrate s rest newData'

/-- Lines 103–147 of `setBlock`: the section after the palette was searched and, if needed,
grown, resized or dropped, with the value `palettedIndex` to store.  An exception leaves the
section as mutated so far. -/
def preparePalette (c : Constants) (s : ChunkSection) (stateId : Int) :
    Except (Error × ChunkSection) (ChunkSection × Int) :=
  match s.palette with
  | some palette =>
    let indexInPalette := indexOf palette stateId
    if indexInPalette ≥ 0 then
      .ok (s, indexInPalette)
    else
      let pushed := palette ++ [stateId]
      let s1 := { s with palette := some pushed }
      let palettedIndex := pushed.length - 1
      let bitsPerValue := neededBits palettedIndex
      if bitsPerValue > s1.data.getBitsPerValue then
        if bitsPerValue ≤ c.MAX_BITS_PER_BLOCK then
          match s1.data.resizeTo bitsPerValue with
          | .error e => .error (e, s1)
          | .ok resized => .ok ({ s1 with data := resized }, palettedIndex)
        else
          match migrate s1 allPositions (BitArray.new c.GLOBAL_BITS_PER_BLOCK SECTION_VOLUME) with
          | .error e => .error (e, s1)
          | .ok newData => .ok ({ s1 with palette := none, data := newData }, stateId)
      else .ok (s1, palettedIndex)
  | none => .ok (s, stateId)

/-- The method `setBlock` (lines 100–157).  The result is the section after the call, or the
exception together with the section as the call left it. -/
def setBlock (c : Constants) (s : ChunkSection) (pos : Pos) (stateId : Int) :
    Except (Error × ChunkSection) ChunkSection :=
  let blockIndex := getBlockIndex pos
  match preparePalette c s stateId with
  | .error e => .error e
  | .ok (s2, palettedIndex) =>
    match s2.getBlock pos with
    | .error e => .error (e, s2)
    | .ok oldBlock =>
      let s3 :=
        if stateId = 0 ∧ oldBlock ≠ 0 then
          { s2 with solidBlockCount := s2.solidBlockCount - 1 }
        else if stateId ≠ 0 ∧ oldBlock = 0 then
          { s2 with solidBlockCount := s2.solidBlockCount + 1 }
        else s2
      match s3.data.set blockIndex palettedIndex with
      | .error e => .error (e, s3)
      | .ok data => .ok { s3 with data := data }

/-- The method `getBlockLight` (lines 159–161). -/
def getBlockLight (s : ChunkSection) (pos : Pos) : Except Error Nat :=
  s.blockLight.get (getBlockIndex pos)

/-- The method `getSkyLight` (lines 163–165). -/
def getSkyLight (s : ChunkSection) (pos : Pos) : Except Error Nat :=
  s.skyLight.get (getBlockIndex pos)

/-- The method `setBlockLight` (lines 167–169). -/
def setBlockLight (s : ChunkSection) (pos : Pos) (light : Int) : Except Error ChunkSection :=
  match s.blockLight.set (getBlockIndex pos) light with
  | .error e => .error e
  | .ok blockLight => .ok { s with blockLight := blockLight }

/-- The method `setSkyLight` (lines 171–173). -/
def setSkyLight (s : ChunkSection) (pos : Pos) (light : Int) : Except Error ChunkSection :=
  match s.skyLight.set (getBlockIndex pos) light with
  | .error e => .error e
  | .ok skyLight => .ok { s with skyLight := skyLight }

/-- The method `isEmpty` (lines 175–177). -/
def isEmpty (s : ChunkSection) : Bool :=
  s.solidBlockCount == 0

end ChunkSection

/-- Modelled from the spec: one write on the output buffer collaborator of §6, as `write`
makes it: `smartBuffer.writeUInt8(v)`, `varInt.write(smartBuffer, v)` or
`smartBuffer.writeUInt32BE(v)`. -/
inductive Written where
  | uint8 (value : Int)
  | varInt (value : Int)
  | uint32BE (value : Int)
  deriving DecidableEq, Repr

/-- Modelled from the spec: the append-only sink of §6, as the sequence of the writes made on
it so far. -/
abbrev SmartBuffer := List Written

namespace ChunkSection

/-- The loops `for (let i = 0; i < arr.length(); ++i) smartBuffer.writeUInt32BE(arr.getBuffer()[i])`
of `write` (lines 195–207), over the indices of the list. -/
def writeWords (arr : BitArray) : List Nat → SmartBuffer → SmartBuffer
  | [], smartBuffer => smartBuffer
  | i :: rest, smartBuffer =>
    writeWords arr rest (smartBuffer ++ [Written.uint32BE (arr.getBuffer.getD i 0)])

/-- The `forEach` over the palette in `write` (lines 186–188). -/
def writePalette : List Int → SmartBuffer → SmartBuffer
  | [], smartBuffer => smartBuffer
  | paletteElement :: rest, smartBuffer =>
    writePalette rest (smartBuffer ++ [Written.varInt paletteElement])

/-- The method `write` (lines 180–208); the section is only read. -/
def write (s : ChunkSection) (smartBuffer : SmartBuffer) : SmartBuffer :=
  let b1 := smartBuffer ++ [Written.uint8 s.data.getBitsPerValue]
  let b2 :=
    match s.palette with
    | some palette => writePalette palette (b1 ++ [Written.varInt palette.length])
    | none => b1
  let b3 := b2 ++ [Written.varInt s.data.length]
  let b4 := writeWords s.data (List.range s.data.length) b3
  let b5 := writeWords s.blockLight (List.range s.blockLight.length) b4
  writeWords s.skyLight (List.range s.skyLight.length) b5

/-- A run of `setBlock` calls, stopped by the first exception. -/
def run (c : Constants) : ChunkSection → List (Pos × Int) → Except (Error × ChunkSection) ChunkSection
  | s, [] => .ok s
  | s, (pos, stateId) :: rest =>
    match setBlock c s pos stateId with
    | .error e => .error e
    | .ok s' => run c s' rest

/-- The sections reachable from `new ChunkSection()` by `setBlock` calls at positions of the
section that return normally; the identifiers are arbitrary integers. -/
inductive Reachable (c : Constants) : ChunkSection → Prop where
  | fresh : Reachable c fresh
  | setBlock {s s' : ChunkSection} {pos : Pos} {stateId : Int} :
      Reachable c s → pos.InRange → setBlock c s pos stateId = .ok s' → Reachable c s'

end ChunkSection

/-! ## Notions used to state and prove the properties -/

namespace ChunkSection

/-- The identifier that `getBlock` resolves the value stored at linear index `i` to: the
palette entry at that position if there is one, the stored value itself otherwise. -/
def resolve (s : ChunkSection) (i : Nat) : Int :=
  match s.palette with
  | some palette => (palette[s.data.valueAt i]?).getD (s.data.valueAt i : Int)
  | none => (s.data.valueAt i : Int)

/-- The number of positions of the section whose `getBlock` result is non-zero. -/
def solidCells (s : ChunkSection) : Nat :=
  allPositions.countP fun p =>
    match s.getBlock p with
    | .ok stateId => stateId != 0
    | .error _ => false

/-- The structural invariant of a section: well-formed arrays of `SECTION_VOLUME` slots, 4-bit
light arrays, and, in Indexed mode, a duplicate-free palette starting with `0` that every stored
value indexes, with the block array exactly as wide as the palette needs (at least 4, at most
`MAX_BITS_PER_BLOCK`); in Global mode the block array is `GLOBAL_BITS_PER_BLOCK` wide. -/
structure Shape (c : Constants) (s : ChunkSection) : Prop where
  data_wf : s.data.WellFormed
  data_cap : s.data.capacity = SECTION_VOLUME
  blockLight_wf : s.blockLight.WellFormed
  blockLight_cap : s.blockLight.capacity = SECTION_VOLUME
  blockLight_bits : s.blockLight.bitsPerValue = 4
  skyLight_wf : s.skyLight.WellFormed
  skyLight_cap : s.skyLight.capacity = SECTION_VOLUME
  skyLight_bits : s.skyLight.bitsPerValue = 4
  indexed : ∀ palette, s.palette = some palette →
    palette.Nodup ∧ palette.head? = some 0 ∧
      (∀ i, i < SECTION_VOLUME → s.data.valueAt i < palette.length) ∧
      s.data.bitsPerValue = max 4 (neededBits (palette.length - 1)) ∧
      s.data.bitsPerValue ≤ c.MAX_BITS_PER_BLOCK
  global : s.palette = none → s.data.bitsPerValue = c.GLOBAL_BITS_PER_BLOCK

/-- The invariant of a section: its shape, and `solidBlockCount` counting the non-zero cells. -/
def Inv (c : Constants) (s : ChunkSection) : Prop :=
  Shape c s ∧ s.solidBlockCount = (s.solidCells : Int)

/-- Every palette entry is an identifier of the global width, in `[0, 2^GLOBAL_BITS_PER_BLOCK)`. -/
def Bounded (c : Constants) (s : ChunkSection) : Prop :=
  ∀ palette, s.palette = some palette →
    ∀ e ∈ palette, 0 ≤ e ∧ e < 2 ^ c.GLOBAL_BITS_PER_BLOCK

/-- The palette after `setBlock` looked `stateId` up in it: unchanged when the section is in
Global mode or `stateId` is an entry; dropped when `stateId` is new and the palette holds
`2^MAX_BITS_PER_BLOCK` entries; `stateId` appended otherwise. -/
def nextPalette (c : Constants) (palette : Option (List Int)) (stateId : Int) :
    Option (List Int) :=
  match palette with
  | none => none
  | some palette =>
    if stateId ∈ palette then some palette
    else if palette.length = 2 ^ c.MAX_BITS_PER_BLOCK then none
    else some (palette ++ [stateId])

/-- The value `palettedIndex` that `setBlock` stores resolves to `stateId`. -/
def Target (s : ChunkSection) (palettedIndex stateId : Int) : Prop :=
  match s.palette with
  | some palette =>
    ∃ n : Nat, palettedIndex = (n : Int) ∧ n < palette.length ∧ palette[n]? = some stateId ∧
      (n : Int) < 2 ^ s.data.bitsPerValue
  | none => palettedIndex = stateId

/-- The count `setBlock` leaves in `solidBlockCount` (lines 149–154): one less when a non-zero
cell is set to `0`, one more when a zero cell is set to a non-zero identifier. -/
def nextCount (count oldBlock stateId : Int) : Int :=
  if stateId = 0 ∧ oldBlock ≠ 0 then count - 1
  else if stateId ≠ 0 ∧ oldBlock = 0 then count + 1
  else count

/-- A run of 256 calls `setBlock((0,0,0), i)` for `i = 1, …, 256`: with the palette entry `0`
these are 257 distinct identifiers. -/
def fillOps : List (Pos × Int) :=
  (List.range 256).map fun (i : Nat) => (({ x := 0, y := 0, z := 0 } : Pos), (i : Int) + 1)

/-- The first 255 calls of `fillOps`: `setBlock((0,0,0), i)` for `i = 1, …, 255`. -/
def fillFirst : List (Pos × Int) :=
  (List.range 255).map fun (i : Nat) => (({ x := 0, y := 0, z := 0 } : Pos), (i : Int) + 1)

/-- The number of distinct identifiers among `0` (in the palette from construction on) and
those of a sequence of `setBlock` calls. -/
def distinctIds (ops : List (Pos × Int)) : Nat :=
  (0 :: ops.map Prod.snd).toFinset.card

/-- The palette state `palette` records the identifiers `seen` so far. -/
def Records (c : Constants) (palette : Option (List Int)) (seen : List Int) : Prop :=
  match palette with
  | some pal => pal.Nodup ∧ pal.toFinset = seen.toFinset ∧ pal.length ≤ 2 ^ c.MAX_BITS_PER_BLOCK
  | none => 2 ^ c.MAX_BITS_PER_BLOCK < seen.toFinset.card

/-- The number of positions of the section whose stored value `data.get(getBlockIndex(p))`
is non-zero. -/
def storedNonZero (data : BitArray) : Nat :=
  allPositions.countP fun p => data.valueAt (getBlockIndex p) != 0

/-- The sections reachable from `new ChunkSection()` by `setBlock` calls at positions of the
section, with identifiers in `[0, 2^GLOBAL_BITS_PER_BLOCK)`, that return normally. -/
inductive ReachableBounded (c : Constants) : ChunkSection → Prop where
  | fresh : ReachableBounded c fresh
  | setBlock {s s' : ChunkSection} {pos : Pos} {stateId : Int} :
      ReachableBounded c s → pos.InRange →
      0 ≤ stateId → stateId < 2 ^ c.GLOBAL_BITS_PER_BLOCK →
      setBlock c s pos stateId = .ok s' → ReachableBounded c s'

/-- The sections reachable from `new ChunkSection()` by `setBlock`, `setBlockLight` and
`setSkyLight` calls at positions of the section that return normally. -/
inductive ReachableWithLight (c : Constants) : ChunkSection → Prop where
  | fresh : ReachableWithLight c fresh
  | setBlock {s s' : ChunkSection} {pos : Pos} {stateId : Int} :
      ReachableWithLight c s → pos.InRange → setBlock c s pos stateId = .ok s' →
      ReachableWithLight c s'
  | setBlockLight {s s' : ChunkSection} {pos : Pos} {light : Int} :
      ReachableWithLight c s → pos.InRange → setBlockLight s pos light = .ok s' →
      ReachableWithLight c s'
  | setSkyLight {s s' : ChunkSection} {pos : Pos} {light : Int} :
      ReachableWithLight c s → pos.InRange → setSkyLight s pos light = .ok s' →
      ReachableWithLight c s'

end ChunkSection

/-! ## Proofs -/

theorem testBit_eq_false_of_lt_two_pow_le {w n j : Nat} (hw : w < 2 ^ n) (hj : n ≤ j) :
    w.testBit j = false :=
  Nat.testBit_lt_two_pow (lt_of_lt_of_le hw (Nat.pow_le_pow_right (by decide) hj))

theorem lt_two_pow_of_testBit_high {w : Nat} (h : ∀ j, 32 ≤ j → w.testBit j = false) :
    w < 2 ^ 32 := by
  by_contra hc
  obtain ⟨j, hj, hb⟩ := Nat.ge_two_pow_implies_high_bit_true (not_lt.mp hc)
  rw [h j hj] at hb
  exact absurd hb (by simp)

theorem getD_lt_of_forall {data : List Nat} (h : ∀ w ∈ data, w < 2 ^ 32) (k : Nat) :
    data.getD k 0 < 2 ^ 32 := by
  rw [List.getD_eq_getElem?_getD]
  cases hk : data[k]? with
  | none => simp
  | some w => exact h w (List.getElem?_mem hk)

theorem forall_lt_of_getD {data : List Nat} (h : ∀ k, data.getD k 0 < 2 ^ 32) :
    ∀ w ∈ data, w < 2 ^ 32 := by
  intro w hw
  obtain ⟨k, hk⟩ := List.mem_iff_getElem?.mp hw
  have := h k
  rw [List.getD_eq_getElem?_getD, hk] at this
  exact this

theorem getD_set (l : List Nat) (i k x : Nat) :
    (l.set i x).getD k 0 = if i = k ∧ i < l.length then x else l.getD k 0 := by
  simp only [List.getD_eq_getElem?_getD, List.getElem?_set]
  by_cases h : i = k
  · subst h
    by_cases h2 : i < l.length
    · simp [h2]
    · simp [h2, List.getElem?_eq_none (not_lt.mp h2)]
  · simp [h]

namespace BitArray

theorem testBit_readBits (data : List Nat) (off n b : Nat) (hn : n ≤ 32)
    (hw : ∀ w ∈ data, w < 2 ^ 32) :
    (readBits data off n).testBit b = (decide (b < n) && bitAt data (off + b)) := by
  unfold readBits
  simp only []
  rw [Nat.testBit_mod_two_pow]
  by_cases hbb : b < n
  · simp only [hbb, decide_True, Bool.true_and, bitAt]
    have h0 := getD_lt_of_forall hw (off / 32)
    by_cases hlo : off % 32 + b < 32
    · have e1 : (off + b) / 32 = off / 32 := by omega
      have e2 : (off + b) % 32 = off % 32 + b := by omega
      rw [e1, e2]
      split
      · rw [Nat.testBit_or, Nat.testBit_shiftRight, Nat.testBit_shiftLeft]
        have : ¬ (b ≥ 32 - off % 32) := by omega
        simp [this]
      · rw [Nat.testBit_shiftRight]
    · have e1 : (off + b) / 32 = off / 32 + 1 := by omega
      have e2 : (off + b) % 32 = b - (32 - off % 32) := by omega
      rw [e1, e2]
      rw [if_pos (by omega), Nat.testBit_or, Nat.testBit_shiftRight, Nat.testBit_shiftLeft,
        testBit_eq_false_of_lt_two_pow_le h0 (by omega)]
      have : b ≥ 32 - off % 32 := by omega
      simp [this]
  · simp [hbb]

theorem readBits_lt (data : List Nat) (off n : Nat) : readBits data off n < 2 ^ n :=
  Nat.mod_lt _ (by positivity)

theorem testBit_clearBits (w mask j : Nat) :
    (clearBits w mask).testBit j = (w.testBit j && !mask.testBit j) := by
  unfold clearBits
  rw [Nat.testBit_xor, Nat.testBit_and]
  cases w.testBit j <;> cases mask.testBit j <;> rfl

theorem testBit_lowWord (w v sb n j : Nat) (hv : v < 2 ^ n) :
    ((clearBits w ((2 ^ n - 1) <<< sb) ||| (v <<< sb)) % 2 ^ 32).testBit j =
      (decide (j < 32) &&
        (if sb ≤ j ∧ j < sb + n then v.testBit (j - sb) else w.testBit j)) := by
  rw [Nat.testBit_mod_two_pow, Nat.testBit_or, testBit_clearBits, Nat.testBit_shiftLeft,
    Nat.testBit_shiftLeft, Nat.testBit_two_pow_sub_one]
  by_cases h1 : sb ≤ j
  · by_cases h2 : j < sb + n
    · have : j - sb < n := by omega
      simp [h1, h2, this]
    · have : ¬ (j - sb < n) := by omega
      have hf : v.testBit (j - sb) = false :=
        testBit_eq_false_of_lt_two_pow_le hv (by omega)
      simp [h1, h2, this, hf]
  · simp [h1]

theorem testBit_highWord (w v k n j : Nat) (hv : v < 2 ^ n) :
    (clearBits w ((2 ^ n - 1) >>> k) ||| (v >>> k)).testBit j =
      (if k + j < n then v.testBit (k + j) else w.testBit j) := by
  rw [Nat.testBit_or, testBit_clearBits, Nat.testBit_shiftRight, Nat.testBit_shiftRight,
    Nat.testBit_two_pow_sub_one]
  by_cases h : k + j < n
  · simp [h]
  · have hf : v.testBit (k + j) = false := testBit_eq_false_of_lt_two_pow_le hv (by omega)
    simp [h, hf]

theorem length_writeBits (data : List Nat) (off n v : Nat) :
    (writeBits data off n v).length = data.length := by
  unfold writeBits
  simp only []
  split <;> simp

theorem writeBits_lt (data : List Nat) (off n v : Nat) (hn : n ≤ 32) (hv : v < 2 ^ n)
    (hw : ∀ w ∈ data, w < 2 ^ 32) : ∀ w ∈ writeBits data off n v, w < 2 ^ 32 := by
  apply forall_lt_of_getD
  intro k
  unfold writeBits
  simp only []
  split
  · simp only [getD_set, List.length_set]
    split
    · apply lt_two_pow_of_testBit_high
      intro j hj
      rw [testBit_highWord _ _ _ _ _ hv, if_neg (by omega)]
      split
      · exact testBit_eq_false_of_lt_two_pow_le (Nat.mod_lt _ (by positivity)) hj
      · exact testBit_eq_false_of_lt_two_pow_le (getD_lt_of_forall hw _) hj
    · split
      · exact Nat.mod_lt _ (by positivity)
      · exact getD_lt_of_forall hw _
  · simp only [getD_set]
    split
    · exact Nat.mod_lt _ (by positivity)
    · exact getD_lt_of_forall hw _

theorem bitAt_writeBits (data : List Nat) (off n v p : Nat) (h1 : 1 ≤ n) (hn : n ≤ 32)
    (hv : v < 2 ^ n)
    (hlen : off + n ≤ 32 * data.length) :
    bitAt (writeBits data off n v) p =
      if off ≤ p ∧ p < off + n then v.testBit (p - off) else bitAt data p := by
  unfold writeBits
  simp only []
  have hp32 : p % 32 < 32 := Nat.mod_lt _ (by decide)
  by_cases hcross : off % 32 + n > 32
  · rw [if_pos hcross]
    simp only [bitAt, getD_set, List.length_set]
    by_cases hp0 : p / 32 = off / 32
    · have hne : ¬ (off / 32 + 1 = p / 32) := by omega
      rw [if_neg (fun h => hne h.1), if_pos ⟨hp0.symm, by omega⟩, testBit_lowWord _ _ _ _ _ hv]
      simp only [hp32, decide_True, Bool.true_and]
      by_cases hin : off ≤ p ∧ p < off + n
      · rw [if_pos hin, if_pos (by omega)]
        congr 1; omega
      · rw [if_neg hin, if_neg (by omega), hp0]
    · by_cases hp1 : p / 32 = off / 32 + 1
      · rw [if_pos ⟨hp1.symm, by omega⟩, testBit_highWord _ _ _ _ _ hv]
        have hne : ¬ (off / 32 = off / 32 + 1) := by omega
        by_cases hin : off ≤ p ∧ p < off + n
        · rw [if_pos hin, if_pos (by omega)]
          congr 1; omega
        · rw [if_neg hin, if_neg (by omega), if_neg (fun h => hne h.1), hp1]
      · rw [if_neg (fun h => hp1 h.1.symm), if_neg (fun h => hp0 h.1.symm), if_neg (by omega)]
  · rw [if_neg hcross]
    simp only [bitAt, getD_set]
    by_cases hp0 : p / 32 = off / 32
    · rw [if_pos ⟨hp0.symm, by omega⟩, testBit_lowWord _ _ _ _ _ hv]
      simp only [hp32, decide_True, Bool.true_and]
      by_cases hin : off ≤ p ∧ p < off + n
      · rw [if_pos hin, if_pos (by omega)]
        congr 1; omega
      · rw [if_neg hin, if_neg (by omega), hp0]
    · rw [if_neg (fun h => hp0 h.1.symm), if_neg (by omega)]

theorem get_eq (a : BitArray) (i : Nat) (hi : i < a.capacity) : a.get i = .ok (a.valueAt i) := by
  simp [get, hi, valueAt]

theorem get_eq_error (a : BitArray) (i : Nat) (hi : ¬ i < a.capacity) :
    a.get i = .error .IndexOutOfRange := by
  simp [get, hi]

theorem valueAt_lt (a : BitArray) (i : Nat) : a.valueAt i < 2 ^ a.bitsPerValue :=
  readBits_lt _ _ _

theorem slot_le_length {a : BitArray} (h : a.WellFormed) {i : Nat} (hi : i < a.capacity) :
    i * a.bitsPerValue + a.bitsPerValue ≤ 32 * a.data.length := by
  obtain ⟨_, _, hl, _⟩ := h
  rw [hl, wordCount]
  have h1 : (i + 1) * a.bitsPerValue ≤ a.capacity * a.bitsPerValue :=
    Nat.mul_le_mul_right _ hi
  rw [Nat.add_mul, Nat.one_mul] at h1
  omega

theorem toNat_lt_of_lt {value : Int} {n : Nat} (h0 : 0 ≤ value) (h : value < 2 ^ n) :
    value.toNat < 2 ^ n := by
  have : ((value.toNat : Nat) : Int) < ((2 ^ n : Nat) : Int) := by
    rw [Int.toNat_of_nonneg h0]; push_cast; exact h
  exact_mod_cast this

theorem set_eq (a : BitArray) (i : Nat) (value : Int) (hi : i < a.capacity)
    (h0 : 0 ≤ value) (hv : value < 2 ^ a.bitsPerValue) :
    a.set i value =
      .ok { a with data := writeBits a.data (i * a.bitsPerValue) a.bitsPerValue value.toNat } := by
  simp [set, hi, h0, hv]

theorem set_eq_error_value (a : BitArray) (i : Nat) (value : Int) (hi : i < a.capacity)
    (hv : ¬ (0 ≤ value ∧ value < 2 ^ a.bitsPerValue)) :
    a.set i value = .error .ValueOutOfRange := by
  simp only [set, hi, if_true, hv, if_false]

theorem set_wellFormed {a a' : BitArray} {i : Nat} {value : Int} (h : a.WellFormed)
    (hs : a.set i value = .ok a') :
    a'.WellFormed ∧ a'.capacity = a.capacity ∧ a'.bitsPerValue = a.bitsPerValue := by
  unfold set at hs
  split at hs
  · split at hs
    · rename_i hv
      injection hs with hs
      subst hs
      obtain ⟨h1, h2, h3, h4⟩ := h
      exact ⟨⟨h1, h2, by simpa [length_writeBits] using h3,
        writeBits_lt _ _ _ _ h2 (toNat_lt_of_lt hv.1 hv.2) h4⟩, rfl, rfl⟩
    · cases hs
  · cases hs

theorem valueAt_set {a a' : BitArray} {i : Nat} {value : Int} (h : a.WellFormed)
    (hs : a.set i value = .ok a') (j : Nat) :
    a'.valueAt j = if j = i then value.toNat else a.valueAt j := by
  unfold set at hs
  split at hs
  · rename_i hi
    split at hs
    · rename_i hv
      injection hs with hs
      subst hs
      obtain ⟨h1, h2, h3, h4⟩ := h
      have hvn := toNat_lt_of_lt hv.1 hv.2
      have hlen := slot_le_length ⟨h1, h2, h3, h4⟩ hi
      apply Nat.eq_of_testBit_eq
      intro b
      simp only [valueAt]
      rw [testBit_readBits _ _ _ _ h2 (writeBits_lt _ _ _ _ h2 hvn h4),
        bitAt_writeBits _ _ _ _ _ h1 h2 hvn hlen]
      by_cases hb : b < a.bitsPerValue
      · simp only [hb, decide_True, Bool.true_and]
        rcases Nat.lt_trichotomy j i with hji | hji | hji
        · have := Nat.mul_le_mul_right a.bitsPerValue (Nat.succ_le_of_lt hji)
          rw [Nat.succ_mul] at this
          rw [if_neg (by omega), if_neg (by omega), testBit_readBits _ _ _ _ h2 h4]
          simp [hb]
        · subst hji
          rw [if_pos (by omega), if_pos rfl]
          congr 1; omega
        · have := Nat.mul_le_mul_right a.bitsPerValue (Nat.succ_le_of_lt hji)
          rw [Nat.succ_mul] at this
          rw [if_neg (by omega), if_neg (by omega), testBit_readBits _ _ _ _ h2 h4]
          simp [hb]
      · have hf : ∀ x : Nat, x < 2 ^ a.bitsPerValue → x.testBit b = false := fun x hx =>
          testBit_eq_false_of_lt_two_pow_le hx (by omega)
        simp only [hb, decide_False, Bool.false_and]
        split
        · exact (hf _ hvn).symm
        · exact (hf _ (readBits_lt _ _ _)).symm
    · cases hs
  · cases hs

theorem new_wellFormed (n cap : Nat) (h1 : 1 ≤ n) (h2 : n ≤ 32) : (BitArray.new n cap).WellFormed := by
  refine ⟨h1, h2, by simp [BitArray.new], ?_⟩
  intro w hw
  simp only [BitArray.new] at hw
  rw [List.eq_of_mem_replicate hw]
  positivity

theorem valueAt_new (n cap i : Nat) : (BitArray.new n cap).valueAt i = 0 := by
  have hz : ∀ k, (List.replicate (wordCount cap n) 0).getD k 0 = 0 := by
    intro k
    rw [List.getD_eq_getElem?_getD]
    cases hk : (List.replicate (wordCount cap n) 0)[k]? with
    | none => rfl
    | some w => exact List.eq_of_mem_replicate (List.getElem?_mem hk)
  simp only [valueAt, BitArray.new, readBits, hz]
  split <;> simp

theorem copyInto_spec (a : BitArray) :
    ∀ (l : List Nat) (arr : BitArray), arr.WellFormed → arr.capacity = a.capacity →
      a.bitsPerValue ≤ arr.bitsPerValue → (∀ i ∈ l, i < a.capacity) →
      ∃ arr', copyInto a l arr = .ok arr' ∧ arr'.WellFormed ∧ arr'.capacity = a.capacity ∧
        arr'.bitsPerValue = arr.bitsPerValue ∧
        ∀ j, arr'.valueAt j = if j ∈ l then a.valueAt j else arr.valueAt j := by
  intro l
  induction l with
  | nil => intro arr h1 h2 _ _; exact ⟨arr, rfl, h1, h2, rfl, by simp⟩
  | cons i rest ih =>
    intro arr h1 h2 h3 h4
    have hi : i < a.capacity := h4 i (List.mem_cons_self _ _)
    have hv : ((a.valueAt i : Nat) : Int) < 2 ^ arr.bitsPerValue := by
      have := lt_of_lt_of_le (valueAt_lt a i) (Nat.pow_le_pow_right (by decide) h3)
      exact_mod_cast this
    have hset := set_eq arr i (a.valueAt i) (h2 ▸ hi) (Int.natCast_nonneg _) hv
    obtain ⟨w1, w2, w3⟩ := set_wellFormed h1 hset
    obtain ⟨arr', e1, e2, e3, e4, e5⟩ := ih _ w1 (w2.trans h2) (by rw [w3]; exact h3)
      (fun k hk => h4 k (List.mem_cons_of_mem _ hk))
    refine ⟨arr', ?_, e2, e3, by rw [e4, w3], ?_⟩
    · simp only [copyInto, get_eq a i hi, hset]
      exact e1
    · intro j
      rw [e5 j, valueAt_set h1 hset j]
      by_cases hj : j ∈ rest
      · simp [hj]
      · by_cases hji : j = i
        · subst hji; simp [hj]
        · simp [hj, hji]

theorem resizeTo_spec (a : BitArray) (ha : a.WellFormed) (n : Nat) (h1 : a.bitsPerValue ≤ n)
    (h2 : n ≤ 32) :
    ∃ a', a.resizeTo n = .ok a' ∧ a'.WellFormed ∧ a'.capacity = a.capacity ∧
      a'.bitsPerValue = n ∧ ∀ j, j < a.capacity → a'.valueAt j = a.valueAt j := by
  obtain ⟨a', e1, e2, e3, e4, e5⟩ := copyInto_spec a (List.range a.capacity)
    (BitArray.new n a.capacity) (new_wellFormed _ _ (le_trans ha.1 h1) h2) rfl h1
    (fun i hi => List.mem_range.mp hi)
  refine ⟨a', e1, e2, e3, e4, ?_⟩
  intro j hj
  rw [e5 j, if_pos (List.mem_range.mpr hj)]

end BitArray

theorem getBlockIndex_lt {p : Pos} (h : p.InRange) : getBlockIndex p < SECTION_VOLUME := by
  obtain ⟨h1, h2, h3⟩ := h
  simp only [SECTION_WIDTH, SECTION_HEIGHT] at h1 h2 h3
  simp only [getBlockIndex, SECTION_VOLUME]
  omega

theorem getBlockIndex_inj {p q : Pos} (hp : p.InRange) (hq : q.InRange)
    (h : getBlockIndex p = getBlockIndex q) : p = q := by
  obtain ⟨h1, h2, h3⟩ := hp
  obtain ⟨h4, h5, h6⟩ := hq
  simp only [SECTION_WIDTH, SECTION_HEIGHT] at h1 h2 h3 h4 h5 h6
  simp only [getBlockIndex] at h
  cases p; cases q
  simp only [Pos.mk.injEq] at *
  omega

theorem mem_allPositions (p : Pos) : p ∈ allPositions ↔ p.InRange := by
  simp only [allPositions, List.mem_flatMap, List.mem_map, List.mem_range, Pos.InRange]
  constructor
  · rintro ⟨x, hx, y, hy, z, hz, rfl⟩
    exact ⟨hx, hy, hz⟩
  · rintro ⟨hx, hy, hz⟩
    exact ⟨p.x, hx, p.y, hy, p.z, hz, rfl⟩

theorem nodup_allPositions : allPositions.Nodup := by
  unfold allPositions
  rw [List.nodup_flatMap]
  refine ⟨fun x _ => ?_, ?_⟩
  · rw [List.nodup_flatMap]
    refine ⟨fun y _ => ?_, ?_⟩
    · exact (List.nodup_range _).map (fun a b h => by injection h)
    · apply (List.nodup_range _).pairwise_of_forall_ne
      intro a _ b _ hab
      simp only [Function.onFun, List.disjoint_left, List.mem_map, List.mem_range]
      rintro q ⟨z, _, rfl⟩ ⟨z', _, h⟩
      injection h with _ h2 _
      exact hab h2.symm
  · apply (List.nodup_range _).pairwise_of_forall_ne
    intro a _ b _ hab
    simp only [Function.onFun, List.disjoint_left, List.mem_flatMap, List.mem_map, List.mem_range]
    rintro q ⟨y, _, z, _, rfl⟩ ⟨y', _, z', _, h⟩
    injection h with h1 _ _
    exact hab h1.symm

theorem exists_pos_of_index {j : Nat} (hj : j < SECTION_VOLUME) :
    ∃ p, p ∈ allPositions ∧ getBlockIndex p = j := by
  simp only [SECTION_VOLUME] at hj
  refine ⟨⟨j % 16, j / 256, j / 16 % 16⟩, (mem_allPositions _).mpr ?_, ?_⟩
  · simp only [Pos.InRange, SECTION_WIDTH, SECTION_HEIGHT]
    omega
  · simp only [getBlockIndex]
    omega

theorem neededBits_le_iff (n b : Nat) : neededBits n ≤ b ↔ n < 2 ^ b := by
  unfold neededBits
  split
  · rename_i h; subst h; simp
  · rename_i h
    rw [← Nat.log2_lt h]
    omega

theorem lt_two_pow_neededBits (n : Nat) : n < 2 ^ neededBits n :=
  (neededBits_le_iff n _).mp le_rfl

theorem neededBits_mono {n m : Nat} (h : n ≤ m) : neededBits n ≤ neededBits m :=
  (neededBits_le_iff n _).mpr (lt_of_le_of_lt h (lt_two_pow_neededBits m))

namespace ChunkSection

theorem getBlock_eq_resolve (s : ChunkSection) (p : Pos)
    (h : getBlockIndex p < s.data.capacity) :
    s.getBlock p = .ok (s.resolve (getBlockIndex p)) := by
  unfold getBlock resolve
  rw [BitArray.get_eq _ _ h]
  cases hp : s.palette with
  | none => rfl
  | some palette =>
    simp only []
    split
    · rename_i hh
      rw [List.getElem?_eq_getElem hh.2]
      rfl
    · rename_i hh
      have : ¬ s.data.valueAt (getBlockIndex p) < palette.length := fun h2 =>
        hh ⟨Int.natCast_nonneg _, h2⟩
      rw [List.getElem?_eq_none (not_lt.mp this)]
      rfl

theorem getBlock_eq_error (s : ChunkSection) (p : Pos)
    (h : ¬ getBlockIndex p < s.data.capacity) :
    s.getBlock p = .error .IndexOutOfRange := by
  unfold getBlock
  rw [BitArray.get_eq_error _ _ h]

theorem migrate_ok (s : ChunkSection) :
    ∀ (l : List Pos) (arr arr' : BitArray), arr.WellFormed →
      (∀ p ∈ l, getBlockIndex p < s.data.capacity) →
      migrate s l arr = .ok arr' →
      arr'.WellFormed ∧ arr'.capacity = arr.capacity ∧ arr'.bitsPerValue = arr.bitsPerValue ∧
        (∀ p ∈ l, 0 ≤ s.resolve (getBlockIndex p) ∧
          s.resolve (getBlockIndex p) < 2 ^ arr.bitsPerValue) ∧
        ∀ j, arr'.valueAt j =
          if j ∈ l.map getBlockIndex then (s.resolve j).toNat else arr.valueAt j := by
  intro l
  induction l with
  | nil =>
    intro arr arr' h1 _ h
    simp only [migrate] at h
    injection h with h
    subst h
    exact ⟨h1, rfl, rfl, by simp, by simp⟩
  | cons p rest ih =>
    intro arr arr' h1 h2 h
    have hp := h2 p (List.mem_cons_self _ _)
    simp only [migrate, getBlock_eq_resolve s p hp] at h
    cases hset : arr.set (getBlockIndex p) (s.resolve (getBlockIndex p)) with
    | error e => rw [hset] at h; cases h
    | ok arr1 =>
      rw [hset] at h
      simp only [] at h
      obtain ⟨w1, w2, w3⟩ := BitArray.set_wellFormed h1 hset
      obtain ⟨e1, e2, e3, e4, e5⟩ := ih arr1 arr' w1
        (fun q hq => h2 q (List.mem_cons_of_mem _ hq)) h
      have hrange : 0 ≤ s.resolve (getBlockIndex p) ∧
          s.resolve (getBlockIndex p) < 2 ^ arr.bitsPerValue := by
        unfold BitArray.set at hset
        split at hset
        · split at hset
          · assumption
          · cases hset
        · cases hset
      refine ⟨e1, e2.trans w2, e3.trans w3, ?_, ?_⟩
      · intro q hq
        rcases List.mem_cons.mp hq with rfl | hq
        · exact hrange
        · rw [← w3]; exact e4 q hq
      · intro j
        rw [e5 j, BitArray.valueAt_set h1 hset j]
        simp only [List.map_cons, List.mem_cons]
        by_cases hj : j ∈ rest.map getBlockIndex
        · simp [hj]
        · by_cases hji : j = getBlockIndex p
          · subst hji; simp [hj]
          · simp [hj, hji]

theorem migrate_succeeds (s : ChunkSection) :
    ∀ (l : List Pos) (arr : BitArray), arr.WellFormed →
      (∀ p ∈ l, getBlockIndex p < s.data.capacity ∧ getBlockIndex p < arr.capacity ∧
        0 ≤ s.resolve (getBlockIndex p) ∧ s.resolve (getBlockIndex p) < 2 ^ arr.bitsPerValue) →
      ∃ arr', migrate s l arr = .ok arr' := by
  intro l
  induction l with
  | nil => intro arr _ _; exact ⟨arr, rfl⟩
  | cons p rest ih =>
    intro arr h1 h2
    obtain ⟨a1, a2, a3, a4⟩ := h2 p (List.mem_cons_self _ _)
    have hset := BitArray.set_eq arr _ _ a2 a3 a4
    obtain ⟨w1, w2, w3⟩ := BitArray.set_wellFormed h1 hset
    obtain ⟨arr', h⟩ := ih _ w1 (fun q hq => by
      obtain ⟨b1, b2, b3, b4⟩ := h2 q (List.mem_cons_of_mem _ hq)
      exact ⟨b1, by rw [w2]; exact b2, b3, by rw [w3]; exact b4⟩)
    exact ⟨arr', by simp only [migrate, getBlock_eq_resolve s p a1, hset]; exact h⟩

theorem indexOf_nonneg_iff (palette : List Int) (stateId : Int) :
    indexOf palette stateId ≥ 0 ↔ stateId ∈ palette := by
  unfold indexOf
  split
  · rename_i h; simp [h]
  · rename_i h; simp [h]

theorem indexOf_of_mem {palette : List Int} {stateId : Int} (h : stateId ∈ palette) :
    ∃ n : Nat, indexOf palette stateId = (n : Int) ∧ n < palette.length ∧
      palette[n]? = some stateId ∧ n = palette.indexOf stateId := by
  refine ⟨palette.indexOf stateId, by simp [indexOf, h], List.indexOf_lt_length.mpr h, ?_, rfl⟩
  rw [← List.get?_eq_getElem?]
  exact List.indexOf_get? h

theorem length_pos_of_head {palette : List Int} (h : palette.head? = some 0) :
    0 < palette.length := by
  cases palette with
  | nil => simp at h
  | cons a l => simp

theorem resolve_push {s : ChunkSection} {palette : List Int} (hp : s.palette = some palette)
    (stateId : Int) {j : Nat} (hj : s.data.valueAt j < palette.length) :
    ({ s with palette := some (palette ++ [stateId]) } : ChunkSection).resolve j = s.resolve j := by
  simp only [resolve, hp]
  rw [List.getElem?_append_left hj]

theorem preparePalette_ok {c : Constants} {s s2 : ChunkSection} {stateId k : Int}
    (hc : c.Valid) (hs : Shape c s) (h : preparePalette c s stateId = .ok (s2, k)) :
    Shape c s2 ∧ s2.blockLight = s.blockLight ∧ s2.skyLight = s.skyLight ∧
      s2.isDirty = s.isDirty ∧ s2.solidBlockCount = s.solidBlockCount ∧
      (∀ j, j < SECTION_VOLUME → s2.resolve j = s.resolve j) ∧
      Target s2 k stateId ∧ s2.palette = nextPalette c s.palette stateId ∧
      (Bounded c s → 0 ≤ stateId → stateId < 2 ^ c.GLOBAL_BITS_PER_BLOCK → Bounded c s2) := by
  obtain ⟨hc1, hc2, hc3, hc4⟩ := hc
  unfold preparePalette at h
  cases hp : s.palette with
  | none =>
    rw [hp] at h
    simp only [Except.ok.injEq, Prod.mk.injEq] at h
    obtain ⟨rfl, rfl⟩ := h
    refine ⟨hs, rfl, rfl, rfl, rfl, fun _ _ => rfl, ?_, ?_, fun hb _ _ => hb⟩
    · simp [Target, hp]
    · simp [nextPalette, hp]
  | some palette =>
    rw [hp] at h
    simp only [] at h
    obtain ⟨i1, i2, i3, i4, i5⟩ := hs.indexed palette hp
    have hlen := length_pos_of_head i2
    have hlt : palette.length - 1 < 2 ^ s.data.bitsPerValue := by
      rw [← neededBits_le_iff, i4]; exact le_max_right _ _
    by_cases hmem : stateId ∈ palette
    · rw [if_pos ((indexOf_nonneg_iff _ _).mpr hmem)] at h
      simp only [Except.ok.injEq, Prod.mk.injEq] at h
      obtain ⟨rfl, rfl⟩ := h
      obtain ⟨n, e1, e2, e3, _⟩ := indexOf_of_mem hmem
      refine ⟨hs, rfl, rfl, rfl, rfl, fun _ _ => rfl, ?_, ?_, fun hb _ _ => hb⟩
      · simp only [Target, hp]
        refine ⟨n, e1, e2, e3, ?_⟩
        have : n < 2 ^ s.data.bitsPerValue := by omega
        exact_mod_cast this
      · simp [nextPalette, hp, hmem]
    · rw [if_neg (fun hh => hmem ((indexOf_nonneg_iff _ _).mp hh))] at h
      have hpushlen : (palette ++ [stateId]).length - 1 = palette.length := by simp
      rw [hpushlen] at h
      simp only [BitArray.getBitsPerValue] at h
      have hnodup : (palette ++ [stateId]).Nodup := by
        rw [List.nodup_append]
        refine ⟨i1, List.nodup_singleton _, ?_⟩
        intro a ha hb
        rw [List.mem_singleton] at hb
        subst hb
        exact hmem ha
      have hhead : (palette ++ [stateId]).head? = some 0 := by
        rw [List.head?_append, i2]; rfl
      have hget : (palette ++ [stateId])[palette.length]? = some stateId := by
        simp
      have hbounded : Bounded c s → 0 ≤ stateId → stateId < 2 ^ c.GLOBAL_BITS_PER_BLOCK →
          ∀ e ∈ palette ++ [stateId], 0 ≤ e ∧ e < 2 ^ c.GLOBAL_BITS_PER_BLOCK := by
        intro hb h0 h1 e he
        rcases List.mem_append.mp he with he | he
        · exact hb palette hp e he
        · rw [List.mem_singleton] at he; subst he; exact ⟨h0, h1⟩
      by_cases hgrow : neededBits palette.length > s.data.bitsPerValue
      · rw [if_pos hgrow] at h
        by_cases hmax : neededBits palette.length ≤ c.MAX_BITS_PER_BLOCK
        · -- the block array is resized
          rw [if_pos hmax] at h
          obtain ⟨d, r1, r2, r3, r4, r5⟩ := BitArray.resizeTo_spec s.data hs.data_wf
            (neededBits palette.length) (le_of_lt hgrow) (le_trans hmax hc2)
          simp only [r1, Except.ok.injEq, Prod.mk.injEq] at h
          obtain ⟨rfl, rfl⟩ := h
          have hne : palette.length ≠ 2 ^ c.MAX_BITS_PER_BLOCK := by
            have := (neededBits_le_iff _ _).mp hmax
            omega
          refine ⟨⟨r2, r3.trans hs.data_cap, hs.blockLight_wf, hs.blockLight_cap,
            hs.blockLight_bits, hs.skyLight_wf, hs.skyLight_cap, hs.skyLight_bits, ?_, ?_⟩,
            rfl, rfl, rfl, rfl, ?_, ?_, ?_, ?_⟩
          · intro pal2 hpal2
            simp only [Option.some.injEq] at hpal2
            subst hpal2
            refine ⟨hnodup, hhead, ?_, ?_, ?_⟩
            · intro i hi
              simp only []
              rw [r5 i (by rw [hs.data_cap]; exact hi)]
              have := i3 i hi
              simp; omega
            · simp only [hpushlen, r4]
              have : 4 ≤ neededBits palette.length := by
                have := le_max_left 4 (neededBits (palette.length - 1))
                omega
              exact (max_eq_right this).symm
            · simp only [r4]; exact hmax
          · intro hh; cases hh
          · intro j hj
            have hv : d.valueAt j = s.data.valueAt j := r5 j (by rw [hs.data_cap]; exact hj)
            simp only [resolve, hp, hv]
            rw [List.getElem?_append_left (i3 j hj)]
          · simp only [Target]
            refine ⟨palette.length, rfl, by simp, hget, ?_⟩
            simp only [r4]
            exact_mod_cast lt_two_pow_neededBits palette.length
          · simp [nextPalette, hp, hmem, hne]
          · intro hb h0 h1 pal2 hpal2
            simp only [Option.some.injEq] at hpal2
            subst hpal2
            exact hbounded hb h0 h1
        · -- the section switches to the global palette
          rw [if_neg hmax] at h
          cases hm : migrate { s with palette := some (palette ++ [stateId]) } allPositions
              (BitArray.new c.GLOBAL_BITS_PER_BLOCK SECTION_VOLUME) with
          | error e => rw [hm] at h; cases h
          | ok newData =>
            rw [hm] at h
            simp only [Except.ok.injEq, Prod.mk.injEq] at h
            obtain ⟨rfl, rfl⟩ := h
            obtain ⟨m1, m2, m3, m4, m5⟩ := migrate_ok _ _ _ _
              (BitArray.new_wellFormed _ SECTION_VOLUME hc3 hc4)
              (fun p hp' => by
                simp only [hs.data_cap]
                exact getBlockIndex_lt ((mem_allPositions p).mp hp')) hm
            have heq : palette.length = 2 ^ c.MAX_BITS_PER_BLOCK := by
              have h1 : ¬ palette.length < 2 ^ c.MAX_BITS_PER_BLOCK := fun hh =>
                hmax ((neededBits_le_iff _ _).mpr hh)
              have h2 : palette.length - 1 < 2 ^ c.MAX_BITS_PER_BLOCK :=
                lt_of_lt_of_le hlt (Nat.pow_le_pow_right (by decide) i5)
              omega
            refine ⟨⟨m1, m2, hs.blockLight_wf, hs.blockLight_cap,
              hs.blockLight_bits, hs.skyLight_wf, hs.skyLight_cap, hs.skyLight_bits, ?_, ?_⟩,
              rfl, rfl, rfl, rfl, ?_, ?_, ?_, ?_⟩
            · intro pal2 hpal2; cases hpal2
            · intro _; exact m3
            · intro j hj
              obtain ⟨p, hpm, hpj⟩ := exists_pos_of_index hj
              have hjm : j ∈ allPositions.map getBlockIndex :=
                List.mem_map.mpr ⟨p, hpm, hpj⟩
              have h0 := (m4 p hpm).1
              rw [hpj] at h0
              have hr : ({ s with palette := some (palette ++ [stateId]) } : ChunkSection).resolve j
                  = s.resolve j := resolve_push hp stateId (i3 j hj)
              show ((newData.valueAt j : Nat) : Int) = s.resolve j
              rw [m5 j, if_pos hjm, Int.toNat_of_nonneg h0, hr]
            · simp [Target]
            · simp [nextPalette, hp, hmem, heq]
            · intro _ _ _ pal2 hpal2; cases hpal2
      · -- the new entry fits the current width
        rw [if_neg hgrow] at h
        simp only [Except.ok.injEq, Prod.mk.injEq] at h
        obtain ⟨rfl, rfl⟩ := h
        have hfit : palette.length < 2 ^ s.data.bitsPerValue :=
          (neededBits_le_iff _ _).mp (not_lt.mp hgrow)
        have hne : palette.length ≠ 2 ^ c.MAX_BITS_PER_BLOCK := by
          have := lt_of_lt_of_le hfit (Nat.pow_le_pow_right (by decide) i5)
          omega
        refine ⟨⟨hs.data_wf, hs.data_cap, hs.blockLight_wf, hs.blockLight_cap,
          hs.blockLight_bits, hs.skyLight_wf, hs.skyLight_cap, hs.skyLight_bits, ?_, ?_⟩,
          rfl, rfl, rfl, rfl, ?_, ?_, ?_, ?_⟩
        · intro pal2 hpal2
          simp only [Option.some.injEq] at hpal2
          subst hpal2
          refine ⟨hnodup, hhead, ?_, ?_, i5⟩
          · intro i hi
            have := i3 i hi
            simp; omega
          · simp only [hpushlen]
            have h1 : neededBits (palette.length - 1) ≤ neededBits palette.length :=
              neededBits_mono (Nat.sub_le _ _)
            have h2 := not_lt.mp hgrow
            rw [i4] at h2 ⊢
            have h3 := le_max_left 4 (neededBits (palette.length - 1))
            have h4 := le_max_right 4 (neededBits (palette.length - 1))
            apply le_antisymm
            · exact max_le (le_max_left _ _) (le_trans h1 (le_max_right _ _))
            · exact max_le h3 h2
        · intro hh; cases hh
        · intro j hj
          exact resolve_push hp stateId (i3 j hj)
        · simp only [Target]
          exact ⟨palette.length, rfl, by simp, hget, by exact_mod_cast hfit⟩
        · simp [nextPalette, hp, hmem, hne]
        · intro hb h0 h1 pal2 hpal2
          simp only [Option.some.injEq] at hpal2
          subst hpal2
          exact hbounded hb h0 h1

theorem preparePalette_succeeds {c : Constants} {s : ChunkSection} (stateId : Int)
    (hc : c.Valid) (hs : Shape c s) (hb : Bounded c s) :
    ∃ r, preparePalette c s stateId = .ok r := by
  obtain ⟨hc1, hc2, hc3, hc4⟩ := hc
  unfold preparePalette
  cases hp : s.palette with
  | none => exact ⟨_, rfl⟩
  | some palette =>
    simp only []
    obtain ⟨i1, i2, i3, i4, i5⟩ := hs.indexed palette hp
    split
    · exact ⟨_, rfl⟩
    · have hpushlen : (palette ++ [stateId]).length - 1 = palette.length := by simp
      rw [hpushlen]
      simp only [BitArray.getBitsPerValue]
      split
      · rename_i hgrow
        split
        · rename_i hmax
          obtain ⟨d, r1, _⟩ := BitArray.resizeTo_spec s.data hs.data_wf
            (neededBits palette.length) (le_of_lt hgrow) (le_trans hmax hc2)
          rw [r1]
          exact ⟨_, rfl⟩
        · obtain ⟨newData, hm⟩ := migrate_succeeds
            ({ s with palette := some (palette ++ [stateId]) } : ChunkSection) allPositions
            (BitArray.new c.GLOBAL_BITS_PER_BLOCK SECTION_VOLUME)
            (BitArray.new_wellFormed _ SECTION_VOLUME hc3 hc4)
            (fun p hp' => by
              have hlt := getBlockIndex_lt ((mem_allPositions p).mp hp')
              have hv := i3 _ hlt
              have hr : ({ s with palette := some (palette ++ [stateId]) } : ChunkSection).resolve
                  (getBlockIndex p) = s.resolve (getBlockIndex p) := resolve_push hp stateId hv
              have hmem : s.resolve (getBlockIndex p) ∈ palette := by
                simp only [resolve, hp]
                rw [List.getElem?_eq_getElem hv]
                exact List.getElem_mem _
              refine ⟨by simp only [hs.data_cap]; exact hlt, hlt, ?_⟩
              rw [hr]
              exact hb palette hp _ hmem)
          rw [hm]
          exact ⟨_, rfl⟩
      · exact ⟨_, rfl⟩

theorem setBlock_inv {c : Constants} {s s' : ChunkSection} {pos : Pos} {stateId : Int}
    (hpos : getBlockIndex pos < SECTION_VOLUME)
    (hc : c.Valid) (hs : Shape c s) (h : setBlock c s pos stateId = .ok s') :
    ∃ s2 k d, preparePalette c s stateId = .ok (s2, k) ∧
      s2.data.set (getBlockIndex pos) k = .ok d ∧
      s' = { s2 with
        data := d
        solidBlockCount :=
          nextCount s2.solidBlockCount (s2.resolve (getBlockIndex pos)) stateId } := by
  unfold setBlock at h
  cases hprep : preparePalette c s stateId with
  | error e => rw [hprep] at h; cases h
  | ok r =>
    obtain ⟨s2, k⟩ := r
    rw [hprep] at h
    simp only [] at h
    have hs2 := (preparePalette_ok hc hs hprep).1
    rw [getBlock_eq_resolve s2 pos (by rw [hs2.data_cap]; exact hpos)] at h
    simp only [] at h
    by_cases hA : stateId = 0 ∧ s2.resolve (getBlockIndex pos) ≠ 0
    · rw [if_pos hA] at h
      simp only [] at h
      cases hset : s2.data.set (getBlockIndex pos) k with
      | error e => rw [hset] at h; cases h
      | ok d =>
        rw [hset] at h
        injection h with h
        exact ⟨s2, k, d, rfl, hset, by rw [← h]; simp [nextCount, hA]⟩
    · rw [if_neg hA] at h
      by_cases hB : stateId ≠ 0 ∧ s2.resolve (getBlockIndex pos) = 0
      · rw [if_pos hB] at h
        simp only [] at h
        cases hset : s2.data.set (getBlockIndex pos) k with
        | error e => rw [hset] at h; cases h
        | ok d =>
          rw [hset] at h
          injection h with h
          exact ⟨s2, k, d, rfl, hset, by rw [← h]; simp [nextCount, hA, hB]⟩
      · rw [if_neg hB] at h
        cases hset : s2.data.set (getBlockIndex pos) k with
        | error e => rw [hset] at h; cases h
        | ok d =>
          rw [hset] at h
          injection h with h
          exact ⟨s2, k, d, rfl, hset, by rw [← h]; simp [nextCount, hA, hB]⟩

theorem set_value_range {a a' : BitArray} {i : Nat} {value : Int}
    (hs : a.set i value = .ok a') : 0 ≤ value ∧ value < 2 ^ a.bitsPerValue := by
  unfold BitArray.set at hs
  split at hs
  · split at hs
    · assumption
    · cases hs
  · cases hs

theorem setBlock_ok {c : Constants} {s s' : ChunkSection} {pos : Pos} {stateId : Int}
    (hpos : getBlockIndex pos < SECTION_VOLUME)
    (hc : c.Valid) (hs : Shape c s) (h : setBlock c s pos stateId = .ok s') :
    Shape c s' ∧ s'.blockLight = s.blockLight ∧ s'.skyLight = s.skyLight ∧
      s'.isDirty = s.isDirty ∧
      s'.solidBlockCount =
        nextCount s.solidBlockCount (s.resolve (getBlockIndex pos)) stateId ∧
      (∀ j, j < SECTION_VOLUME →
        s'.resolve j = if j = getBlockIndex pos then stateId else s.resolve j) ∧
      s'.palette = nextPalette c s.palette stateId ∧
      (Bounded c s → 0 ≤ stateId → stateId < 2 ^ c.GLOBAL_BITS_PER_BLOCK → Bounded c s') := by
  obtain ⟨s2, k, d, hprep, hset, rfl⟩ := setBlock_inv hpos hc hs h
  obtain ⟨p1, p2, p3, p4, p5, p6, p7, p8, p9⟩ := preparePalette_ok hc hs hprep
  obtain ⟨w1, w2, w3⟩ := BitArray.set_wellFormed p1.data_wf hset
  have hval := BitArray.valueAt_set p1.data_wf hset
  have hrange := set_value_range hset
  refine ⟨⟨w1, w2.trans p1.data_cap, p1.blockLight_wf, p1.blockLight_cap, p1.blockLight_bits,
    p1.skyLight_wf, p1.skyLight_cap, p1.skyLight_bits, ?_, ?_⟩, p2, p3, p4, ?_, ?_, p8, ?_⟩
  · intro pal hpal
    have hpal2 : s2.palette = some pal := hpal
    obtain ⟨i1, i2, i3, i4, i5⟩ := p1.indexed pal hpal2
    refine ⟨i1, i2, ?_, by simp only [w3]; exact i4, by simp only [w3]; exact i5⟩
    intro i hi
    simp only [hval i]
    split
    · simp only [Target, hpal2] at p7
      obtain ⟨n, e1, e2, _⟩ := p7
      rw [e1]; simpa using e2
    · exact i3 i hi
  · intro hnone
    simp only [w3]
    exact p1.global hnone
  · simp only [p5, p6 _ hpos]
  · intro j hj
    rw [← p6 j hj]
    simp only [resolve, hval j]
    cases hpal2 : s2.palette with
    | none =>
      simp only [Target, hpal2] at p7
      subst p7
      simp only []
      split
      · exact Int.toNat_of_nonneg hrange.1
      · rfl
    | some pal =>
      simp only [Target, hpal2] at p7
      obtain ⟨n, e1, e2, e3, _⟩ := p7
      simp only []
      split
      · rw [e1]; simp [e3]
      · rfl
  · intro hb h0 h1
    exact p9 hb h0 h1

theorem setBlock_succeeds {c : Constants} {s : ChunkSection} {pos : Pos} {stateId : Int}
    (hpos : getBlockIndex pos < SECTION_VOLUME)
    (hc : c.Valid) (hs : Shape c s) (hb : Bounded c s)
    (h0 : 0 ≤ stateId) (h1 : stateId < 2 ^ c.GLOBAL_BITS_PER_BLOCK) :
    ∃ s', setBlock c s pos stateId = .ok s' := by
  obtain ⟨⟨s2, k⟩, hprep⟩ := preparePalette_succeeds stateId hc hs hb
  obtain ⟨p1, _, _, _, _, _, p7, _, _⟩ := preparePalette_ok hc hs hprep
  have hk : 0 ≤ k ∧ k < 2 ^ s2.data.bitsPerValue := by
    cases hpal2 : s2.palette with
    | none =>
      simp only [Target, hpal2] at p7
      subst p7
      rw [p1.global hpal2]
      exact ⟨h0, h1⟩
    | some pal =>
      simp only [Target, hpal2] at p7
      obtain ⟨n, e1, _, _, e4⟩ := p7
      rw [e1]
      exact ⟨Int.natCast_nonneg _, e4⟩
  have hi : getBlockIndex pos < s2.data.capacity := by rw [p1.data_cap]; exact hpos
  have hset := BitArray.set_eq s2.data _ k hi hk.1 hk.2
  unfold setBlock
  simp only [hprep, getBlock_eq_resolve s2 pos hi]
  by_cases hA : stateId = 0 ∧ s2.resolve (getBlockIndex pos) ≠ 0
  · rw [if_pos hA]
    simp only [hset]
    exact ⟨_, rfl⟩
  · rw [if_neg hA]
    by_cases hB : stateId ≠ 0 ∧ s2.resolve (getBlockIndex pos) = 0
    · rw [if_pos hB]
      simp only [hset]
      exact ⟨_, rfl⟩
    · rw [if_neg hB]
      simp only [hset]
      exact ⟨_, rfl⟩

end ChunkSection

theorem countP_update {α : Type} [DecidableEq α] (P Q : α → Bool) (a : α) :
    ∀ l : List α, l.Nodup → a ∈ l → (∀ b ∈ l, b ≠ a → Q b = P b) →
      l.countP Q + (if P a then 1 else 0) = l.countP P + (if Q a then 1 else 0) := by
  intro l
  induction l with
  | nil => intro _ h; simp at h
  | cons b l ih =>
    intro hnd hmem hagree
    rw [List.nodup_cons] at hnd
    rw [List.countP_cons, List.countP_cons]
    by_cases hab : a = b
    · subst hab
      have : l.countP Q = l.countP P := by
        apply List.countP_congr
        intro x hx
        have hxa : x ≠ a := fun h => hnd.1 (h ▸ hx)
        rw [hagree x (List.mem_cons_of_mem _ hx) hxa]
      omega
    · have hmem' : a ∈ l := by
        rcases List.mem_cons.mp hmem with h | h
        · exact absurd h hab
        · exact h
      have := ih hnd.2 hmem' (fun x hx hxa => hagree x (List.mem_cons_of_mem _ hx) hxa)
      rw [hagree b (List.mem_cons_self _ _) (fun h => hab h.symm)]
      omega

namespace ChunkSection

theorem solidCells_eq {s : ChunkSection} (hcap : s.data.capacity = SECTION_VOLUME) :
    s.solidCells = allPositions.countP fun p => s.resolve (getBlockIndex p) != 0 := by
  unfold solidCells
  apply List.countP_congr
  intro p hp
  rw [getBlock_eq_resolve s p (by rw [hcap]; exact getBlockIndex_lt ((mem_allPositions p).mp hp))]

theorem solidCells_update {s s' : ChunkSection} (hcap : s.data.capacity = SECTION_VOLUME)
    (hcap' : s'.data.capacity = SECTION_VOLUME) {pos : Pos} (hpos : pos.InRange) {stateId : Int}
    (h : ∀ j, j < SECTION_VOLUME →
      s'.resolve j = if j = getBlockIndex pos then stateId else s.resolve j) :
    (s'.solidCells : Int) =
      nextCount (s.solidCells : Int) (s.resolve (getBlockIndex pos)) stateId := by
  rw [solidCells_eq hcap, solidCells_eq hcap']
  have hu := countP_update (fun p => s.resolve (getBlockIndex p) != 0)
    (fun p => s'.resolve (getBlockIndex p) != 0) pos allPositions nodup_allPositions
    ((mem_allPositions pos).mpr hpos) (fun q hq hne => by
      have hq' := (mem_allPositions q).mp hq
      have : getBlockIndex q ≠ getBlockIndex pos := fun he => hne (getBlockIndex_inj hq' hpos he)
      simp only [h _ (getBlockIndex_lt hq'), if_neg this])
  simp only [h _ (getBlockIndex_lt hpos), if_true] at hu
  unfold nextCount
  by_cases h1 : stateId = 0 <;> by_cases h2 : s.resolve (getBlockIndex pos) = 0 <;>
    simp [h1, h2] at hu ⊢ <;> omega

theorem setBlock_preserves_inv {c : Constants} {s s' : ChunkSection} {pos : Pos}
    {stateId : Int} (hc : c.Valid) (hpos : pos.InRange) (hs : Inv c s)
    (h : setBlock c s pos stateId = .ok s') : Inv c s' := by
  obtain ⟨q1, _, _, _, q5, q6, _, _⟩ := setBlock_ok (getBlockIndex_lt hpos) hc hs.1 h
  refine ⟨q1, ?_⟩
  rw [q5, hs.2, solidCells_update hs.1.data_cap q1.data_cap hpos q6]

theorem valueAt_fresh (i : Nat) : fresh.data.valueAt i = 0 :=
  BitArray.valueAt_new 4 SECTION_VOLUME i

theorem resolve_fresh (i : Nat) : fresh.resolve i = 0 := by
  simp [resolve, fresh, BitArray.valueAt_new]

theorem shape_fresh (c : Constants) (hc : c.Valid) : Shape c fresh := by
  have hw := BitArray.new_wellFormed 4 SECTION_VOLUME (by decide) (by decide)
  refine ⟨hw, rfl, hw, rfl, rfl, hw, rfl, rfl, ?_, ?_⟩
  · intro palette hp
    simp only [fresh, Option.some.injEq] at hp
    subst hp
    refine ⟨by simp, rfl, ?_, ?_, hc.1⟩
    · intro i _
      rw [valueAt_fresh]; simp
    · simp [fresh, BitArray.new, neededBits]
  · intro h; simp [fresh] at h

theorem inv_fresh (c : Constants) (hc : c.Valid) : Inv c fresh := by
  refine ⟨shape_fresh c hc, ?_⟩
  rw [solidCells_eq rfl]
  have h : (allPositions.countP fun p => fresh.resolve (getBlockIndex p) != 0) = 0 := by
    simp only [resolve_fresh]
    simp
  rw [h]
  rfl

theorem bounded_fresh (c : Constants) : Bounded c fresh := by
  intro palette hp e he
  simp only [fresh, Option.some.injEq] at hp
  subst hp
  simp only [List.mem_singleton] at he
  subst he
  exact ⟨le_rfl, by positivity⟩

theorem Reachable.invariant {c : Constants} {s : ChunkSection} (hc : c.Valid) (h : Reachable c s) :
    Inv c s := by
  induction h with
  | fresh => exact inv_fresh c hc
  | setBlock _ hpos hset ih => exact setBlock_preserves_inv hc hpos ih hset

theorem ReachableBounded.reachable {c : Constants} {s : ChunkSection}
    (h : ReachableBounded c s) : Reachable c s := by
  induction h with
  | fresh => exact Reachable.fresh
  | setBlock _ hpos _ _ hset ih => exact Reachable.setBlock ih hpos hset

theorem ReachableBounded.bounded {c : Constants} {s : ChunkSection} (hc : c.Valid)
    (h : ReachableBounded c s) : Bounded c s := by
  induction h with
  | fresh => exact bounded_fresh c
  | setBlock hr hpos h0 h1 hset ih =>
    exact (setBlock_ok (getBlockIndex_lt hpos) hc (hr.reachable.invariant hc).1 hset).2.2.2.2.2.2.2
      ih h0 h1

theorem run_append (c : Constants) (s : ChunkSection) (l1 l2 : List (Pos × Int)) :
    run c s (l1 ++ l2) =
      match run c s l1 with
      | .error e => .error e
      | .ok s' => run c s' l2 := by
  induction l1 generalizing s with
  | nil => rfl
  | cons op rest ih =>
    obtain ⟨pos, stateId⟩ := op
    simp only [List.cons_append, run]
    cases setBlock c s pos stateId with
    | error e => rfl
    | ok s' => exact ih s'

theorem run_reachable {c : Constants} (hc : c.Valid) :
    ∀ (ops : List (Pos × Int)) (s s' : ChunkSection), Reachable c s →
      (∀ op ∈ ops, op.1.InRange) → run c s ops = .ok s' →
      Reachable c s' ∧
        s'.palette = ops.foldl (fun palette op => nextPalette c palette op.2) s.palette := by
  intro ops
  induction ops with
  | nil =>
    intro s s' hr _ h
    simp only [run, Except.ok.injEq] at h
    subst h
    exact ⟨hr, rfl⟩
  | cons op rest ih =>
    intro s s' hr hops h
    obtain ⟨pos, stateId⟩ := op
    simp only [run] at h
    cases hset : setBlock c s pos stateId with
    | error e => rw [hset] at h; cases h
    | ok s1 =>
      rw [hset] at h
      have hpos : pos.InRange := hops (pos, stateId) (List.mem_cons_self _ _)
      have hr1 := Reachable.setBlock hr hpos hset
      obtain ⟨r1, r2⟩ := ih s1 s' hr1 (fun o ho => hops o (List.mem_cons_of_mem _ ho)) h
      refine ⟨r1, ?_⟩
      rw [r2, List.foldl_cons,
        (setBlock_ok (getBlockIndex_lt hpos) hc (hr.invariant hc).1 hset).2.2.2.2.2.2.1]

theorem run_succeeds {c : Constants} (hc : c.Valid) :
    ∀ (ops : List (Pos × Int)) (s : ChunkSection), ReachableBounded c s →
      (∀ op ∈ ops, op.1.InRange ∧ 0 ≤ op.2 ∧ op.2 < 2 ^ c.GLOBAL_BITS_PER_BLOCK) →
      ∃ s', run c s ops = .ok s' ∧ ReachableBounded c s' := by
  intro ops
  induction ops with
  | nil => intro s hr _; exact ⟨s, rfl, hr⟩
  | cons op rest ih =>
    intro s hr hops
    obtain ⟨pos, stateId⟩ := op
    obtain ⟨hpos, h0, h1⟩ := hops (pos, stateId) (List.mem_cons_self _ _)
    obtain ⟨s1, hset⟩ := setBlock_succeeds (getBlockIndex_lt hpos) hc (hr.reachable.invariant hc).1
      (hr.bounded hc) h0 h1
    obtain ⟨s', e1, e2⟩ := ih s1 (ReachableBounded.setBlock hr hpos h0 h1 hset)
      (fun o ho => hops o (List.mem_cons_of_mem _ ho))
    exact ⟨s', by simp only [run, hset]; exact e1, e2⟩

theorem getBlock_after_setBlock {c : Constants} {s s' : ChunkSection} {pos : Pos}
    {stateId : Int} (hc : c.Valid) (hs : Shape c s) (hpos : pos.InRange)
    (h : setBlock c s pos stateId = .ok s') (q : Pos) :
    s'.getBlock q = if getBlockIndex q = getBlockIndex pos then .ok stateId else s.getBlock q := by
  obtain ⟨q1, _, _, _, _, q6, _, _⟩ := setBlock_ok (getBlockIndex_lt hpos) hc hs h
  by_cases hq : getBlockIndex q < SECTION_VOLUME
  · have e1 := getBlock_eq_resolve s' q (q1.data_cap.symm ▸ hq)
    have e2 := getBlock_eq_resolve s q (hs.data_cap.symm ▸ hq)
    rewrite [e1, e2]
    by_cases he : getBlockIndex q = getBlockIndex pos
    · have e3 := q6 _ hq
      rewrite [if_pos he] at e3 ⊢
      rewrite [e3]
      rfl
    · have e3 := q6 _ hq
      rewrite [if_neg he] at e3 ⊢
      rewrite [e3]
      rfl
  · have hne : getBlockIndex q ≠ getBlockIndex pos := fun he =>
      hq (lt_of_eq_of_lt he (getBlockIndex_lt hpos))
    have e1 := getBlock_eq_error s' q (q1.data_cap.symm ▸ hq)
    have e2 := getBlock_eq_error s q (hs.data_cap.symm ▸ hq)
    rewrite [if_neg hne, e1, e2]
    rfl

theorem exampleConstants_valid : exampleConstants.Valid := by decide

theorem fillOps_bounded : ∀ op ∈ fillOps,
    op.1.InRange ∧ 0 ≤ op.2 ∧ op.2 < 2 ^ exampleConstants.GLOBAL_BITS_PER_BLOCK := by
  intro op hop
  simp only [fillOps, List.mem_map, List.mem_range] at hop
  obtain ⟨i, hi, rfl⟩ := hop
  have h1 : (({ x := 0, y := 0, z := 0 } : Pos)).InRange := by decide
  refine ⟨h1, ?_, ?_⟩
  · show (0 : Int) ≤ (i : Int) + 1
    omega
  · show (i : Int) + 1 < 2 ^ 15
    omega

theorem fill_palette_step (n : Nat) :
    nextPalette exampleConstants (some ((List.range (n + 1)).map fun (i : Nat) => (i : Int)))
        ((n : Int) + 1) =
      if n + 1 = 256 then none
      else some ((List.range (n + 2)).map fun (i : Nat) => (i : Int)) := by
  have hmem : ¬ ((n : Int) + 1 ∈ (List.range (n + 1)).map fun (i : Nat) => (i : Int)) := by
    simp only [List.mem_map, List.mem_range, not_exists, not_and]
    intro a ha h
    omega
  simp only [nextPalette, if_neg hmem, List.length_map, List.length_range, exampleConstants]
  have e : (2 : Nat) ^ 8 = 256 := by norm_num
  rw [e]
  split
  · rfl
  · rw [List.range_succ (n := n + 1), List.map_append]
    simp

theorem fill_palette_initial (n : Nat) (hn : n ≤ 255) :
    ((List.range n).map fun (i : Nat) =>
        (({ x := 0, y := 0, z := 0 } : Pos), (i : Int) + 1)).foldl
        (fun palette op => nextPalette exampleConstants palette op.2) (some [0]) =
      some ((List.range (n + 1)).map fun (i : Nat) => (i : Int)) := by
  induction n with
  | zero => rfl
  | succ k ih =>
    rw [List.range_succ, List.map_append, List.foldl_append, ih (by omega)]
    simp only [List.map_cons, List.map_nil, List.foldl_cons, List.foldl_nil]
    rw [fill_palette_step k, if_neg (by omega)]

theorem fillOps_palette :
    fillOps.foldl (fun palette op => nextPalette exampleConstants palette op.2) (some [0])
      = none := by
  unfold fillOps
  rw [List.range_succ, List.map_append, List.foldl_append, fill_palette_initial 255 le_rfl]
  simp only [List.map_cons, List.map_nil, List.foldl_cons, List.foldl_nil]
  have := fill_palette_step 255
  simp only [Nat.reduceAdd, if_true] at this
  exact_mod_cast this

/-- The fill sequence runs to a section in Global mode whose cell `(0,0,0)` holds `256`. -/
theorem fillOps_global :
    ∃ s, run exampleConstants fresh fillOps = .ok s ∧ ReachableBounded exampleConstants s ∧
      s.palette = none ∧ s.getBlock { x := 0, y := 0, z := 0 } = .ok 256 := by
  have hc := exampleConstants_valid
  obtain ⟨s, hrun, hr⟩ := run_succeeds hc fillOps fresh ReachableBounded.fresh fillOps_bounded
  have hpal := (run_reachable hc fillOps fresh s Reachable.fresh
    (fun op hop => (fillOps_bounded op hop).1) hrun).2
  refine ⟨s, hrun, hr, hpal.trans fillOps_palette, ?_⟩
  have hsplit : fillOps = ((List.range 255).map fun (i : Nat) =>
      (({ x := 0, y := 0, z := 0 } : Pos), (i : Int) + 1)) ++
      [(({ x := 0, y := 0, z := 0 } : Pos), (256 : Int))] := by
    unfold fillOps
    rw [List.range_succ, List.map_append]
    rfl
  rw [hsplit, run_append] at hrun
  cases h1 : run exampleConstants fresh ((List.range 255).map fun (i : Nat) =>
      (({ x := 0, y := 0, z := 0 } : Pos), (i : Int) + 1)) with
  | error e => rw [h1] at hrun; cases hrun
  | ok s1 =>
    rw [h1] at hrun
    simp only [run] at hrun
    cases h2 : setBlock exampleConstants s1 { x := 0, y := 0, z := 0 } 256 with
    | error e => rw [h2] at hrun; cases hrun
    | ok s2 =>
      rw [h2] at hrun
      simp only [Except.ok.injEq] at hrun
      subst hrun
      have hr1 := (run_reachable hc _ fresh s1 Reachable.fresh (fun op hop =>
        (fillOps_bounded op (by rw [hsplit]; exact List.mem_append_left _ hop)).1) h1).1
      rw [getBlock_after_setBlock hc (hr1.invariant hc).1 (by decide) h2, if_pos rfl]

/-- The last call of the fill sequence is the one that switches to Global mode. -/
theorem fillOps_last_call :
    ∃ s1 s, run exampleConstants fresh fillFirst = .ok s1 ∧
      setBlock exampleConstants s1 { x := 0, y := 0, z := 0 } 256 = .ok s ∧
      s1.palette ≠ none ∧ s.palette = none := by
  have hc := exampleConstants_valid
  obtain ⟨s, hrun, _, hpal, _⟩ := fillOps_global
  have hsplit : fillOps = fillFirst ++ [(({ x := 0, y := 0, z := 0 } : Pos), (256 : Int))] := by
    unfold fillOps fillFirst
    rw [List.range_succ, List.map_append]
    rfl
  rw [hsplit, run_append] at hrun
  cases h1 : run exampleConstants fresh fillFirst with
  | error e => rw [h1] at hrun; cases hrun
  | ok s1 =>
    rw [h1] at hrun
    simp only [run] at hrun
    cases h2 : setBlock exampleConstants s1 { x := 0, y := 0, z := 0 } 256 with
    | error e => rw [h2] at hrun; cases hrun
    | ok s2 =>
      rw [h2] at hrun
      simp only [Except.ok.injEq] at hrun
      subst hrun
      refine ⟨s1, s2, rfl, h2, ?_, hpal⟩
      have hp1 := (run_reachable hc fillFirst fresh s1 Reachable.fresh (fun op hop =>
        (fillOps_bounded op (by rw [hsplit]; exact List.mem_append_left _ hop)).1) h1).2
      have hfresh : fresh.palette = some [0] := rfl
      rw [hp1, hfresh]
      unfold fillFirst
      rw [fill_palette_initial 255 le_rfl]
      exact fun h => Option.noConfusion h

end ChunkSection

/-- C1, as stated, fails: after the 256 calls `setBlock((0,0,0), i)`, `i = 1, …, 256`, on a
fresh section (example constants `MAX_BITS_PER_BLOCK = 8`, `GLOBAL_BITS_PER_BLOCK = 15`) the
section is in Global mode; there `setBlock((0,0,0), 32768)` fails with `ValueOutOfRange`,
leaves the section as it was, and `getBlock((0,0,0))` still returns `256`, not `32768`. -/
theorem setBlock_getBlock_out_of_range_fails :
    ∃ s, ChunkSection.run exampleConstants ChunkSection.fresh ChunkSection.fillOps = .ok s ∧
      ChunkSection.setBlock exampleConstants s { x := 0, y := 0, z := 0 } 32768 =
        .error (Error.ValueOutOfRange, s) ∧
      s.getBlock { x := 0, y := 0, z := 0 } = .ok 256 := by
  obtain ⟨s, hrun, hr, hpal, hget⟩ := ChunkSection.fillOps_global
  refine ⟨s, hrun, ?_, hget⟩
  have hs := (hr.reachable.invariant ChunkSection.exampleConstants_valid).1
  have hbits : s.data.bitsPerValue = 15 := hs.global hpal
  have hset : s.data.set (getBlockIndex { x := 0, y := 0, z := 0 }) 32768 =
      .error Error.ValueOutOfRange :=
    BitArray.set_eq_error_value _ _ _ (by rw [hs.data_cap]; decide)
      (by rw [hbits]; decide)
  have hprep : ChunkSection.preparePalette exampleConstants s 32768 = .ok (s, 32768) := by
    simp only [ChunkSection.preparePalette, hpal]
  unfold ChunkSection.setBlock
  simp only [hprep, hget]
  rw [if_neg (by decide), if_neg (by decide)]
  simp only [hset]

/-- C1 (amended): in a section reachable from a fresh one by `setBlock` calls, for a position
`p` with coordinates in `[0,15]` and any integer `s`, whenever `setBlock(p, s)` returns
normally `getBlock(p)` then returns `s`; and `setBlock(p, s)` does return normally when
`0 ≤ s < 2^GLOBAL_BITS_PER_BLOCK` and the section was built with identifiers of that range. -/
theorem setBlock_then_getBlock (c : Constants) (hc : c.Valid) (s : ChunkSection)
    (hs : ChunkSection.Reachable c s) (pos : Pos) (hpos : pos.InRange) (stateId : Int) :
    (∀ s', ChunkSection.setBlock c s pos stateId = .ok s' → s'.getBlock pos = .ok stateId) ∧
      (ChunkSection.ReachableBounded c s → 0 ≤ stateId →
        stateId < 2 ^ c.GLOBAL_BITS_PER_BLOCK →
        ∃ s', ChunkSection.setBlock c s pos stateId = .ok s') := by
  refine ⟨fun s' h => ?_, fun hb h0 h1 => ?_⟩
  · rw [ChunkSection.getBlock_after_setBlock hc (hs.invariant hc).1 hpos h, if_pos rfl]
  · exact ChunkSection.setBlock_succeeds (getBlockIndex_lt hpos) hc (hs.invariant hc).1
      (hb.bounded hc) h0 h1

/-- Witness of C1 (amended): on a fresh section `setBlock((1,2,3), 5)` returns normally and
`getBlock((1,2,3))` then returns `5`. -/
theorem setBlock_then_getBlock_witness :
    ∃ s', ChunkSection.setBlock exampleConstants ChunkSection.fresh { x := 1, y := 2, z := 3 } 5
        = .ok s' ∧ s'.getBlock { x := 1, y := 2, z := 3 } = .ok 5 := by
  have h := setBlock_then_getBlock exampleConstants (by decide) ChunkSection.fresh
    ChunkSection.Reachable.fresh { x := 1, y := 2, z := 3 } (by decide) 5
  obtain ⟨s', hs'⟩ := h.2 ChunkSection.ReachableBounded.fresh (by decide) (by decide)
  exact ⟨s', hs', h.1 s' hs'⟩

/-- C2: after any finite sequence of `setBlock` calls with positions in range and identifiers
in `[0, 2^GLOBAL_BITS_PER_BLOCK)` on a fresh section, the run completes and `solidBlockCount`
equals the number of the 4096 positions whose `getBlock` result is non-zero; `allPositions`
lists every position of the section exactly once. -/
theorem solidBlockCount_eq_solidCells (c : Constants) (hc : c.Valid) (ops : List (Pos × Int))
    (hops : ∀ op ∈ ops, op.1.InRange ∧ 0 ≤ op.2 ∧ op.2 < 2 ^ c.GLOBAL_BITS_PER_BLOCK) :
    (∃ s, ChunkSection.run c ChunkSection.fresh ops = .ok s ∧
      s.solidBlockCount = (s.solidCells : Int)) ∧
      allPositions.Nodup ∧ ∀ p, p ∈ allPositions ↔ p.InRange := by
  refine ⟨?_, nodup_allPositions, mem_allPositions⟩
  obtain ⟨s, hrun, hr⟩ := ChunkSection.run_succeeds hc ops ChunkSection.fresh
    ChunkSection.ReachableBounded.fresh hops
  exact ⟨s, hrun, (hr.reachable.invariant hc).2⟩

/-- Witness of C2: set `(0,0,0)` to `5`, `(1,2,3)` to `7`, then `(0,0,0)` back to `0`. -/
theorem solidBlockCount_eq_solidCells_witness :
    (∃ s, ChunkSection.run exampleConstants ChunkSection.fresh
        [({ x := 0, y := 0, z := 0 }, 5), ({ x := 1, y := 2, z := 3 }, 7),
          ({ x := 0, y := 0, z := 0 }, 0)] = .ok s ∧
      s.solidBlockCount = (s.solidCells : Int)) ∧
      allPositions.Nodup ∧ ∀ p, p ∈ allPositions ↔ p.InRange :=
  solidBlockCount_eq_solidCells exampleConstants (by decide)
    [({ x := 0, y := 0, z := 0 }, 5), ({ x := 1, y := 2, z := 3 }, 7),
      ({ x := 0, y := 0, z := 0 }, 0)] (by decide)

/-- C3: in a section reachable from a fresh one by `setBlock` calls, for a position `p` in
range and an identifier `s` in `[0, 2^GLOBAL_BITS_PER_BLOCK)`: whenever `setBlock(p, s)` returns
normally (with no resize, with a resize, or with the switch to Global mode), every position `q`
whose linear index differs from `p`'s has the same `getBlock` result after the call as before
it; and the call does return normally when the section was built with identifiers of that
range. -/
theorem setBlock_preserves_other_cells (c : Constants) (hc : c.Valid) (s : ChunkSection)
    (hs : ChunkSection.Reachable c s) (pos : Pos) (hpos : pos.InRange) (stateId : Int)
    (h0 : 0 ≤ stateId) (h1 : stateId < 2 ^ c.GLOBAL_BITS_PER_BLOCK) :
    (∀ s', ChunkSection.setBlock c s pos stateId = .ok s' →
      ∀ q, getBlockIndex q ≠ getBlockIndex pos → s'.getBlock q = s.getBlock q) ∧
    (ChunkSection.ReachableBounded c s →
      ∃ s', ChunkSection.setBlock c s pos stateId = .ok s') := by
  have hinv := hs.invariant hc
  refine ⟨fun s' h q hq => ?_, fun hb => ?_⟩
  · rw [ChunkSection.getBlock_after_setBlock hc hinv.1 hpos h, if_neg hq]
  · exact ChunkSection.setBlock_succeeds (getBlockIndex_lt hpos) hc hinv.1 (hb.bounded hc)
      h0 h1

/-- Witness of C3: on a fresh section `setBlock((1,2,3), 5)` returns normally and leaves
`getBlock` unchanged at every position of another linear index. -/
theorem setBlock_preserves_other_cells_witness :
    ∃ s', ChunkSection.setBlock exampleConstants ChunkSection.fresh { x := 1, y := 2, z := 3 } 5
        = .ok s' ∧
      ∀ q, getBlockIndex q ≠ getBlockIndex { x := 1, y := 2, z := 3 } →
        s'.getBlock q = ChunkSection.fresh.getBlock q := by
  have h := setBlock_preserves_other_cells exampleConstants (by decide) ChunkSection.fresh
    ChunkSection.Reachable.fresh { x := 1, y := 2, z := 3 } (by decide) 5 (by decide) (by decide)
  obtain ⟨s', hs'⟩ := h.2 ChunkSection.ReachableBounded.fresh
  exact ⟨s', hs', h.1 s' hs'⟩

namespace ChunkSection

theorem records_step (c : Constants) (palette : Option (List Int)) (seen : List Int)
    (x : Int) (h : Records c palette seen) :
    Records c (nextPalette c palette x) (seen ++ [x]) := by
  cases palette with
  | none =>
    simp only [Records, nextPalette] at h ⊢
    refine lt_of_lt_of_le h (Finset.card_le_card ?_)
    intro a ha
    simp only [List.mem_toFinset, List.mem_append] at ha ⊢
    exact Or.inl ha
  | some pal =>
    obtain ⟨h1, h2, h3⟩ := h
    have hcard : seen.toFinset.card = pal.length := by
      rw [← h2, List.toFinset_card_of_nodup h1]
    simp only [nextPalette]
    by_cases hx : x ∈ pal
    · rw [if_pos hx]
      refine ⟨h1, ?_, h3⟩
      rw [List.toFinset_append, ← h2]
      ext a
      simp only [Finset.mem_union, List.mem_toFinset, List.mem_singleton]
      constructor
      · intro ha; exact Or.inl ha
      · rintro (ha | ha)
        · exact ha
        · rw [ha]; exact hx
    · rw [if_neg hx]
      have hxs : x ∉ seen.toFinset := by rw [← h2]; simpa using hx
      have hcard' : (seen ++ [x]).toFinset.card = pal.length + 1 := by
        have e : (seen ++ [x]).toFinset = insert x seen.toFinset := by
          ext a
          simp only [List.mem_toFinset, List.mem_append, List.mem_singleton, Finset.mem_insert]
          exact or_comm
        rw [e, Finset.card_insert_of_not_mem hxs, hcard]
      by_cases hl : pal.length = 2 ^ c.MAX_BITS_PER_BLOCK
      · rw [if_pos hl]
        show 2 ^ c.MAX_BITS_PER_BLOCK < (seen ++ [x]).toFinset.card
        omega
      · rw [if_neg hl]
        refine ⟨?_, ?_, ?_⟩
        · rw [List.nodup_append]
          refine ⟨h1, List.nodup_singleton _, ?_⟩
          intro a ha hb
          rw [List.mem_singleton] at hb
          exact hx (hb ▸ ha)
        · rw [List.toFinset_append, List.toFinset_append, h2]
        · simp only [List.length_append, List.length_singleton]
          omega

theorem records_foldl (c : Constants) :
    ∀ (ops : List (Pos × Int)) (palette : Option (List Int)) (seen : List Int),
      Records c palette seen →
      Records c (ops.foldl (fun palette op => nextPalette c palette op.2) palette)
        (seen ++ ops.map Prod.snd) := by
  intro ops
  induction ops with
  | nil => intro palette seen h; simpa using h
  | cons op rest ih =>
    intro palette seen h
    have := ih _ _ (records_step c palette seen op.2 h)
    simpa using this

theorem run_palette_records {c : Constants} (hc : c.Valid) {ops : List (Pos × Int)}
    {s : ChunkSection} (hops : ∀ op ∈ ops, op.1.InRange) (h : run c fresh ops = .ok s) :
    (s.palette = none ↔ 2 ^ c.MAX_BITS_PER_BLOCK < distinctIds ops) ∧
      ∀ pal, s.palette = some pal → pal.length = distinctIds ops := by
  have hpal := (run_reachable hc ops fresh s Reachable.fresh hops h).2
  have hrec := records_foldl c ops (some [0]) [0]
    ⟨List.nodup_singleton _, rfl, by
      have := Nat.one_le_two_pow (n := c.MAX_BITS_PER_BLOCK)
      simpa using this⟩
  have hfresh : fresh.palette = some [0] := rfl
  rw [hfresh] at hpal
  rw [← hpal] at hrec
  have hseen : ([0] ++ ops.map Prod.snd : List Int) = 0 :: ops.map Prod.snd := rfl
  rw [hseen] at hrec
  unfold distinctIds
  cases hp : s.palette with
  | none =>
    rw [hp] at hrec
    exact ⟨⟨fun _ => hrec, fun _ => rfl⟩, fun pal h => by cases h⟩
  | some pal =>
    rw [hp] at hrec
    obtain ⟨h1, h2, h3⟩ := hrec
    have hcard : (0 :: ops.map Prod.snd).toFinset.card = pal.length := by
      rw [← h2, List.toFinset_card_of_nodup h1]
    refine ⟨⟨fun h => Option.noConfusion h, fun h => absurd h (by omega)⟩, fun pal' h => ?_⟩
    simp only [Option.some.injEq] at h
    subst h
    exact hcard.symm

end ChunkSection

theorem ChunkSection.distinctIds_snoc (ops : List (Pos × Int)) (op : Pos × Int) :
    ChunkSection.distinctIds ops ≤ ChunkSection.distinctIds (ops ++ [op]) ∧
      ChunkSection.distinctIds (ops ++ [op]) ≤ ChunkSection.distinctIds ops + 1 := by
  unfold ChunkSection.distinctIds
  have e : (0 :: (ops ++ [op]).map Prod.snd).toFinset =
      insert op.2 (0 :: ops.map Prod.snd).toFinset := by
    ext a
    simp only [List.map_append, List.map_cons, List.map_nil, List.toFinset_cons,
      List.toFinset_append, List.toFinset_nil, Finset.mem_insert, Finset.mem_union,
      List.mem_toFinset, insert_emptyc_eq, Finset.mem_singleton]
    tauto
  rw [e]
  exact ⟨Finset.card_le_card (Finset.subset_insert _ _), Finset.card_insert_le _ _⟩

/-- C4: for a section `s` reached from a fresh one by a run `ops` of `setBlock` calls and a
further call `setBlock(pos, stateId)` returning `s'`: the call switches the section to Global
mode (palette non-null before, null after, block array `GLOBAL_BITS_PER_BLOCK` wide) exactly
when `stateId` is not in the palette and the palette holds `2^MAX_BITS_PER_BLOCK` entries;
that is exactly when the identifiers set so far (with `0`) are `2^MAX_BITS_PER_BLOCK` distinct
ones and `stateId` is one more; and a null palette stays null. -/
theorem global_mode_threshold (c : Constants) (hc : c.Valid) (ops : List (Pos × Int))
    (hops : ∀ op ∈ ops, op.1.InRange) (s : ChunkSection)
    (hrun : ChunkSection.run c ChunkSection.fresh ops = .ok s) (pos : Pos) (hpos : pos.InRange)
    (stateId : Int) (s' : ChunkSection) (hset : ChunkSection.setBlock c s pos stateId = .ok s') :
    ((s.palette ≠ none ∧ s'.palette = none ∧
        s'.data.bitsPerValue = c.GLOBAL_BITS_PER_BLOCK) ↔
      ∃ palette, s.palette = some palette ∧ stateId ∉ palette ∧
        palette.length = 2 ^ c.MAX_BITS_PER_BLOCK) ∧
    ((s.palette ≠ none ∧ s'.palette = none) ↔
      (ChunkSection.distinctIds ops = 2 ^ c.MAX_BITS_PER_BLOCK ∧
        ChunkSection.distinctIds (ops ++ [(pos, stateId)]) = 2 ^ c.MAX_BITS_PER_BLOCK + 1)) ∧
    (s.palette = none → s'.palette = none ∧
      s'.data.bitsPerValue = c.GLOBAL_BITS_PER_BLOCK) := by
  have hr := (ChunkSection.run_reachable hc ops _ s ChunkSection.Reachable.fresh hops hrun).1
  obtain ⟨q1, _, _, _, _, _, q7, _⟩ :=
    ChunkSection.setBlock_ok (getBlockIndex_lt hpos) hc (hr.invariant hc).1 hset
  have hrun' : ChunkSection.run c ChunkSection.fresh (ops ++ [(pos, stateId)]) = .ok s' := by
    rw [ChunkSection.run_append, hrun]
    simp only [ChunkSection.run, hset]
  have hops' : ∀ op ∈ ops ++ [(pos, stateId)], op.1.InRange := by
    intro op hop
    rcases List.mem_append.mp hop with h | h
    · exact hops op h
    · rw [List.mem_singleton] at h; subst h; exact hpos
  obtain ⟨r1, _⟩ := ChunkSection.run_palette_records hc hops hrun
  obtain ⟨r1', _⟩ := ChunkSection.run_palette_records hc hops' hrun'
  obtain ⟨d1, d2⟩ := ChunkSection.distinctIds_snoc ops (pos, stateId)
  refine ⟨⟨?_, ?_⟩, ⟨?_, ?_⟩, ?_⟩
  · rintro ⟨h1, h2, _⟩
    cases hp : s.palette with
    | none => exact absurd hp h1
    | some palette =>
      refine ⟨palette, rfl, ?_⟩
      rw [q7, hp] at h2
      simp only [ChunkSection.nextPalette] at h2
      by_cases hm : stateId ∈ palette
      · rw [if_pos hm] at h2; cases h2
      · rw [if_neg hm] at h2
        by_cases hl : palette.length = 2 ^ c.MAX_BITS_PER_BLOCK
        · exact ⟨hm, hl⟩
        · rw [if_neg hl] at h2; cases h2
  · rintro ⟨palette, hp, hm, hl⟩
    have h2 : s'.palette = none := by
      rw [q7, hp]
      simp only [ChunkSection.nextPalette, if_neg hm, if_pos hl]
    exact ⟨by rw [hp]; exact fun h => Option.noConfusion h, h2, q1.global h2⟩
  · rintro ⟨h1, h2⟩
    have a1 : ¬ 2 ^ c.MAX_BITS_PER_BLOCK < ChunkSection.distinctIds ops := fun h => h1 (r1.mpr h)
    have a2 := r1'.mp h2
    omega
  · rintro ⟨h1, h2⟩
    refine ⟨fun h => ?_, r1'.mpr (by omega)⟩
    have := r1.mp h
    omega
  · intro h
    have h2 : s'.palette = none := by
      rw [q7, h]; rfl
    exact ⟨h2, q1.global h2⟩

/-- Witness of C4: the run `setBlock((0,0,0), i)`, `i = 1, …, 255`, on a fresh section, then
the call `setBlock((0,0,0), 256)`, which switches the section to Global mode. -/
theorem global_mode_threshold_witness :
    ∃ s s', ChunkSection.run exampleConstants ChunkSection.fresh ChunkSection.fillFirst
        = .ok s ∧
      ChunkSection.setBlock exampleConstants s { x := 0, y := 0, z := 0 } 256 = .ok s' ∧
      s.palette ≠ none ∧ s'.palette = none ∧
    (((s.palette ≠ none ∧ s'.palette = none ∧
        s'.data.bitsPerValue = exampleConstants.GLOBAL_BITS_PER_BLOCK) ↔
      ∃ palette, s.palette = some palette ∧ (256 : Int) ∉ palette ∧
        palette.length = 2 ^ exampleConstants.MAX_BITS_PER_BLOCK) ∧
    ((s.palette ≠ none ∧ s'.palette = none) ↔
      (ChunkSection.distinctIds ChunkSection.fillFirst =
          2 ^ exampleConstants.MAX_BITS_PER_BLOCK ∧
        ChunkSection.distinctIds (ChunkSection.fillFirst ++ [({ x := 0, y := 0, z := 0 }, 256)])
          = 2 ^ exampleConstants.MAX_BITS_PER_BLOCK + 1)) ∧
    (s.palette = none → s'.palette = none ∧
      s'.data.bitsPerValue = exampleConstants.GLOBAL_BITS_PER_BLOCK)) := by
  obtain ⟨s, s', hrun, hset, h1, h2⟩ := ChunkSection.fillOps_last_call
  have hops : ∀ op ∈ ChunkSection.fillFirst, op.1.InRange := by
    intro op hop
    simp only [ChunkSection.fillFirst, List.mem_map, List.mem_range] at hop
    obtain ⟨i, _, rfl⟩ := hop
    exact (by decide : ({ x := 0, y := 0, z := 0 } : Pos).InRange)
  exact ⟨s, s', hrun, hset, h1, h2, global_mode_threshold exampleConstants (by decide)
    ChunkSection.fillFirst hops s hrun { x := 0, y := 0, z := 0 } (by decide) 256 s' hset⟩

namespace ChunkSection

theorem solidCells_congr {s s' : ChunkSection} (hd : s'.data = s.data)
    (hp : s'.palette = s.palette) : s'.solidCells = s.solidCells := by
  unfold solidCells getBlock
  rw [hd, hp]

theorem setBlockLight_ok {c : Constants} {s s' : ChunkSection} {pos : Pos} {light : Int}
    (hs : Inv c s) (h : setBlockLight s pos light = .ok s') : Inv c s' := by
  unfold setBlockLight at h
  cases hset : s.blockLight.set (getBlockIndex pos) light with
  | error e => rw [hset] at h; cases h
  | ok arr =>
    rw [hset] at h
    simp only [Except.ok.injEq] at h
    subst h
    obtain ⟨w1, w2, w3⟩ := BitArray.set_wellFormed hs.1.blockLight_wf hset
    exact ⟨⟨hs.1.data_wf, hs.1.data_cap, w1, w2.trans hs.1.blockLight_cap,
      w3.trans hs.1.blockLight_bits, hs.1.skyLight_wf, hs.1.skyLight_cap, hs.1.skyLight_bits,
      hs.1.indexed, hs.1.global⟩,
      hs.2.trans (congrArg Nat.cast (solidCells_congr rfl rfl).symm)⟩

theorem setSkyLight_ok {c : Constants} {s s' : ChunkSection} {pos : Pos} {light : Int}
    (hs : Inv c s) (h : setSkyLight s pos light = .ok s') : Inv c s' := by
  unfold setSkyLight at h
  cases hset : s.skyLight.set (getBlockIndex pos) light with
  | error e => rw [hset] at h; cases h
  | ok arr =>
    rw [hset] at h
    simp only [Except.ok.injEq] at h
    subst h
    obtain ⟨w1, w2, w3⟩ := BitArray.set_wellFormed hs.1.skyLight_wf hset
    exact ⟨⟨hs.1.data_wf, hs.1.data_cap, hs.1.blockLight_wf, hs.1.blockLight_cap,
      hs.1.blockLight_bits, w1, w2.trans hs.1.skyLight_cap, w3.trans hs.1.skyLight_bits,
      hs.1.indexed, hs.1.global⟩,
      hs.2.trans (congrArg Nat.cast (solidCells_congr rfl rfl).symm)⟩

theorem ReachableWithLight.invariantWithLight {c : Constants} {s : ChunkSection} (hc : c.Valid)
    (h : ReachableWithLight c s) : Inv c s := by
  induction h with
  | fresh => exact inv_fresh c hc
  | setBlock _ hpos hset ih => exact setBlock_preserves_inv hc hpos ih hset
  | setBlockLight _ _ hset ih => exact setBlockLight_ok ih hset
  | setSkyLight _ _ hset ih => exact setSkyLight_ok ih hset

theorem Reachable.withLight {c : Constants} {s : ChunkSection} (h : Reachable c s) :
    ReachableWithLight c s := by
  induction h with
  | fresh => exact ReachableWithLight.fresh
  | setBlock _ hpos hset ih => exact ReachableWithLight.setBlock ih hpos hset

theorem fromJson_toJson_bitArray {a : BitArray} (h : a.WellFormed) :
    BitArray.fromJson (some a.toJson) = .ok a := by
  simp only [BitArray.fromJson, BitArray.toJson]
  rw [if_pos h]

theorem fromJson_toJson {s : ChunkSection} (h1 : s.data.WellFormed)
    (h2 : s.blockLight.WellFormed) (h3 : s.skyLight.WellFormed) :
    fromJson (toJson s) =
      .ok { s with palette := some (s.palette.getD [0]), isDirty := false } := by
  unfold fromJson
  have e1 : (toJson s).data = some s.data.toJson := rfl
  have e2 : (toJson s).blockLight = some s.blockLight.toJson := rfl
  have e3 : (toJson s).skyLight = some s.skyLight.toJson := rfl
  have e4 : (toJson s).solidBlockCount = some s.solidBlockCount := rfl
  have e5 : (toJson s).palette.toOption = s.palette := by
    unfold toJson
    cases s.palette <;> rfl
  rw [e1, e2, e3, e4, e5, fromJson_toJson_bitArray h1, fromJson_toJson_bitArray h2,
    fromJson_toJson_bitArray h3]
  rfl

theorem getBlock_default_palette (s : ChunkSection) (hp : s.palette = none) (p : Pos) :
    ({ s with palette := some ([0] : List Int) } : ChunkSection).getBlock p = s.getBlock p := by
  unfold getBlock
  cases s.data.get (getBlockIndex p) with
  | error e => rfl
  | ok v =>
    simp only [hp]
    split
    · rename_i h
      have hv : v = 0 := by
        have := h.2
        simp only [List.length_singleton] at this
        omega
      subst hv
      rfl
    · rfl

end ChunkSection

/-- C5: for a section `s` reachable from a fresh one by `setBlock`, `setBlockLight` and
`setSkyLight` calls (Indexed or Global mode), `fromJson(toJson(s))` returns a section `r` with
`r.getBlock(p) = s.getBlock(p)`, `r.getBlockLight(p) = s.getBlockLight(p)` and
`r.getSkyLight(p) = s.getSkyLight(p)` at every position `p`. -/
theorem snapshot_roundtrip_reads (c : Constants) (hc : c.Valid) (s : ChunkSection)
    (hs : ChunkSection.ReachableWithLight c s) :
    ∃ r, ChunkSection.fromJson (ChunkSection.toJson s) = .ok r ∧
      ∀ p, r.getBlock p = s.getBlock p ∧ r.getBlockLight p = s.getBlockLight p ∧
        r.getSkyLight p = s.getSkyLight p := by
  have hinv := (hs.invariantWithLight hc).1
  refine ⟨_, ChunkSection.fromJson_toJson hinv.data_wf hinv.blockLight_wf hinv.skyLight_wf,
    fun p => ⟨?_, rfl, rfl⟩⟩
  cases hp : s.palette with
  | none =>
    have := ChunkSection.getBlock_default_palette s hp p
    rw [← this]
    unfold ChunkSection.getBlock
    simp only [hp, Option.getD_none]
  | some palette =>
    unfold ChunkSection.getBlock
    simp only [hp, Option.getD_some]

/-- Witness of C5: the fresh section. -/
theorem snapshot_roundtrip_reads_witness :
    ∃ r, ChunkSection.fromJson (ChunkSection.toJson ChunkSection.fresh) = .ok r ∧
      ∀ p, r.getBlock p = ChunkSection.fresh.getBlock p ∧
        r.getBlockLight p = ChunkSection.fresh.getBlockLight p ∧
        r.getSkyLight p = ChunkSection.fresh.getSkyLight p :=
  snapshot_roundtrip_reads exampleConstants (by decide) ChunkSection.fresh
    ChunkSection.ReachableWithLight.fresh

namespace ChunkSection

theorem writeWords_eq (arr : BitArray) :
    ∀ (l : List Nat) (smartBuffer : SmartBuffer),
      writeWords arr l smartBuffer =
        smartBuffer ++ l.map fun i => Written.uint32BE (arr.data.getD i 0) := by
  intro l
  induction l with
  | nil => intro b; simp [writeWords]
  | cons i rest ih =>
    intro b
    simp only [writeWords, ih, BitArray.getBuffer, List.map_cons, List.append_assoc,
      List.singleton_append]

theorem writePalette_eq :
    ∀ (palette : List Int) (smartBuffer : SmartBuffer),
      writePalette palette smartBuffer = smartBuffer ++ palette.map Written.varInt := by
  intro palette
  induction palette with
  | nil => intro b; simp [writePalette]
  | cons e rest ih =>
    intro b
    simp only [writePalette, ih, List.map_cons, List.append_assoc, List.singleton_append]

theorem map_range_getD (l : List Nat) (f : Nat → Written) :
    ((List.range l.length).map fun i => f (l.getD i 0)) = l.map f := by
  apply List.ext_getElem
  · simp
  · intro n h1 h2
    simp only [List.length_map, List.length_range] at h1
    simp [List.getD_eq_getElem?_getD, List.getElem?_eq_getElem h1]

theorem writeWords_range (arr : BitArray) (smartBuffer : SmartBuffer) :
    writeWords arr (List.range arr.length) smartBuffer =
      smartBuffer ++ arr.data.map fun (w : Nat) => Written.uint32BE (w : Int) := by
  rw [writeWords_eq, BitArray.length]
  congr 1
  exact map_range_getD arr.data fun (w : Nat) => Written.uint32BE (w : Int)

end ChunkSection

/-- C7: `write` appends to the sink exactly: the block array's bits-per-value as one unsigned
byte; if the palette is non-null, its length as a varint and each entry as a varint in palette
order (nothing for a null palette); the number of block words as a varint and each block word
as an unsigned 32-bit big-endian integer in index order; every block-light word likewise; every
sky-light word likewise.  `write` only reads the section.  For a fresh section this is byte
`4`, varints `1`, `0`, `512`, then three times 512 zero words. -/
theorem write_format :
    (∀ (s : ChunkSection) (smartBuffer : SmartBuffer),
      s.write smartBuffer =
        smartBuffer ++ [Written.uint8 (s.data.bitsPerValue : Int)] ++
          (match s.palette with
            | some palette =>
              Written.varInt (palette.length : Int) :: palette.map Written.varInt
            | none => []) ++
          [Written.varInt (s.data.data.length : Int)] ++
          (s.data.data.map fun (w : Nat) => Written.uint32BE (w : Int)) ++
          (s.blockLight.data.map fun (w : Nat) => Written.uint32BE (w : Int)) ++
          (s.skyLight.data.map fun (w : Nat) => Written.uint32BE (w : Int))) ∧
    ChunkSection.fresh.write [] =
      [Written.uint8 4, Written.varInt 1, Written.varInt 0, Written.varInt 512] ++
        List.replicate 512 (Written.uint32BE 0) ++ List.replicate 512 (Written.uint32BE 0) ++
        List.replicate 512 (Written.uint32BE 0) := by
  have hgen : ∀ (s : ChunkSection) (smartBuffer : SmartBuffer),
      s.write smartBuffer =
        smartBuffer ++ [Written.uint8 (s.data.bitsPerValue : Int)] ++
          (match s.palette with
            | some palette =>
              Written.varInt (palette.length : Int) :: palette.map Written.varInt
            | none => []) ++
          [Written.varInt (s.data.data.length : Int)] ++
          (s.data.data.map fun (w : Nat) => Written.uint32BE (w : Int)) ++
          (s.blockLight.data.map fun (w : Nat) => Written.uint32BE (w : Int)) ++
          (s.skyLight.data.map fun (w : Nat) => Written.uint32BE (w : Int)) := by
    intro s smartBuffer
    unfold ChunkSection.write
    simp only [ChunkSection.writeWords_range]
    simp only [BitArray.getBitsPerValue, BitArray.length]
    cases s.palette with
    | none => simp
    | some palette => simp [ChunkSection.writePalette_eq]
  refine ⟨hgen, ?_⟩
  rw [hgen]
  have hwords : BitArray.wordCount SECTION_VOLUME 4 = 512 := by decide
  simp only [ChunkSection.fresh, BitArray.new, hwords, List.map_replicate,
    List.length_replicate, List.map_cons, List.map_nil, List.nil_append, List.length_cons,
    List.length_nil]
  rfl

namespace ChunkSection

theorem countSolid_eq (data : BitArray) :
    ∀ (l : List Pos) (count : Int), (∀ p ∈ l, getBlockIndex p < data.capacity) →
      countSolid data l count =
        .ok (count + (l.countP fun p => data.valueAt (getBlockIndex p) != 0 : Nat)) := by
  intro l
  induction l with
  | nil => intro count _; simp [countSolid]
  | cons p rest ih =>
    intro count h
    have hp := h p (List.mem_cons_self _ _)
    simp only [countSolid, BitArray.get_eq data _ hp]
    rw [ih _ (fun q hq => h q (List.mem_cons_of_mem _ hq)), List.countP_cons]
    by_cases hv : data.valueAt (getBlockIndex p) = 0
    · simp [hv]
    · simp [hv]; omega

theorem countSolid_allPositions (data : BitArray) (hcap : data.capacity = SECTION_VOLUME) :
    countSolid data allPositions 0 = .ok (storedNonZero data : Int) := by
  rw [countSolid_eq data allPositions 0 (fun p hp => by
    rw [hcap]; exact getBlockIndex_lt ((mem_allPositions p).mp hp))]
  simp [storedNonZero]

theorem storedNonZero_new (n : Nat) : storedNonZero (BitArray.new n SECTION_VOLUME) = 0 := by
  simp [storedNonZero, BitArray.valueAt_new]

theorem new_default : ChunkSection.new {} = .ok fresh := rfl

theorem getBlockLight_fresh (p : Pos) (hp : p.InRange) : fresh.getBlockLight p = .ok 0 := by
  unfold getBlockLight
  rw [BitArray.get_eq _ _ (getBlockIndex_lt hp : getBlockIndex p < fresh.blockLight.capacity)]
  exact congrArg Except.ok (BitArray.valueAt_new 4 SECTION_VOLUME _)

theorem getSkyLight_fresh (p : Pos) (hp : p.InRange) : fresh.getSkyLight p = .ok 0 := by
  unfold getSkyLight
  rw [BitArray.get_eq _ _ (getBlockIndex_lt hp : getBlockIndex p < fresh.skyLight.capacity)]
  exact congrArg Except.ok (BitArray.valueAt_new 4 SECTION_VOLUME _)

theorem getBlock_fresh (p : Pos) (hp : p.InRange) : fresh.getBlock p = .ok 0 := by
  rw [getBlock_eq_resolve fresh p (getBlockIndex_lt hp : getBlockIndex p < fresh.data.capacity),
    resolve_fresh]

theorem fromJson_bitArray_error {j : Option BitArray.Json} {e : Error}
    (h : BitArray.fromJson j = .error e) : e = Error.DeserializationError := by
  cases j with
  | none =>
    simp only [BitArray.fromJson, Except.error.injEq] at h
    exact h.symm
  | some j =>
    simp only [BitArray.fromJson] at h
    by_cases hw : BitArray.WellFormed
        { data := j.data, capacity := j.capacity, bitsPerValue := j.bitsPerValue }
    · rw [if_pos hw] at h; cases h
    · rw [if_neg hw] at h
      simp only [Except.error.injEq] at h
      exact h.symm

theorem new_with_data (options : Options) (data : BitArray) (hd : options.data = some data)
    (hcap : data.capacity = SECTION_VOLUME) :
    ChunkSection.new options =
      .ok
        { data := data
          palette := some (options.palette.getD [0])
          isDirty := false
          blockLight := options.blockLight.getD (BitArray.new 4 SECTION_VOLUME)
          skyLight := options.skyLight.getD (BitArray.new 4 SECTION_VOLUME)
          solidBlockCount := options.solidBlockCount.getD (storedNonZero data : Int) } := by
  simp only [ChunkSection.new, hd]
  cases options.solidBlockCount with
  | some count => rfl
  | none =>
    simp only [countSolid_allPositions data hcap]
    rfl

theorem fromJson_ok (parsed : Snapshot) (data blockLight skyLight : BitArray)
    (h1 : parsed.data = some data.toJson) (h2 : parsed.blockLight = some blockLight.toJson)
    (h3 : parsed.skyLight = some skyLight.toJson) (w1 : data.WellFormed)
    (w2 : blockLight.WellFormed) (w3 : skyLight.WellFormed)
    (hcap : data.capacity = SECTION_VOLUME) :
    fromJson parsed =
      .ok
        { data := data
          palette := some (parsed.palette.toOption.getD [0])
          isDirty := false
          blockLight := blockLight
          skyLight := skyLight
          solidBlockCount := parsed.solidBlockCount.getD (storedNonZero data : Int) } := by
  unfold fromJson
  rw [h1, h2, h3, fromJson_toJson_bitArray w1, fromJson_toJson_bitArray w2,
    fromJson_toJson_bitArray w3]
  exact new_with_data _ data rfl hcap

end ChunkSection

/-- C6 fails on the code: the section reached by the 256 calls `setBlock((0,0,0), i)`,
`i = 1, …, 256`, is in Global mode (null palette), and `fromJson(toJson(s))` returns a
section whose palette is `[0]`, not null. -/
theorem snapshot_loses_global_mode :
    ∃ s, ChunkSection.run exampleConstants ChunkSection.fresh ChunkSection.fillOps = .ok s ∧
      s.palette = none ∧
      ∃ r, ChunkSection.fromJson (ChunkSection.toJson s) = .ok r ∧ r.palette = some [0] := by
  obtain ⟨s, hrun, hr, hpal, _⟩ := ChunkSection.fillOps_global
  have hs := (hr.reachable.invariant ChunkSection.exampleConstants_valid).1
  refine ⟨s, hrun, hpal, _,
    ChunkSection.fromJson_toJson hs.data_wf hs.blockLight_wf hs.skyLight_wf, ?_⟩
  simp only [hpal, Option.getD_none]

/-- C8 fails on the code: constructed from an all-zero block array and the palette `[5]`
without a `solidBlockCount`, the section has `solidBlockCount = 0` and `isEmpty()` true, while
`getBlock` returns `5` at every position of the section. -/
theorem constructor_counts_stored_values :
    ∃ r, ChunkSection.new
        { data := some (BitArray.new 4 SECTION_VOLUME), palette := some [5] } = .ok r ∧
      r.solidBlockCount = 0 ∧ r.isEmpty = true ∧
      ∀ p, p.InRange → r.getBlock p = .ok 5 := by
  refine ⟨_, ChunkSection.new_with_data _ (BitArray.new 4 SECTION_VOLUME) rfl rfl, ?_, ?_, ?_⟩
  · show ((none : Option Int).getD (ChunkSection.storedNonZero (BitArray.new 4 SECTION_VOLUME) : Int))
      = 0
    rw [ChunkSection.storedNonZero_new]
    rfl
  · show (((none : Option Int).getD
      (ChunkSection.storedNonZero (BitArray.new 4 SECTION_VOLUME) : Int)) == 0) = true
    rw [ChunkSection.storedNonZero_new]
    rfl
  · intro p hp
    rw [ChunkSection.getBlock_eq_resolve _ p (getBlockIndex_lt hp)]
    simp [ChunkSection.resolve, BitArray.valueAt_new]

namespace ChunkSection

/-- With a palette that holds `0` at position 0 and nowhere else, a stored value is non-zero
exactly when the identifier `getBlock` resolves it to is: the constructor's count of stored
values is the number of positions whose `getBlock` result is non-zero. -/
theorem storedNonZero_eq_solidCells {s : ChunkSection} {palette : List Int}
    (hcap : s.data.capacity = SECTION_VOLUME) (hp : s.palette = some palette)
    (h0 : ∀ i : Nat, palette[i]? = some 0 ↔ i = 0) : storedNonZero s.data = s.solidCells := by
  rw [solidCells_eq hcap]
  unfold storedNonZero
  apply List.countP_congr
  intro p _
  simp only [resolve, hp]
  cases hv : palette[s.data.valueAt (getBlockIndex p)]? with
  | none => simp
  | some x =>
    have h := h0 (s.data.valueAt (getBlockIndex p))
    rw [hv] at h
    simp only [Option.some.injEq] at h
    simp [h]

end ChunkSection

/-- C9, as stated, fails: the snapshot of a fresh section with the `solidBlockCount` and
`palette` fields removed is accepted by `fromJson`, which returns the fresh section. -/
theorem fromJson_accepts_missing_count :
    ChunkSection.fromJson
      { data := some (BitArray.new 4 SECTION_VOLUME).toJson
        palette := ChunkSection.PaletteField.missing
        isDirty := some false
        blockLight := some (BitArray.new 4 SECTION_VOLUME).toJson
        skyLight := some (BitArray.new 4 SECTION_VOLUME).toJson
        solidBlockCount := none } = .ok ChunkSection.fresh := by
  have hw := BitArray.new_wellFormed 4 SECTION_VOLUME (by decide) (by decide)
  rw [ChunkSection.fromJson_ok _ (BitArray.new 4 SECTION_VOLUME) (BitArray.new 4 SECTION_VOLUME)
    (BitArray.new 4 SECTION_VOLUME) rfl rfl rfl hw hw hw rfl]
  simp only [ChunkSection.storedNonZero_new]
  rfl

/-- C9 (amended): `fromJson` fails with `DeserializationError` when the `data`, `blockLight` or
`skyLight` field of the snapshot is missing.  When the three are the snapshots of well-formed
arrays (the block array of capacity 4096) and the palette field is absent or a list, it returns
a section with these arrays, also when the palette or the `solidBlockCount` field is missing: a
missing palette is defaulted to `[0]` and a palette that is present is kept; a
`solidBlockCount` that is present is kept and a missing one is recomputed, to the number of
positions whose `getBlock` result is non-zero whenever the restored palette holds `0` at
position 0 and nowhere else. -/
theorem fromJson_missing_fields (parsed : ChunkSection.Snapshot) :
    ((parsed.data = none ∨ parsed.blockLight = none ∨ parsed.skyLight = none) →
      ChunkSection.fromJson parsed = .error Error.DeserializationError) ∧
    (∀ data blockLight skyLight : BitArray,
      parsed.data = some data.toJson → parsed.blockLight = some blockLight.toJson →
      parsed.skyLight = some skyLight.toJson →
      data.WellFormed → blockLight.WellFormed → skyLight.WellFormed →
      data.capacity = SECTION_VOLUME → parsed.palette ≠ ChunkSection.PaletteField.null →
      ∃ r, ChunkSection.fromJson parsed = .ok r ∧
        r.data = data ∧ r.blockLight = blockLight ∧ r.skyLight = skyLight ∧
        (parsed.palette = ChunkSection.PaletteField.missing → r.palette = some [0]) ∧
        (∀ palette, parsed.palette = ChunkSection.PaletteField.entries palette →
          r.palette = some palette) ∧
        (∀ count, parsed.solidBlockCount = some count → r.solidBlockCount = count) ∧
        (parsed.solidBlockCount = none →
          (∀ palette, r.palette = some palette → ∀ i : Nat, palette[i]? = some 0 ↔ i = 0) →
          r.solidBlockCount = (r.solidCells : Int))) := by
  constructor
  · intro h
    unfold ChunkSection.fromJson
    cases hd : BitArray.fromJson parsed.data with
    | error e => rw [ChunkSection.fromJson_bitArray_error hd]
    | ok data =>
      have hd' : parsed.data ≠ none := by
        intro hn; rw [hn] at hd; cases hd
      cases hb : BitArray.fromJson parsed.blockLight with
      | error e => rw [ChunkSection.fromJson_bitArray_error hb]
      | ok blockLight =>
        have hb' : parsed.blockLight ≠ none := by
          intro hn; rw [hn] at hb; cases hb
        cases hk : BitArray.fromJson parsed.skyLight with
        | error e => rw [ChunkSection.fromJson_bitArray_error hk]
        | ok skyLight =>
          have hk' : parsed.skyLight ≠ none := by
            intro hn; rw [hn] at hk; cases hk
          rcases h with h | h | h
          · exact absurd h hd'
          · exact absurd h hb'
          · exact absurd h hk'
  · intro data blockLight skyLight h1 h2 h3 w1 w2 w3 hcap _
    refine ⟨_, ChunkSection.fromJson_ok parsed data blockLight skyLight h1 h2 h3 w1 w2 w3 hcap,
      rfl, rfl, rfl, ?_, ?_, ?_, ?_⟩
    · intro hm
      simp only [hm, ChunkSection.PaletteField.toOption, Option.getD_none]
    · intro palette hm
      simp only [hm, ChunkSection.PaletteField.toOption, Option.getD_some]
    · intro count hm
      simp only [hm, Option.getD_some]
    · intro hm h0
      simp only [hm, Option.getD_none]
      exact congrArg Nat.cast (ChunkSection.storedNonZero_eq_solidCells
        (s := { data := data, palette := some (parsed.palette.toOption.getD [0]),
                isDirty := false, blockLight := blockLight, skyLight := skyLight,
                solidBlockCount := (ChunkSection.storedNonZero data : Int) })
        hcap rfl (h0 _ rfl))

/-- Witness of C9 (amended): the snapshot of a fresh section without its `solidBlockCount` and
`palette` fields is restored with the palette `[0]` and the recomputed count. -/
theorem fromJson_missing_fields_witness :
    ∃ r, ChunkSection.fromJson
        { data := some (BitArray.new 4 SECTION_VOLUME).toJson
          palette := ChunkSection.PaletteField.missing
          isDirty := some false
          blockLight := some (BitArray.new 4 SECTION_VOLUME).toJson
          skyLight := some (BitArray.new 4 SECTION_VOLUME).toJson
          solidBlockCount := none } = .ok r ∧
      r.palette = some [0] ∧ r.solidBlockCount = (r.solidCells : Int) := by
  have hw := BitArray.new_wellFormed 4 SECTION_VOLUME (by decide) (by decide)
  obtain ⟨r, hr, _, _, _, hpal, _, _, hcount⟩ :=
    (fromJson_missing_fields
      { data := some (BitArray.new 4 SECTION_VOLUME).toJson
        palette := ChunkSection.PaletteField.missing
        isDirty := some false
        blockLight := some (BitArray.new 4 SECTION_VOLUME).toJson
        skyLight := some (BitArray.new 4 SECTION_VOLUME).toJson
        solidBlockCount := none }).2 (BitArray.new 4 SECTION_VOLUME)
      (BitArray.new 4 SECTION_VOLUME) (BitArray.new 4 SECTION_VOLUME) rfl rfl rfl hw hw hw rfl
      (by decide)
  refine ⟨r, hr, hpal rfl, hcount rfl ?_⟩
  intro palette hp i
  rw [hpal rfl] at hp
  simp only [Option.some.injEq] at hp
  subst hp
  cases i with
  | zero => simp
  | succ n => simp

/-- C10: `new ChunkSection()` is the section with palette `[0]`, a block array of
bits-per-value 4 and capacity 4096, `solidBlockCount` 0 and `isDirty` false; `isEmpty()` is
true, and at every position with coordinates in `[0,15]` `getBlock`, `getBlockLight` and
`getSkyLight` return `0`. -/
theorem fresh_section :
    ChunkSection.new {} = .ok ChunkSection.fresh ∧
      ChunkSection.fresh.palette = some [0] ∧
      ChunkSection.fresh.data.bitsPerValue = 4 ∧
      ChunkSection.fresh.data.capacity = 4096 ∧
      ChunkSection.fresh.solidBlockCount = 0 ∧
      ChunkSection.fresh.isDirty = false ∧
      ChunkSection.fresh.isEmpty = true ∧
      ∀ p : Pos, p.InRange →
        ChunkSection.fresh.getBlock p = .ok 0 ∧ ChunkSection.fresh.getBlockLight p = .ok 0 ∧
          ChunkSection.fresh.getSkyLight p = .ok 0 :=
  ⟨rfl, rfl, rfl, rfl, rfl, rfl, rfl, fun p hp =>
    ⟨ChunkSection.getBlock_fresh p hp, ChunkSection.getBlockLight_fresh p hp,
      ChunkSection.getSkyLight_fresh p hp⟩⟩

/-- Witness of C10: the reads of the fresh section at position `(1,2,3)`. -/
theorem fresh_section_witness :
    ChunkSection.fresh.getBlock { x := 1, y := 2, z := 3 } = .ok 0 ∧
      ChunkSection.fresh.getBlockLight { x := 1, y := 2, z := 3 } = .ok 0 ∧
      ChunkSection.fresh.getSkyLight { x := 1, y := 2, z := 3 } = .ok 0 :=
  fresh_section.2.2.2.2.2.2.2 { x := 1, y := 2, z := 3 } (by decide)


namespace ChunkSection

/-- What `preparePalette` never touches: the light arrays, `isDirty` and `solidBlockCount`. -/
theorem preparePalette_frame {c : Constants} {s s2 : ChunkSection} {stateId k : Int}
    (h : preparePalette c s stateId = .ok (s2, k)) :
    s2.blockLight = s.blockLight ∧ s2.skyLight = s.skyLight ∧ s2.isDirty = s.isDirty ∧
      s2.solidBlockCount = s.solidBlockCount := by
  unfold preparePalette at h
  cases hp : s.palette with
  | none =>
    rw [hp] at h
    simp only [Except.ok.injEq, Prod.mk.injEq] at h
    obtain ⟨rfl, _⟩ := h
    exact ⟨rfl, rfl, rfl, rfl⟩
  | some palette =>
    rw [hp] at h
    simp only [] at h
    split at h
    · simp only [Except.ok.injEq, Prod.mk.injEq] at h
      obtain ⟨rfl, _⟩ := h
      exact ⟨rfl, rfl, rfl, rfl⟩
    · split at h
      · split at h
        · split at h
          · cases h
          · simp only [Except.ok.injEq, Prod.mk.injEq] at h
            obtain ⟨rfl, _⟩ := h
            exact ⟨rfl, rfl, rfl, rfl⟩
        · split at h
          · cases h
          · simp only [Except.ok.injEq, Prod.mk.injEq] at h
            obtain ⟨rfl, _⟩ := h
            exact ⟨rfl, rfl, rfl, rfl⟩
      · simp only [Except.ok.injEq, Prod.mk.injEq] at h
        obtain ⟨rfl, _⟩ := h
        exact ⟨rfl, rfl, rfl, rfl⟩

/-- A `setBlock` call that returns normally, taken apart, for any section. -/
theorem setBlock_ok_parts {c : Constants} {s s' : ChunkSection} {pos : Pos} {stateId : Int}
    (h : setBlock c s pos stateId = .ok s') :
    ∃ s2 k oldBlock d, preparePalette c s stateId = .ok (s2, k) ∧
      s2.getBlock pos = .ok oldBlock ∧
      s2.data.set (getBlockIndex pos) k = .ok d ∧
      s' = { s2 with
        data := d
        solidBlockCount := nextCount s2.solidBlockCount oldBlock stateId } := by
  unfold setBlock at h
  cases hprep : preparePalette c s stateId with
  | error e => rw [hprep] at h; cases h
  | ok r =>
    obtain ⟨s2, k⟩ := r
    rw [hprep] at h
    simp only [] at h
    cases hget : s2.getBlock pos with
    | error e => rw [hget] at h; cases h
    | ok oldBlock =>
      rw [hget] at h
      simp only [] at h
      by_cases hA : stateId = 0 ∧ oldBlock ≠ 0
      · rw [if_pos hA] at h
        simp only [] at h
        cases hset : s2.data.set (getBlockIndex pos) k with
        | error e => rw [hset] at h; cases h
        | ok d =>
          rw [hset] at h
          injection h with h
          exact ⟨s2, k, oldBlock, d, rfl, hget, hset, by rw [← h]; simp [nextCount, hA]⟩
      · rw [if_neg hA] at h
        by_cases hB : stateId ≠ 0 ∧ oldBlock = 0
        · rw [if_pos hB] at h
          simp only [] at h
          cases hset : s2.data.set (getBlockIndex pos) k with
          | error e => rw [hset] at h; cases h
          | ok d =>
            rw [hset] at h
            injection h with h
            exact ⟨s2, k, oldBlock, d, rfl, hget, hset, by rw [← h]; simp [nextCount, hA, hB]⟩
        · rw [if_neg hB] at h
          cases hset : s2.data.set (getBlockIndex pos) k with
          | error e => rw [hset] at h; cases h
          | ok d =>
            rw [hset] at h
            injection h with h
            exact ⟨s2, k, oldBlock, d, rfl, hget, hset, by rw [← h]; simp [nextCount, hA, hB]⟩

theorem setBlock_lights {c : Constants} {s s' : ChunkSection} {pos : Pos} {stateId : Int}
    (h : setBlock c s pos stateId = .ok s') :
    s'.blockLight = s.blockLight ∧ s'.skyLight = s.skyLight := by
  obtain ⟨s2, k, oldBlock, d, hprep, _, _, rfl⟩ := setBlock_ok_parts h
  obtain ⟨f1, f2, _, _⟩ := preparePalette_frame hprep
  exact ⟨f1, f2⟩

theorem get_after_set {a a' : BitArray} {i : Nat} {value : Int} (hw : a.WellFormed)
    (h : a.set i value = .ok a') (j : Nat) :
    a'.get j = if j = i then .ok value.toNat else a.get j := by
  obtain ⟨_, w2, _⟩ := BitArray.set_wellFormed hw h
  have hv := BitArray.valueAt_set hw h j
  by_cases hj : j < a.capacity
  · rw [BitArray.get_eq a' j (by rw [w2]; exact hj), BitArray.get_eq a j hj, hv]
    split <;> rfl
  · have hi : i < a.capacity := by
      unfold BitArray.set at h
      split at h
      · assumption
      · cases h
    rw [BitArray.get_eq_error a' j (by rw [w2]; exact hj), BitArray.get_eq_error a j hj,
      if_neg (by omega)]

end ChunkSection

namespace ChunkSection

theorem light_set_ok {a : BitArray} (hw : a.WellFormed) (hcap : a.capacity = SECTION_VOLUME)
    (hbits : a.bitsPerValue = 4) {pos : Pos} (hpos : pos.InRange) {v : Nat} (hv : v ≤ 15) :
    ∃ a', a.set (getBlockIndex pos) (v : Int) = .ok a' ∧
      a'.get (getBlockIndex pos) = .ok v ∧
      ∀ q : Pos, getBlockIndex q ≠ getBlockIndex pos →
        a'.get (getBlockIndex q) = a.get (getBlockIndex q) := by
  have hi : getBlockIndex pos < a.capacity := by rw [hcap]; exact getBlockIndex_lt hpos
  have hlt : ((v : Nat) : Int) < 2 ^ a.bitsPerValue := by
    rw [hbits]
    have : (v : Int) < 16 := by omega
    exact this
  have hset := BitArray.set_eq a _ (v : Int) hi (Int.natCast_nonneg _) hlt
  refine ⟨_, hset, ?_, fun q hq => ?_⟩
  · rw [get_after_set hw hset, if_pos rfl, Int.toNat_ofNat]
  · rw [get_after_set hw hset, if_neg hq]

end ChunkSection

/-- C12: for a section whose light arrays are 4-bit Packed Arrays of 4096 slots, a position `p`
in range and a light value `v` in `[0,15]`: `setBlockLight(p, v)` returns normally, makes
`getBlockLight(p) = v`, and leaves `getBlockLight` at every position of another linear index,
`getSkyLight` and `getBlock` at every position, the palette and `solidBlockCount` unchanged;
the same holds for `setSkyLight` with the two light channels exchanged; and a `setBlock` call
that returns normally leaves `getBlockLight` and `getSkyLight` unchanged at every position. -/
theorem light_and_block_independent (c : Constants) (s : ChunkSection) (pos : Pos)
    (hpos : pos.InRange) (v : Nat) (hv : v ≤ 15)
    (hb : s.blockLight.WellFormed ∧ s.blockLight.capacity = SECTION_VOLUME ∧
      s.blockLight.bitsPerValue = 4)
    (hk : s.skyLight.WellFormed ∧ s.skyLight.capacity = SECTION_VOLUME ∧
      s.skyLight.bitsPerValue = 4) :
    (∃ s', s.setBlockLight pos (v : Int) = .ok s' ∧ s'.getBlockLight pos = .ok v ∧
      (∀ q, getBlockIndex q ≠ getBlockIndex pos → s'.getBlockLight q = s.getBlockLight q) ∧
      (∀ q, s'.getSkyLight q = s.getSkyLight q) ∧ (∀ q, s'.getBlock q = s.getBlock q) ∧
      s'.palette = s.palette ∧ s'.solidBlockCount = s.solidBlockCount) ∧
    (∃ s', s.setSkyLight pos (v : Int) = .ok s' ∧ s'.getSkyLight pos = .ok v ∧
      (∀ q, getBlockIndex q ≠ getBlockIndex pos → s'.getSkyLight q = s.getSkyLight q) ∧
      (∀ q, s'.getBlockLight q = s.getBlockLight q) ∧ (∀ q, s'.getBlock q = s.getBlock q) ∧
      s'.palette = s.palette ∧ s'.solidBlockCount = s.solidBlockCount) ∧
    (∀ (blockPos : Pos) (stateId : Int) (s' : ChunkSection),
      ChunkSection.setBlock c s blockPos stateId = .ok s' →
      ∀ q, s'.getBlockLight q = s.getBlockLight q ∧ s'.getSkyLight q = s.getSkyLight q) := by
  refine ⟨?_, ?_, ?_⟩
  · obtain ⟨a', h1, h2, h3⟩ := ChunkSection.light_set_ok hb.1 hb.2.1 hb.2.2 hpos hv
    refine ⟨{ s with blockLight := a' }, ?_, h2, h3, fun _ => rfl, fun _ => rfl, rfl, rfl⟩
    simp only [ChunkSection.setBlockLight, h1]
  · obtain ⟨a', h1, h2, h3⟩ := ChunkSection.light_set_ok hk.1 hk.2.1 hk.2.2 hpos hv
    refine ⟨{ s with skyLight := a' }, ?_, h2, h3, fun _ => rfl, fun _ => rfl, rfl, rfl⟩
    simp only [ChunkSection.setSkyLight, h1]
  · intro blockPos stateId s' h q
    obtain ⟨f1, f2⟩ := ChunkSection.setBlock_lights h
    simp only [ChunkSection.getBlockLight, ChunkSection.getSkyLight, f1, f2, and_self]

/-- Witness of C12: the fresh section, position `(1,2,3)`, light value `7`. -/
theorem light_and_block_independent_witness :
    ∃ s', ChunkSection.fresh.setBlockLight { x := 1, y := 2, z := 3 } 7 = .ok s' ∧
      s'.getBlockLight { x := 1, y := 2, z := 3 } = .ok 7 ∧
      (∀ q, s'.getSkyLight q = ChunkSection.fresh.getSkyLight q) ∧
      (∀ q, s'.getBlock q = ChunkSection.fresh.getBlock q) := by
  have hw := BitArray.new_wellFormed 4 SECTION_VOLUME (by decide) (by decide)
  obtain ⟨⟨s', h1, h2, _, h4, h5, _⟩, _⟩ :=
    light_and_block_independent exampleConstants ChunkSection.fresh { x := 1, y := 2, z := 3 }
      (by decide) 7 (by decide) ⟨hw, rfl, rfl⟩ ⟨hw, rfl, rfl⟩
  exact ⟨s', h1, h2, h4, h5⟩


namespace ChunkSection

/-- Once the palette step returned, `setBlock` returns if the value to store fits: always in
Indexed mode, and in Global mode when the identifier is in `[0, 2^GLOBAL_BITS_PER_BLOCK)`. -/
theorem setBlock_of_prepared {c : Constants} {s s2 : ChunkSection} {pos : Pos}
    {stateId k : Int} (hpos : getBlockIndex pos < SECTION_VOLUME) (hc : c.Valid)
    (hs : Shape c s) (hprep : preparePalette c s stateId = .ok (s2, k))
    (hg : s2.palette = none → 0 ≤ stateId ∧ stateId < 2 ^ c.GLOBAL_BITS_PER_BLOCK) :
    ∃ s', setBlock c s pos stateId = .ok s' := by
  obtain ⟨p1, _, _, _, _, _, p7, _, _⟩ := preparePalette_ok hc hs hprep
  have hk : 0 ≤ k ∧ k < 2 ^ s2.data.bitsPerValue := by
    cases hpal2 : s2.palette with
    | none =>
      simp only [Target, hpal2] at p7
      subst p7
      rw [p1.global hpal2]
      exact hg hpal2
    | some pal =>
      simp only [Target, hpal2] at p7
      obtain ⟨n, e1, _, _, e4⟩ := p7
      rw [e1]
      exact ⟨Int.natCast_nonneg _, e4⟩
  have hi : getBlockIndex pos < s2.data.capacity := by rw [p1.data_cap]; exact hpos
  have hset := BitArray.set_eq s2.data _ k hi hk.1 hk.2
  unfold setBlock
  simp only [hprep, getBlock_eq_resolve s2 pos hi]
  by_cases hA : stateId = 0 ∧ s2.resolve (getBlockIndex pos) ≠ 0
  · rw [if_pos hA]
    simp only [hset]
    exact ⟨_, rfl⟩
  · rw [if_neg hA]
    by_cases hB : stateId ≠ 0 ∧ s2.resolve (getBlockIndex pos) = 0
    · rw [if_pos hB]
      simp only [hset]
      exact ⟨_, rfl⟩
    · rw [if_neg hB]
      simp only [hset]
      exact ⟨_, rfl⟩

/-- In Indexed mode a call that does not have to switch to Global mode returns normally,
whatever the integer identifier. -/
theorem setBlock_succeeds_indexed {c : Constants} {s : ChunkSection} {pos : Pos}
    {stateId : Int} {palette : List Int} (hpos : getBlockIndex pos < SECTION_VOLUME)
    (hc : c.Valid) (hs : Shape c s) (hp : s.palette = some palette)
    (hroom : stateId ∉ palette → palette.length ≠ 2 ^ c.MAX_BITS_PER_BLOCK) :
    ∃ s', setBlock c s pos stateId = .ok s' := by
  have hprep : ∃ r, preparePalette c s stateId = .ok r := by
    unfold preparePalette
    rw [hp]
    simp only []
    obtain ⟨i1, i2, i3, i4, i5⟩ := hs.indexed palette hp
    split
    · exact ⟨_, rfl⟩
    · rename_i hidx
      have hmem : stateId ∉ palette := fun hm => hidx ((indexOf_nonneg_iff _ _).mpr hm)
      have hpushlen : (palette ++ [stateId]).length - 1 = palette.length := by simp
      rw [hpushlen]
      simp only [BitArray.getBitsPerValue]
      split
      · rename_i hgrow
        split
        · rename_i hmax
          obtain ⟨d, r1, _⟩ := BitArray.resizeTo_spec s.data hs.data_wf
            (neededBits palette.length) (le_of_lt hgrow) (le_trans hmax hc.2.1)
          rw [r1]
          exact ⟨_, rfl⟩
        · rename_i hmax
          exfalso
          have hlen := length_pos_of_head i2
          have hlt : palette.length - 1 < 2 ^ s.data.bitsPerValue := by
            rw [← neededBits_le_iff, i4]; exact le_max_right _ _
          have h1 : ¬ palette.length < 2 ^ c.MAX_BITS_PER_BLOCK := fun hh =>
            hmax ((neededBits_le_iff _ _).mpr hh)
          have h2 : palette.length - 1 < 2 ^ c.MAX_BITS_PER_BLOCK :=
            lt_of_lt_of_le hlt (Nat.pow_le_pow_right (by decide) i5)
          exact hroom hmem (by omega)
      · exact ⟨_, rfl⟩
  obtain ⟨⟨s2, k⟩, hprep⟩ := hprep
  refine setBlock_of_prepared hpos hc hs hprep (fun hnone => ?_)
  have hnext := (preparePalette_ok hc hs hprep).2.2.2.2.2.2.2.1
  rw [hp, hnone] at hnext
  simp only [nextPalette] at hnext
  by_cases hm : stateId ∈ palette
  · rw [if_pos hm] at hnext; cases hnext
  · rw [if_neg hm, if_neg (hroom hm)] at hnext; cases hnext

end ChunkSection

namespace ChunkSection

/-- The value a returning `setBlock` leaves at the position's linear index resolves to the
identifier: a palette position holding it (Indexed) or the identifier itself (Global). -/
theorem setBlock_stored {c : Constants} {s s' : ChunkSection} {pos : Pos} {stateId : Int}
    (hc : c.Valid) (hs : Shape c s) (hpos : pos.InRange)
    (h : setBlock c s pos stateId = .ok s') :
    ∃ n : Nat, s'.data.get (getBlockIndex pos) = .ok n ∧
      match s'.palette with
      | some palette => palette[n]? = some stateId
      | none => (n : Int) = stateId := by
  obtain ⟨s2, k, d, hprep, hset, rfl⟩ := setBlock_inv (getBlockIndex_lt hpos) hc hs h
  obtain ⟨p1, _, _, _, _, _, p7, _, _⟩ := preparePalette_ok hc hs hprep
  have hrange := set_value_range hset
  refine ⟨k.toNat, ?_, ?_⟩
  · show d.get (getBlockIndex pos) = .ok k.toNat
    rw [get_after_set p1.data_wf hset, if_pos rfl]
  · show (match s2.palette with
      | some palette => palette[k.toNat]? = some stateId
      | none => (k.toNat : Int) = stateId)
    cases hp2 : s2.palette with
    | none =>
      simp only [Target, hp2] at p7
      subst p7
      exact Int.toNat_of_nonneg hrange.1
    | some palette =>
      simp only [Target, hp2] at p7
      obtain ⟨n, e1, _, e3, _⟩ := p7
      subst e1
      simpa using e3

end ChunkSection

/-- C11: for an Indexed-mode section reachable from a fresh one and a call `setBlock(p, s)`
that returns without switching to Global mode: if `s` is in the palette, the palette is
unchanged and the value stored at `p`'s linear index is the position of `s` in the palette;
if not, the new palette is the old one with `s` appended and the stored value is the old
palette length.  On a fresh section `setBlock((0,0,0), 5)` yields palette `[0, 5]`, stored
value `1` at linear index 0, `getBlock((0,0,0)) = 5` and `solidBlockCount = 1`. -/
theorem palette_lookup_and_append (c : Constants) (hc : c.Valid) (s : ChunkSection)
    (hs : ChunkSection.Reachable c s) (palette : List Int) (hp : s.palette = some palette)
    (pos : Pos) (hpos : pos.InRange) (stateId : Int) (s' : ChunkSection)
    (hset : ChunkSection.setBlock c s pos stateId = .ok s') (hns : s'.palette ≠ none) :
    (stateId ∈ palette → s'.palette = some palette ∧
      s'.data.get (getBlockIndex pos) = .ok (palette.indexOf stateId)) ∧
    (stateId ∉ palette → s'.palette = some (palette ++ [stateId]) ∧
      s'.data.get (getBlockIndex pos) = .ok palette.length) ∧
    ∃ s1, ChunkSection.setBlock c ChunkSection.fresh { x := 0, y := 0, z := 0 } 5 = .ok s1 ∧
      s1.palette = some [0, 5] ∧ s1.data.get 0 = .ok 1 ∧
      s1.getBlock { x := 0, y := 0, z := 0 } = .ok 5 ∧ s1.solidBlockCount = 1 := by
  have key : ∀ (t t' : ChunkSection) (pal : List Int) (q : Pos) (id : Int),
      ChunkSection.Shape c t → t.palette = some pal → q.InRange →
      ChunkSection.setBlock c t q id = .ok t' → t'.palette ≠ none →
      (id ∈ pal → t'.palette = some pal ∧
        t'.data.get (getBlockIndex q) = .ok (pal.indexOf id)) ∧
      (id ∉ pal → t'.palette = some (pal ++ [id]) ∧
        t'.data.get (getBlockIndex q) = .ok pal.length) := by
    intro t t' pal q id ht htp hq hcall hnn
    obtain ⟨q1, _, _, _, _, _, q7, _⟩ := ChunkSection.setBlock_ok (getBlockIndex_lt hq) hc ht hcall
    obtain ⟨n, hn1, hn2⟩ := ChunkSection.setBlock_stored hc ht hq hcall
    obtain ⟨i1, _, _, _, _⟩ := ht.indexed pal htp
    rw [htp] at q7
    constructor
    · intro hm
      have hpal' : t'.palette = some pal := by
        rw [q7]; simp only [ChunkSection.nextPalette, if_pos hm]
      refine ⟨hpal', ?_⟩
      rw [hpal'] at hn2
      simp only [] at hn2
      have hlt : n < pal.length := by
        by_contra hge
        rw [List.getElem?_eq_none (not_lt.mp hge)] at hn2
        cases hn2
      rw [List.getElem?_eq_getElem hlt] at hn2
      simp only [Option.some.injEq] at hn2
      rw [hn1, ← hn2, List.indexOf_getElem i1 n hlt]
    · intro hm
      have hpal' : t'.palette = some (pal ++ [id]) := by
        rw [q7] at hnn ⊢
        simp only [ChunkSection.nextPalette, if_neg hm] at hnn ⊢
        by_cases hl : pal.length = 2 ^ c.MAX_BITS_PER_BLOCK
        · rw [if_pos hl] at hnn; exact absurd rfl hnn
        · rw [if_neg hl]
      refine ⟨hpal', ?_⟩
      rw [hpal'] at hn2
      simp only [] at hn2
      have hge : pal.length ≤ n := by
        by_contra hlt
        rw [List.getElem?_append_left (not_le.mp hlt),
          List.getElem?_eq_getElem (not_le.mp hlt)] at hn2
        simp only [Option.some.injEq] at hn2
        exact hm (hn2 ▸ List.getElem_mem _)
      have hlt : n < (pal ++ [id]).length := by
        by_contra hge'
        rw [List.getElem?_eq_none (not_lt.mp hge')] at hn2
        cases hn2
      simp only [List.length_append, List.length_singleton] at hlt
      have : n = pal.length := by omega
      rw [hn1, this]
  obtain ⟨k1, k2⟩ := key s s' palette pos stateId (hs.invariant hc).1 hp hpos hset hns
  refine ⟨k1, k2, ?_⟩
  have hpos0 : ({ x := 0, y := 0, z := 0 } : Pos).InRange := by decide
  have hf := ChunkSection.shape_fresh c hc
  have hfp : ChunkSection.fresh.palette = some [0] := rfl
  have hroom : ([0] : List Int).length ≠ 2 ^ c.MAX_BITS_PER_BLOCK := by
    have := Nat.pow_le_pow_right (by decide : 1 ≤ 2) hc.1
    simp only [List.length_singleton]
    omega
  obtain ⟨s1, h1⟩ : ∃ s1, ChunkSection.setBlock c ChunkSection.fresh
      { x := 0, y := 0, z := 0 } 5 = .ok s1 :=
    ChunkSection.setBlock_succeeds_indexed (getBlockIndex_lt hpos0) hc hf hfp (fun _ => hroom)
  obtain ⟨_, _, _, _, q5, _, q7, _⟩ :=
    ChunkSection.setBlock_ok (getBlockIndex_lt hpos0) hc hf h1
  have hnot : (5 : Int) ∉ ([0] : List Int) := by decide
  have hpal : s1.palette = some [0, 5] := by
    rw [q7, hfp]
    simp only [ChunkSection.nextPalette, if_neg hnot, if_neg hroom]
    rfl
  have hstored := (key ChunkSection.fresh s1 [0] _ 5 hf hfp hpos0 h1
    (by rw [hpal]; exact fun h => Option.noConfusion h)).2 hnot
  refine ⟨s1, h1, hpal, hstored.2, ?_, ?_⟩
  · rw [ChunkSection.getBlock_after_setBlock hc hf hpos0 h1, if_pos rfl]
  · rw [q5, ChunkSection.resolve_fresh]
    rfl

/-- Witness of C11: `setBlock((0,0,0), 5)` on the fresh section appends `5` to the palette `[0]`
and stores the old palette length `1`. -/
theorem palette_lookup_and_append_witness :
    ∃ s', ChunkSection.setBlock exampleConstants ChunkSection.fresh { x := 0, y := 0, z := 0 } 5
        = .ok s' ∧
      s'.palette = some ([0] ++ [5]) ∧
      s'.data.get (getBlockIndex { x := 0, y := 0, z := 0 }) = .ok ([0] : List Int).length := by
  have hc := ChunkSection.exampleConstants_valid
  obtain ⟨s', h⟩ : ∃ s', ChunkSection.setBlock exampleConstants ChunkSection.fresh
      { x := 0, y := 0, z := 0 } 5 = .ok s' :=
    ChunkSection.setBlock_succeeds_indexed
      (getBlockIndex_lt (by decide : ({ x := 0, y := 0, z := 0 } : Pos).InRange)) hc
      (ChunkSection.shape_fresh _ hc) (rfl : ChunkSection.fresh.palette = some [0])
      (fun _ => by decide)
  have hns : s'.palette ≠ none := by
    rw [(ChunkSection.setBlock_ok (getBlockIndex_lt (by decide)) hc
      (ChunkSection.shape_fresh _ hc) h).2.2.2.2.2.2.1]
    decide
  exact ⟨s', h, (palette_lookup_and_append exampleConstants hc ChunkSection.fresh
    ChunkSection.Reachable.fresh [0] rfl { x := 0, y := 0, z := 0 } (by decide) 5 s' h
    hns).2.1 (by decide)⟩



/-- C14: in a section reachable from a fresh one by `setBlock` calls, while the palette is
non-null every value stored in the block array is a valid palette position, the palette has at
most `2^bitsPerValue` entries and the width is at most `MAX_BITS_PER_BLOCK`; so at every
position of the section `getBlock` returns the palette entry at the stored value, never the
stored value itself. -/
theorem valid_index_invariant (c : Constants) (hc : c.Valid) (s : ChunkSection)
    (hs : ChunkSection.Reachable c s) (palette : List Int) (hp : s.palette = some palette) :
    (∀ i, i < SECTION_VOLUME → ∃ n, s.data.get i = .ok n ∧ 0 ≤ n ∧ n < palette.length) ∧
    palette.length ≤ 2 ^ s.data.bitsPerValue ∧
    s.data.bitsPerValue ≤ c.MAX_BITS_PER_BLOCK ∧
    ∀ p : Pos, p.InRange →
      ∃ (n : Nat) (h : n < palette.length),
        s.data.get (getBlockIndex p) = .ok n ∧ s.getBlock p = .ok (palette.get ⟨n, h⟩) := by
  have hshape := (hs.invariant hc).1
  obtain ⟨_, i2, i3, i4, i5⟩ := hshape.indexed palette hp
  have hlen := ChunkSection.length_pos_of_head i2
  have hlt : palette.length - 1 < 2 ^ s.data.bitsPerValue := by
    rw [← neededBits_le_iff, i4]; exact le_max_right _ _
  refine ⟨fun i hi => ⟨s.data.valueAt i, ?_, Nat.zero_le _, i3 i hi⟩, by omega, i5, ?_⟩
  · exact BitArray.get_eq _ _ (hshape.data_cap.symm ▸ hi)
  · intro p hpos
    have hi := getBlockIndex_lt hpos
    have hget := BitArray.get_eq s.data _ (hshape.data_cap.symm ▸ hi)
    refine ⟨s.data.valueAt (getBlockIndex p), i3 _ hi, hget, ?_⟩
    unfold ChunkSection.getBlock
    simp only [hget, hp]
    rw [dif_pos ⟨Int.natCast_nonneg _, i3 _ hi⟩]

/-- Witness of C14: the fresh section with its palette `[0]`. -/
theorem valid_index_invariant_witness :
    (∀ i, i < SECTION_VOLUME →
      ∃ n, ChunkSection.fresh.data.get i = .ok n ∧ 0 ≤ n ∧ n < ([0] : List Int).length) ∧
    ([0] : List Int).length ≤ 2 ^ ChunkSection.fresh.data.bitsPerValue ∧
    ChunkSection.fresh.data.bitsPerValue ≤ exampleConstants.MAX_BITS_PER_BLOCK ∧
    ∀ p : Pos, p.InRange →
      ∃ (n : Nat) (h : n < ([0] : List Int).length),
        ChunkSection.fresh.data.get (getBlockIndex p) = .ok n ∧
          ChunkSection.fresh.getBlock p = .ok (([0] : List Int).get ⟨n, h⟩) :=
  valid_index_invariant exampleConstants (by decide) ChunkSection.fresh
    ChunkSection.Reachable.fresh [0] rfl

/-- C15: in a section reachable from a fresh one by `setBlock` calls, while the palette is
non-null it has no duplicate identifier and its entry at position 0 is `0`. -/
theorem palette_shape_invariant (c : Constants) (hc : c.Valid) (s : ChunkSection)
    (hs : ChunkSection.Reachable c s) (palette : List Int) (hp : s.palette = some palette) :
    palette.Nodup ∧ palette[0]? = some 0 := by
  obtain ⟨i1, i2, _⟩ := (hs.invariant hc).1.indexed palette hp
  refine ⟨i1, ?_⟩
  cases palette with
  | nil => simp at i2
  | cons a l =>
    simp only [List.head?_cons, Option.some.injEq] at i2
    simp [i2]

/-- Witness of C15: the section after `setBlock((1,2,3), 5)` on a fresh one. -/
theorem palette_shape_invariant_witness :
    ∃ s palette, ChunkSection.setBlock exampleConstants ChunkSection.fresh
        { x := 1, y := 2, z := 3 } 5 = .ok s ∧ s.palette = some palette ∧
      palette.Nodup ∧ palette[0]? = some 0 := by
  have hc := ChunkSection.exampleConstants_valid
  have hpos : ({ x := 1, y := 2, z := 3 } : Pos).InRange := by decide
  obtain ⟨s, h⟩ : ∃ s, ChunkSection.setBlock exampleConstants ChunkSection.fresh
      { x := 1, y := 2, z := 3 } 5 = .ok s :=
    ChunkSection.setBlock_succeeds_indexed (getBlockIndex_lt hpos) hc
      (ChunkSection.shape_fresh _ hc) (rfl : ChunkSection.fresh.palette = some [0])
      (fun _ => by decide)
  have hpal : s.palette = some [0, 5] := by
    rw [(ChunkSection.setBlock_ok (getBlockIndex_lt hpos) hc
      (ChunkSection.shape_fresh _ hc) h).2.2.2.2.2.2.1]
    decide
  exact ⟨s, [0, 5], h, hpal, palette_shape_invariant exampleConstants hc s
    (ChunkSection.Reachable.setBlock ChunkSection.Reachable.fresh hpos h) [0, 5] hpal⟩

/-- C17: starting from a fresh section, every finite sequence of `setBlock` calls with
positions in range and identifiers in `[0, 2^GLOBAL_BITS_PER_BLOCK)` runs to its end: no call
raises `IndexOutOfRange` or `ValueOutOfRange`, the resizing calls and the call that copies the
4096 resolved identifiers into the Global-mode array included. -/
theorem no_failure_within_range (c : Constants) (hc : c.Valid) (ops : List (Pos × Int))
    (hops : ∀ op ∈ ops, op.1.InRange ∧ 0 ≤ op.2 ∧ op.2 < 2 ^ c.GLOBAL_BITS_PER_BLOCK) :
    ∃ s, ChunkSection.run c ChunkSection.fresh ops = .ok s := by
  obtain ⟨s, h, _⟩ := ChunkSection.run_succeeds hc ops ChunkSection.fresh
    ChunkSection.ReachableBounded.fresh hops
  exact ⟨s, h⟩

/-- Witness of C17: the 256 calls `setBlock((0,0,0), i)`, `i = 1, …, 256`, which resize the
block array four times and end with the switch to Global mode. -/
theorem no_failure_within_range_witness :
    ∃ s, ChunkSection.run exampleConstants ChunkSection.fresh ChunkSection.fillOps = .ok s :=
  no_failure_within_range exampleConstants (by decide) ChunkSection.fillOps
    ChunkSection.fillOps_bounded

/-- C19: in a section reachable from a fresh one by `setBlock` calls, the block array's
bits-per-value is `max(4, neededBits(palette.length - 1))` while the palette is non-null and
`GLOBAL_BITS_PER_BLOCK` once it is null; and, the local maximum being at most the global width,
a `setBlock` call that returns normally never decreases the width. -/
theorem exact_block_array_width (c : Constants) (hc : c.Valid) (s : ChunkSection)
    (hs : ChunkSection.Reachable c s) :
    (∀ palette, s.palette = some palette →
      s.data.bitsPerValue = max 4 (neededBits (palette.length - 1))) ∧
    (s.palette = none → s.data.bitsPerValue = c.GLOBAL_BITS_PER_BLOCK) ∧
    (c.MAX_BITS_PER_BLOCK ≤ c.GLOBAL_BITS_PER_BLOCK →
      ∀ (pos : Pos) (stateId : Int) (s' : ChunkSection), pos.InRange →
        ChunkSection.setBlock c s pos stateId = .ok s' →
        s.data.bitsPerValue ≤ s'.data.bitsPerValue) := by
  have hshape := (hs.invariant hc).1
  refine ⟨fun palette hp => (hshape.indexed palette hp).2.2.2.1, hshape.global, ?_⟩
  intro hmg pos stateId s' hpos hset
  obtain ⟨q1, _, _, _, _, _, q7, _⟩ :=
    ChunkSection.setBlock_ok (getBlockIndex_lt hpos) hc hshape hset
  cases hp : s.palette with
  | none =>
    have hp' : s'.palette = none := by rw [q7, hp]; rfl
    rw [hshape.global hp, q1.global hp']
  | some palette =>
    obtain ⟨_, _, _, i4, i5⟩ := hshape.indexed palette hp
    cases hp' : s'.palette with
    | none =>
      rw [q1.global hp']
      exact le_trans i5 hmg
    | some palette' =>
      obtain ⟨_, _, _, i4', _⟩ := q1.indexed palette' hp'
      rw [i4, i4']
      have hlen : palette.length ≤ palette'.length := by
        rw [q7, hp] at hp'
        simp only [ChunkSection.nextPalette] at hp'
        split at hp'
        · simp only [Option.some.injEq] at hp'
          rw [hp']
        · split at hp'
          · cases hp'
          · simp only [Option.some.injEq] at hp'
            rw [← hp']
            simp
      exact max_le_max le_rfl (neededBits_mono (Nat.sub_le_sub_right hlen 1))

/-- Witness of C19: the fresh section, whose block array is `max(4, neededBits(0)) = 4` bits
wide. -/
theorem exact_block_array_width_witness :
    ChunkSection.fresh.data.bitsPerValue = max 4 (neededBits (([0] : List Int).length - 1)) :=
  (exact_block_array_width exampleConstants (by decide) ChunkSection.fresh
    ChunkSection.Reachable.fresh).1 [0] rfl


namespace BitArray

theorem eq_of_bitAt_eq {d1 d2 : List Nat} (hlen : d1.length = d2.length)
    (h1 : ∀ w ∈ d1, w < 2 ^ 32) (h2 : ∀ w ∈ d2, w < 2 ^ 32)
    (h : ∀ p, bitAt d1 p = bitAt d2 p) : d1 = d2 := by
  apply List.ext_getElem hlen
  intro k hk1 hk2
  apply Nat.eq_of_testBit_eq
  intro j
  by_cases hj : j < 32
  · have := h (32 * k + j)
    simp only [bitAt] at this
    have e1 : (32 * k + j) / 32 = k := by omega
    have e2 : (32 * k + j) % 32 = j := by omega
    rw [e1, e2] at this
    simpa [List.getD_eq_getElem?_getD, List.getElem?_eq_getElem hk1,
      List.getElem?_eq_getElem hk2] using this
  · rw [testBit_eq_false_of_lt_two_pow_le (h1 _ (List.getElem_mem hk1)) (not_lt.mp hj),
      testBit_eq_false_of_lt_two_pow_le (h2 _ (List.getElem_mem hk2)) (not_lt.mp hj)]

/-- Writing back the value a slot holds leaves the Packed Array as it is. -/
theorem set_same {a : BitArray} (hw : a.WellFormed) {i : Nat} (hi : i < a.capacity) :
    a.set i (a.valueAt i : Int) = .ok a := by
  have hlt : ((a.valueAt i : Nat) : Int) < 2 ^ a.bitsPerValue := by
    exact_mod_cast valueAt_lt a i
  rw [set_eq a i _ hi (Int.natCast_nonneg _) hlt, Int.toNat_ofNat]
  obtain ⟨w1, w2, w3, w4⟩ := hw
  have hvn := valueAt_lt a i
  have hdata : writeBits a.data (i * a.bitsPerValue) a.bitsPerValue (a.valueAt i) = a.data := by
    apply eq_of_bitAt_eq (length_writeBits _ _ _ _) (writeBits_lt _ _ _ _ w2 hvn w4) w4
    intro p
    rw [bitAt_writeBits _ _ _ _ _ w1 w2 hvn (slot_le_length ⟨w1, w2, w3, w4⟩ hi)]
    split
    · rename_i hin
      simp only [valueAt]
      rw [testBit_readBits _ _ _ _ w2 w4]
      have hb : p - i * a.bitsPerValue < a.bitsPerValue := by omega
      have hp : i * a.bitsPerValue + (p - i * a.bitsPerValue) = p := by omega
      simp [hb, hp]
    · rfl
  rw [hdata]

end BitArray

namespace ChunkSection

/-- The tail of `setBlock` (lines 149–156) when the palette step left the section as it was and
the value to store is the one already stored and resolving to `stateId`: nothing changes. -/
theorem setBlock_same {c : Constants} {s : ChunkSection} {pos : Pos} {stateId : Int}
    (hw : s.data.WellFormed) (hi : getBlockIndex pos < s.data.capacity)
    (hprep : preparePalette c s stateId = .ok (s, (s.data.valueAt (getBlockIndex pos) : Int)))
    (hget : s.getBlock pos = .ok stateId) :
    setBlock c s pos stateId = .ok s := by
  unfold setBlock
  simp only [hprep, hget]
  rw [if_neg (fun h => h.2 h.1), if_neg (fun h => h.1 h.2)]
  simp only [BitArray.set_same hw hi]

theorem setBlock_current {c : Constants} {s : ChunkSection} {pos : Pos}
    (hs : Shape c s) (hpos : pos.InRange) :
    ∃ stateId, s.getBlock pos = .ok stateId ∧ setBlock c s pos stateId = .ok s := by
  have hi : getBlockIndex pos < s.data.capacity := by
    rw [hs.data_cap]; exact getBlockIndex_lt hpos
  have hget := getBlock_eq_resolve s pos hi
  refine ⟨_, hget, setBlock_same hs.data_wf hi ?_ hget⟩
  unfold preparePalette
  cases hp : s.palette with
  | none =>
    simp only [resolve, hp]
  | some palette =>
    obtain ⟨i1, _, i3, _, _⟩ := hs.indexed palette hp
    have hv := i3 _ (getBlockIndex_lt hpos)
    have hres : s.resolve (getBlockIndex pos) = palette[s.data.valueAt (getBlockIndex pos)] := by
      simp only [resolve, hp]
      rw [List.getElem?_eq_getElem hv]
      rfl
    have hmem : s.resolve (getBlockIndex pos) ∈ palette := by
      rw [hres]; exact List.getElem_mem _
    have hidx : indexOf palette (s.resolve (getBlockIndex pos)) =
        (s.data.valueAt (getBlockIndex pos) : Int) := by
      simp only [indexOf, if_pos hmem]
      rw [hres, List.indexOf_getElem i1 _ hv]
    simp only []
    rw [if_pos (by rw [hidx]; exact Int.natCast_nonneg _), hidx]

end ChunkSection

/-- C20: in a section reachable from a fresh one by `setBlock` calls, for a position `p` in
range, `setBlock(p, getBlock(p))` returns normally and leaves the whole section (palette, block
array words and width, `solidBlockCount`, both light arrays) as it was; hence a call
`setBlock(p, s)` that returned normally, repeated, returns the same section again. -/
theorem rewrite_current_is_noop (c : Constants) (hc : c.Valid) (s : ChunkSection)
    (hs : ChunkSection.Reachable c s) (pos : Pos) (hpos : pos.InRange) :
    (∃ stateId, s.getBlock pos = .ok stateId ∧
      ChunkSection.setBlock c s pos stateId = .ok s) ∧
    (∀ (stateId : Int) (s1 : ChunkSection),
      ChunkSection.setBlock c s pos stateId = .ok s1 →
      ChunkSection.setBlock c s1 pos stateId = .ok s1) := by
  refine ⟨ChunkSection.setBlock_current (hs.invariant hc).1 hpos, ?_⟩
  intro stateId s1 h
  have hs1 := ChunkSection.Reachable.setBlock hs hpos h
  obtain ⟨id', hget, hset⟩ := ChunkSection.setBlock_current (hs1.invariant hc).1 hpos
  have hget' : s1.getBlock pos = .ok stateId := by
    rw [ChunkSection.getBlock_after_setBlock hc (hs.invariant hc).1 hpos h, if_pos rfl]
  rw [hget'] at hget
  simp only [Except.ok.injEq] at hget
  rw [hget]
  exact hset

/-- Witness of C20: on the fresh section `setBlock((1,2,3), 0)` rewrites the current
identifier `0` and returns the fresh section. -/
theorem rewrite_current_is_noop_witness :
    ChunkSection.fresh.getBlock { x := 1, y := 2, z := 3 } = .ok 0 ∧
      ChunkSection.setBlock exampleConstants ChunkSection.fresh { x := 1, y := 2, z := 3 } 0
        = .ok ChunkSection.fresh := by
  have hpos : ({ x := 1, y := 2, z := 3 } : Pos).InRange := by decide
  obtain ⟨id, h1, h2⟩ := (rewrite_current_is_noop exampleConstants (by decide)
    ChunkSection.fresh ChunkSection.Reachable.fresh { x := 1, y := 2, z := 3 } hpos).1
  have h0 := ChunkSection.getBlock_fresh _ hpos
  rw [h0] at h1
  simp only [Except.ok.injEq] at h1
  subst h1
  exact ⟨h0, h2⟩


namespace ChunkSection

/-- A `setBlock` call evaluated from its three steps, when the final write succeeds. -/
theorem setBlock_eval {c : Constants} {s s2 : ChunkSection} {pos : Pos} {stateId k old : Int}
    {d : BitArray} (hprep : preparePalette c s stateId = .ok (s2, k))
    (hget : s2.getBlock pos = .ok old) (hset : s2.data.set (getBlockIndex pos) k = .ok d) :
    setBlock c s pos stateId =
      .ok { s2 with
        data := d
        solidBlockCount := nextCount s2.solidBlockCount old stateId } := by
  unfold setBlock
  simp only [hprep, hget]
  by_cases hA : stateId = 0 ∧ old ≠ 0
  · rw [if_pos hA]
    simp only [hset, nextCount, if_pos hA]
  · rw [if_neg hA]
    by_cases hB : stateId ≠ 0 ∧ old = 0
    · rw [if_pos hB]
      simp only [hset, nextCount, if_neg hA, if_pos hB]
    · rw [if_neg hB]
      simp only [hset, nextCount, if_neg hA, if_neg hB]

/-- A `setBlock` call evaluated from its three steps, when the final write throws: the
exception leaves the section with `solidBlockCount` already updated. -/
theorem setBlock_eval_error {c : Constants} {s s2 : ChunkSection} {pos : Pos}
    {stateId k old : Int} {e : Error} (hprep : preparePalette c s stateId = .ok (s2, k))
    (hget : s2.getBlock pos = .ok old) (hset : s2.data.set (getBlockIndex pos) k = .error e) :
    setBlock c s pos stateId =
      .error (e, { s2 with solidBlockCount := nextCount s2.solidBlockCount old stateId }) := by
  unfold setBlock
  simp only [hprep, hget]
  by_cases hA : stateId = 0 ∧ old ≠ 0
  · rw [if_pos hA]
    simp only [hset, nextCount, if_pos hA]
  · rw [if_neg hA]
    by_cases hB : stateId ≠ 0 ∧ old = 0
    · rw [if_pos hB]
      simp only [hset, nextCount, if_neg hA, if_pos hB]
    · rw [if_neg hB]
      simp only [hset, nextCount, if_neg hA, if_neg hB]

/-- The palette step when the identifier is new and its position fits the current width: the
identifier is appended and its position is the value to store; for any section. -/
theorem preparePalette_push_fits {c : Constants} {s : ChunkSection} {palette : List Int}
    {stateId : Int} (hp : s.palette = some palette) (hm : stateId ∉ palette)
    (hfit : neededBits palette.length ≤ s.data.bitsPerValue) :
    preparePalette c s stateId =
      .ok ({ s with palette := some (palette ++ [stateId]) }, (palette.length : Int)) := by
  unfold preparePalette
  rw [hp]
  simp only []
  rw [if_neg (fun h => hm ((indexOf_nonneg_iff _ _).mp h))]
  have hpushlen : (palette ++ [stateId]).length - 1 = palette.length := by simp
  rw [hpushlen]
  simp only [BitArray.getBitsPerValue]
  rw [if_neg (not_lt.mpr hfit)]

theorem getD_push_ne (palette : List Int) (stateId : Int) {v : Nat} (hv : v ≠ palette.length) :
    ((palette ++ [stateId])[v]?).getD (v : Int) = (palette[v]?).getD (v : Int) := by
  by_cases hlt : v < palette.length
  · rw [List.getElem?_append_left hlt]
  · rw [List.getElem?_eq_none (by simp; omega), List.getElem?_eq_none (by omega)]

/-- The palette step leaves the identifier `getBlock` resolves at a position unchanged, unless
the identifier set is new to the palette and the value stored at the position is the palette
length (an out-of-bounds value that the appended entry brings into bounds). -/
theorem preparePalette_keeps_getBlock {c : Constants} {s s2 : ChunkSection} {pos : Pos}
    {stateId k : Int} (hc : c.Valid) (hw : s.data.WellFormed)
    (hcap : s.data.capacity = SECTION_VOLUME) (hpos : pos.InRange)
    (hraw : ∀ palette, s.palette = some palette → stateId ∉ palette →
      s.data.valueAt (getBlockIndex pos) ≠ palette.length)
    (h : preparePalette c s stateId = .ok (s2, k)) :
    s2.getBlock pos = s.getBlock pos := by
  have hi := getBlockIndex_lt hpos
  unfold preparePalette at h
  cases hp : s.palette with
  | none =>
    rw [hp] at h
    simp only [Except.ok.injEq, Prod.mk.injEq] at h
    rw [h.1]
  | some palette =>
    rw [hp] at h
    simp only [] at h
    split at h
    · simp only [Except.ok.injEq, Prod.mk.injEq] at h
      rw [h.1]
    · rename_i hidx
      have hm : stateId ∉ palette := fun hm => hidx ((indexOf_nonneg_iff _ _).mpr hm)
      have hne := hraw palette hp hm
      have hpushlen : (palette ++ [stateId]).length - 1 = palette.length := by simp
      rw [hpushlen] at h
      simp only [BitArray.getBitsPerValue] at h
      have hs_get : s.getBlock pos = .ok (s.resolve (getBlockIndex pos)) :=
        getBlock_eq_resolve s pos (hcap.symm ▸ hi)
      have hpush : ({ s with palette := some (palette ++ [stateId]) } : ChunkSection).resolve
          (getBlockIndex pos) = s.resolve (getBlockIndex pos) := by
        simp only [resolve, hp]
        exact getD_push_ne palette stateId hne
      split at h
      · rename_i hgrow
        split at h
        · rename_i hmax
          obtain ⟨d, r1, _, r3, _, r5⟩ := BitArray.resizeTo_spec s.data hw
            (neededBits palette.length) (le_of_lt hgrow) (le_trans hmax hc.2.1)
          simp only [r1, Except.ok.injEq, Prod.mk.injEq] at h
          obtain ⟨rfl, _⟩ := h
          rw [hs_get, getBlock_eq_resolve _ pos (by
            show getBlockIndex pos < d.capacity
            rw [r3, hcap]; exact hi), ← hpush]
          simp only [resolve, r5 _ (hcap.symm ▸ hi)]
        · cases hm' : migrate { s with palette := some (palette ++ [stateId]) } allPositions
              (BitArray.new c.GLOBAL_BITS_PER_BLOCK SECTION_VOLUME) with
          | error e => rw [hm'] at h; cases h
          | ok newData =>
            rw [hm'] at h
            simp only [Except.ok.injEq, Prod.mk.injEq] at h
            obtain ⟨rfl, _⟩ := h
            obtain ⟨_, m2, _, m4, m5⟩ := migrate_ok _ _ _ _
              (BitArray.new_wellFormed _ SECTION_VOLUME hc.2.2.1 hc.2.2.2)
              (fun p hp' => by
                simp only [hcap]
                exact getBlockIndex_lt ((mem_allPositions p).mp hp')) hm'
            have hmem := (mem_allPositions pos).mpr hpos
            have h0 := (m4 pos hmem).1
            rw [hs_get, getBlock_eq_resolve _ pos (by
              show getBlockIndex pos < newData.capacity
              rw [m2]; exact hi)]
            show Except.ok ((newData.valueAt (getBlockIndex pos) : Nat) : Int) = _
            rw [m5, if_pos (List.mem_map.mpr ⟨pos, hmem, rfl⟩), Int.toNat_of_nonneg h0, hpush]
      · simp only [Except.ok.injEq, Prod.mk.injEq] at h
        obtain ⟨rfl, _⟩ := h
        rw [hs_get, getBlock_eq_resolve _ pos (hcap.symm ▸ hi), hpush]

end ChunkSection


/-- C13, as stated, fails: take the section constructed from the palette `[5]`, a 4-bit block
array whose slot 0 holds `1` (outside the palette bounds) and `solidBlockCount = 4096`.
`getBlock((0,0,0))` returns `1`; `setBlock((0,0,0), 0)` appends `0` to the palette, reads the
old block after that as `palette[1] = 0`, and leaves `solidBlockCount` at `4096`, where the rule
against the pre-call value `1` gives `4095`. -/
theorem solidBlockCount_step_after_push :
    ∃ data s s', (BitArray.new 4 SECTION_VOLUME).set 0 1 = .ok data ∧
      ChunkSection.new { data := some data, palette := some [5], solidBlockCount := some 4096 }
        = .ok s ∧
      s.getBlock { x := 0, y := 0, z := 0 } = .ok 1 ∧
      ChunkSection.setBlock exampleConstants s { x := 0, y := 0, z := 0 } 0 = .ok s' ∧
      s.solidBlockCount = 4096 ∧ s'.solidBlockCount = 4096 := by
  have hw0 := BitArray.new_wellFormed 4 SECTION_VOLUME (by decide) (by decide)
  have hset0 := BitArray.set_eq (BitArray.new 4 SECTION_VOLUME) 0 1
    (by decide : 0 < SECTION_VOLUME) (by decide) (by decide)
  obtain ⟨hw, hcap, hbits⟩ := BitArray.set_wellFormed hw0 hset0
  have hv := BitArray.valueAt_set hw0 hset0 0
  rw [if_pos rfl] at hv
  generalize hdata : ({ BitArray.new 4 SECTION_VOLUME with
    data := BitArray.writeBits (BitArray.new 4 SECTION_VOLUME).data
      (0 * (BitArray.new 4 SECTION_VOLUME).bitsPerValue)
      (BitArray.new 4 SECTION_VOLUME).bitsPerValue (1 : Int).toNat } : BitArray) = data
    at hset0 hw hcap hbits hv
  have hv1 : data.valueAt 0 = 1 := hv
  have hcap' : data.capacity = SECTION_VOLUME := hcap
  have hbits' : data.bitsPerValue = 4 := hbits
  let s : ChunkSection :=
    { data := data
      palette := some [5]
      isDirty := false
      blockLight := BitArray.new 4 SECTION_VOLUME
      skyLight := BitArray.new 4 SECTION_VOLUME
      solidBlockCount := 4096 }
  have hidx : getBlockIndex { x := 0, y := 0, z := 0 } = 0 := rfl
  have hprep : ChunkSection.preparePalette exampleConstants s 0 =
      .ok ({ s with palette := some ([5] ++ [0]) }, (([5] : List Int).length : Int)) :=
    ChunkSection.preparePalette_push_fits rfl (by decide) (by
      show neededBits 1 ≤ data.bitsPerValue
      rw [hbits', neededBits_le_iff]
      decide)
  have hget1 : ({ s with palette := some ([5] ++ [0]) } : ChunkSection).getBlock
      { x := 0, y := 0, z := 0 } = .ok 0 := by
    rw [ChunkSection.getBlock_eq_resolve _ _ (by
      show getBlockIndex { x := 0, y := 0, z := 0 } < data.capacity
      rw [hcap', hidx]; decide)]
    simp only [ChunkSection.resolve, hidx]
    show Except.ok ((([5] ++ [0] : List Int)[data.valueAt 0]?).getD (data.valueAt 0 : Int)) = _
    rw [hv1]
    rfl
  have hset1 := BitArray.set_eq data (getBlockIndex { x := 0, y := 0, z := 0 })
    (([5] : List Int).length : Int) (by rw [hcap', hidx]; decide) (by decide)
    (by rw [hbits']; decide)
  refine ⟨data, s, _, hset0, rfl, ?_, ChunkSection.setBlock_eval hprep hget1 hset1, rfl, rfl⟩
  rw [ChunkSection.getBlock_eq_resolve s _ (by
    show getBlockIndex { x := 0, y := 0, z := 0 } < data.capacity
    rw [hcap', hidx]; decide)]
  simp only [ChunkSection.resolve, hidx]
  show Except.ok ((([5] : List Int)[data.valueAt 0]?).getD (data.valueAt 0 : Int)) = _
  rw [hv1]
  rfl

/-- C13 (amended): for every section whose block array is a well-formed Packed Array of 4096
slots (palette, stored values and count arbitrary), a position `p` in range and an identifier
`s`, unless `s` is new to the palette while the value stored at `p` equals the palette length:
whenever `setBlock(p, s)` returns normally, with `old` the result of `getBlock(p)` before the
call, the new `solidBlockCount` is the old one minus 1 if `s = 0` and `old ≠ 0`, plus 1 if
`s ≠ 0` and `old = 0`, and the old one otherwise. -/
theorem solidBlockCount_step (c : Constants) (hc : c.Valid) (s : ChunkSection)
    (hw : s.data.WellFormed) (hcap : s.data.capacity = SECTION_VOLUME) (pos : Pos)
    (hpos : pos.InRange) (stateId : Int)
    (hraw : ∀ palette, s.palette = some palette → stateId ∉ palette →
      s.data.valueAt (getBlockIndex pos) ≠ palette.length)
    (s' : ChunkSection) (hset : ChunkSection.setBlock c s pos stateId = .ok s') :
    ∃ old, s.getBlock pos = .ok old ∧
      (stateId = 0 ∧ old ≠ 0 → s'.solidBlockCount = s.solidBlockCount - 1) ∧
      (stateId ≠ 0 ∧ old = 0 → s'.solidBlockCount = s.solidBlockCount + 1) ∧
      (¬ (stateId = 0 ∧ old ≠ 0) → ¬ (stateId ≠ 0 ∧ old = 0) →
        s'.solidBlockCount = s.solidBlockCount) := by
  obtain ⟨s2, k, old, d, hprep, hget, _, rfl⟩ := ChunkSection.setBlock_ok_parts hset
  have hcount := (ChunkSection.preparePalette_frame hprep).2.2.2
  have hsame := ChunkSection.preparePalette_keeps_getBlock hc hw hcap hpos hraw hprep
  refine ⟨old, hsame ▸ hget, ?_, ?_, ?_⟩
  · intro hA
    show ChunkSection.nextCount s2.solidBlockCount old stateId = _
    rw [ChunkSection.nextCount, if_pos hA, hcount]
  · intro hB
    have hA : ¬ (stateId = 0 ∧ old ≠ 0) := fun h => hB.1 h.1
    show ChunkSection.nextCount s2.solidBlockCount old stateId = _
    rw [ChunkSection.nextCount, if_neg hA, if_pos hB, hcount]
  · intro hA hB
    show ChunkSection.nextCount s2.solidBlockCount old stateId = _
    rw [ChunkSection.nextCount, if_neg hA, if_neg hB, hcount]

/-- Witness of C13 (amended): on the fresh section `setBlock((1,2,3), 5)` finds the old
identifier `0` and raises `solidBlockCount` from `0` to `1`. -/
theorem solidBlockCount_step_witness :
    ∃ s', ChunkSection.setBlock exampleConstants ChunkSection.fresh { x := 1, y := 2, z := 3 } 5
        = .ok s' ∧
      ChunkSection.fresh.getBlock { x := 1, y := 2, z := 3 } = .ok 0 ∧
      s'.solidBlockCount = ChunkSection.fresh.solidBlockCount + 1 := by
  have hc := ChunkSection.exampleConstants_valid
  have hpos : ({ x := 1, y := 2, z := 3 } : Pos).InRange := by decide
  have hf := ChunkSection.shape_fresh exampleConstants hc
  obtain ⟨s', h⟩ : ∃ s', ChunkSection.setBlock exampleConstants ChunkSection.fresh
      { x := 1, y := 2, z := 3 } 5 = .ok s' :=
    ChunkSection.setBlock_succeeds_indexed (getBlockIndex_lt hpos) hc hf
      (rfl : ChunkSection.fresh.palette = some [0]) (fun _ => by decide)
  obtain ⟨old, h1, _, h3, _⟩ := solidBlockCount_step exampleConstants hc ChunkSection.fresh
    hf.data_wf hf.data_cap { x := 1, y := 2, z := 3 } hpos 5
    (fun palette hp _ => by
      rw [ChunkSection.valueAt_fresh]
      have hp' : some [0] = some palette := hp
      simp only [Option.some.injEq] at hp'
      rw [← hp']
      decide) s' h
  have h0 := ChunkSection.getBlock_fresh _ hpos
  rw [h0] at h1
  simp only [Except.ok.injEq] at h1
  subst h1
  exact ⟨s', h, h0, h3 ⟨by decide, rfl⟩⟩


namespace ChunkSection

/-- A run of `setBlock` calls leaves `getBlock` unchanged at a position whose linear index none
of the calls addresses. -/
theorem run_other_cell {c : Constants} (hc : c.Valid) (q : Pos) :
    ∀ (ops : List (Pos × Int)) (s s' : ChunkSection), Reachable c s →
      (∀ op ∈ ops, op.1.InRange ∧ getBlockIndex q ≠ getBlockIndex op.1) →
      run c s ops = .ok s' → s'.getBlock q = s.getBlock q := by
  intro ops
  induction ops with
  | nil =>
    intro s s' _ _ h
    simp only [run, Except.ok.injEq] at h
    rw [h]
  | cons op rest ih =>
    intro s s' hr hops h
    obtain ⟨pos, stateId⟩ := op
    simp only [run] at h
    cases hset : setBlock c s pos stateId with
    | error e => rw [hset] at h; cases h
    | ok s1 =>
      rw [hset] at h
      obtain ⟨hpos, hne⟩ := hops (pos, stateId) (List.mem_cons_self _ _)
      rw [ih s1 s' (Reachable.setBlock hr hpos hset)
        (fun o ho => hops o (List.mem_cons_of_mem _ ho)) h,
        getBlock_after_setBlock hc (hr.invariant hc).1 hpos hset, if_neg hne]

/-- After the 256 calls of `fillOps`, all at `(0,0,0)`, every other position still reads `0`. -/
theorem fillOps_other_cell (q : Pos) (hq : q.InRange)
    (hne : getBlockIndex q ≠ getBlockIndex { x := 0, y := 0, z := 0 }) {s : ChunkSection}
    (h : run exampleConstants fresh fillOps = .ok s) : s.getBlock q = .ok 0 := by
  rw [run_other_cell exampleConstants_valid q fillOps fresh s Reachable.fresh (fun op hop => by
    refine ⟨(fillOps_bounded op hop).1, ?_⟩
    simp only [fillOps, List.mem_map, List.mem_range] at hop
    obtain ⟨i, _, rfl⟩ := hop
    exact hne) h]
  exact getBlock_fresh q hq

end ChunkSection

/-- C16 fails on the code: in the Global-mode section reached by the 256 calls
`setBlock((0,0,0), i)`, `i = 1, …, 256`, the call `setBlock((1,0,0), 32768)` fails with
`ValueOutOfRange`, and the section it leaves has `solidBlockCount` one above the number of
positions whose `getBlock` result is non-zero: the count was raised (cell `(1,0,0)` held `0`)
before the write threw. -/
theorem failed_write_breaks_solidBlockCount :
    ∃ s e, ChunkSection.run exampleConstants ChunkSection.fresh ChunkSection.fillOps = .ok s ∧
      s.solidBlockCount = (s.solidCells : Int) ∧
      ChunkSection.setBlock exampleConstants s { x := 1, y := 0, z := 0 } 32768 =
        .error (Error.ValueOutOfRange, e) ∧
      e.solidBlockCount = (e.solidCells : Int) + 1 := by
  obtain ⟨s, hrun, hr, hpal, _⟩ := ChunkSection.fillOps_global
  have hinv := hr.reachable.invariant ChunkSection.exampleConstants_valid
  have hpos : ({ x := 1, y := 0, z := 0 } : Pos).InRange := by decide
  have hget := ChunkSection.fillOps_other_cell { x := 1, y := 0, z := 0 } hpos (by decide) hrun
  have hbits : s.data.bitsPerValue = 15 := hinv.1.global hpal
  have hset : s.data.set (getBlockIndex { x := 1, y := 0, z := 0 }) 32768 =
      .error Error.ValueOutOfRange :=
    BitArray.set_eq_error_value _ _ _ (by rw [hinv.1.data_cap]; decide)
      (by rw [hbits]; decide)
  have hprep : ChunkSection.preparePalette exampleConstants s 32768 = .ok (s, 32768) := by
    simp only [ChunkSection.preparePalette, hpal]
  refine ⟨s, _, hrun, hinv.2, ChunkSection.setBlock_eval_error hprep hget hset, ?_⟩
  show ChunkSection.nextCount s.solidBlockCount 0 32768 = _
  have hcells : ({ s with solidBlockCount := ChunkSection.nextCount s.solidBlockCount 0 32768 } :
      ChunkSection).solidCells = s.solidCells := ChunkSection.solidCells_congr rfl rfl
  rw [hcells, ← hinv.2]
  rfl

/-- C18 fails on the code: let `s` be the Global-mode section reached by the calls
`setBlock((0,0,0), i)`, `i = 1, …, 256`, and `setBlock((1,0,0), 1)`, and `r =
fromJson(toJson(s))`.  After `setBlock((2,0,0), 7)` on both, `getBlock((1,0,0))` is `1` on the
original and `7` on the restored section, whose palette `[0]` grew to `[0, 7]` and now resolves
the stored identifier `1` as a palette position. -/
theorem restored_section_diverges :
    ∃ s r s' r', ChunkSection.run exampleConstants ChunkSection.fresh
        (ChunkSection.fillOps ++ [({ x := 1, y := 0, z := 0 }, 1)]) = .ok s ∧
      ChunkSection.fromJson (ChunkSection.toJson s) = .ok r ∧
      ChunkSection.setBlock exampleConstants s { x := 2, y := 0, z := 0 } 7 = .ok s' ∧
      ChunkSection.setBlock exampleConstants r { x := 2, y := 0, z := 0 } 7 = .ok r' ∧
      s'.getBlock { x := 1, y := 0, z := 0 } = .ok 1 ∧
      r'.getBlock { x := 1, y := 0, z := 0 } = .ok 7 := by
  have hc := ChunkSection.exampleConstants_valid
  obtain ⟨s0, hrun0, hr0, hpal0, _⟩ := ChunkSection.fillOps_global
  have hp1 : ({ x := 1, y := 0, z := 0 } : Pos).InRange := by decide
  have hp2 : ({ x := 2, y := 0, z := 0 } : Pos).InRange := by decide
  have hinv0 := hr0.reachable.invariant hc
  -- the original section
  obtain ⟨s, hset1⟩ := ChunkSection.setBlock_succeeds (getBlockIndex_lt hp1) hc hinv0.1
    (hr0.bounded hc) (by decide : (0 : Int) ≤ 1) (by decide)
  have hr : ChunkSection.ReachableBounded exampleConstants s :=
    ChunkSection.ReachableBounded.setBlock hr0 hp1 (by decide) (by decide) hset1
  have hinv := hr.reachable.invariant hc
  have hpal : s.palette = none := by
    rw [(ChunkSection.setBlock_ok (getBlockIndex_lt hp1) hc hinv0.1 hset1).2.2.2.2.2.2.1, hpal0]
    rfl
  have hget1 : s.getBlock { x := 1, y := 0, z := 0 } = .ok 1 := by
    rw [ChunkSection.getBlock_after_setBlock hc hinv0.1 hp1 hset1, if_pos rfl]
  have hrun : ChunkSection.run exampleConstants ChunkSection.fresh
      (ChunkSection.fillOps ++ [({ x := 1, y := 0, z := 0 }, 1)]) = .ok s := by
    rw [ChunkSection.run_append, hrun0]
    simp only [ChunkSection.run, hset1]
  obtain ⟨s', hset2⟩ := ChunkSection.setBlock_succeeds (getBlockIndex_lt hp2) hc hinv.1
    (hr.bounded hc) (by decide : (0 : Int) ≤ 7) (by decide)
  have hget2 : s'.getBlock { x := 1, y := 0, z := 0 } = .ok 1 := by
    rw [ChunkSection.getBlock_after_setBlock hc hinv.1 hp2 hset2, if_neg (by decide), hget1]
  -- the stored value at (1,0,0)
  have hi1 : getBlockIndex { x := 1, y := 0, z := 0 } < s.data.capacity := by
    rw [hinv.1.data_cap]; exact getBlockIndex_lt hp1
  have hraw : s.data.valueAt (getBlockIndex { x := 1, y := 0, z := 0 }) = 1 := by
    have h := hget1
    rw [ChunkSection.getBlock_eq_resolve s _ hi1] at h
    simp only [ChunkSection.resolve, hpal, Except.ok.injEq] at h
    exact_mod_cast h
  -- the restored section
  have hfrom := ChunkSection.fromJson_toJson hinv.1.data_wf hinv.1.blockLight_wf
    hinv.1.skyLight_wf
  rw [hpal] at hfrom
  have hbits : s.data.bitsPerValue = 15 := hinv.1.global hpal
  obtain ⟨r, hrdef⟩ : ∃ r : ChunkSection, { s with palette := some [0], isDirty := false } = r :=
    ⟨_, rfl⟩
  have hfrom : ChunkSection.fromJson (ChunkSection.toJson s) = .ok r := hrdef ▸ hfrom
  have hrdata : r.data = s.data := by rw [← hrdef]
  have hrpal : r.palette = some [0] := by rw [← hrdef]
  have hprep : ChunkSection.preparePalette exampleConstants r 7 =
      .ok ({ r with palette := some ([0] ++ [7]) }, (([0] : List Int).length : Int)) :=
    ChunkSection.preparePalette_push_fits hrpal (by decide) (by
      rw [hrdata, hbits, neededBits_le_iff]
      decide)
  have hi2 : getBlockIndex { x := 2, y := 0, z := 0 } < r.data.capacity := by
    rw [hrdata, hinv.1.data_cap]; exact getBlockIndex_lt hp2
  have hold := ChunkSection.getBlock_eq_resolve
    ({ r with palette := some ([0] ++ [7]) } : ChunkSection) { x := 2, y := 0, z := 0 } hi2
  have hwrite := BitArray.set_eq r.data (getBlockIndex { x := 2, y := 0, z := 0 })
    (([0] : List Int).length : Int) hi2 (by decide) (by rw [hrdata, hbits]; decide)
  have hset3 := ChunkSection.setBlock_eval hprep hold hwrite
  refine ⟨s, r, s', _, hrun, hfrom, hset2, hset3, hget2, ?_⟩
  have hrw : r.data.WellFormed := by rw [hrdata]; exact hinv.1.data_wf
  have hval := BitArray.valueAt_set hrw hwrite (getBlockIndex { x := 1, y := 0, z := 0 })
  have hraw' : r.data.valueAt (getBlockIndex { x := 1, y := 0, z := 0 }) = 1 := by
    rw [hrdata]; exact hraw
  rw [if_neg (by decide), hraw'] at hval
  rw [ChunkSection.getBlock_eq_resolve _ _ (by
    show getBlockIndex { x := 1, y := 0, z := 0 } < BitArray.capacity _
    rw [(BitArray.set_wellFormed hrw hwrite).2.1, hrdata]; exact hi1)]
  simp only [ChunkSection.resolve]
  rw [hval]
  rfl

end PrismarineChunk
